import Mathlib

/-!
# Reversi / Othello: rules engine and search

A shallow embedding of the rules engine and of the alpha-beta search of
`Reversi.cpp` (console) and `ReversiGUI.cpp` (graphical).

The two files share `isInBounds`, `checkDirection`, `isValidMove`, `hasValidMoves`,
`countPieces`, `minimax` and `getAIMove` verbatim.  They differ in `evaluateBoard` (the
console variant adds an edge bonus) and in `flipDirection` / `makeMove`, where the
graphical variant also fills an animation queue; `makeMoveGUI_game` shows that the queue
never feeds back into `board` and `moveCount`, so the search is modelled on these two
globals for both files.

Conventions:
* the global `int board[8][8]` is a function from two `Int` indices to an `Int` cell; the
  code reads a cell only after `isInBounds`;
* the globals `board` and `moveCount` are threaded explicitly as a `Game`, and a function
  that writes them returns the `Game` it leaves behind;
* a `for` loop over `0..7` is a recursion over the list `indices`, a `break` ends the
  recursion, and a `while` loop is a recursion with a bound on the number of iterations
  that is shown never to be reached (`checkDirection_fuel`, `flipDirection_fuel`,
  `minimaxWith_unfold`).
-/

namespace Reversi

/-! ## Constants and the data model -/

/-- The constant `BOARD_SIZE`. -/
def BOARD_SIZE : Int := 8

/-- The cell value `EMPTY`. -/
def EMPTY : Int := 0

/-- The cell value and side `BLACK` (`PLAYER_BLACK` in the graphical file). -/
def BLACK : Int := 1

/-- The cell value and side `WHITE` (`PLAYER_WHITE` in the graphical file). -/
def WHITE : Int := 2

/-- The constant `MAX_DEPTH`. -/
def MAX_DEPTH : Int := 4

/-- The grid `int board[BOARD_SIZE][BOARD_SIZE]`, read as `board r c`. -/
abbrev Board := Int → Int → Int

/-- The two globals the engine mutates: `board` and `moveCount`. -/
structure Game where
  board : Board
  moveCount : Int

/-- The assignment `board[r][c] = v`. -/
def setCell (b : Board) (r c v : Int) : Board :=
  fun r' c' => if r' = r ∧ c' = c then v else b r' c'

/-- The index values of `for (int i = 0; i < BOARD_SIZE; i++)`. -/
def indices : List Int := [0, 1, 2, 3, 4, 5, 6, 7]

/-- The table `directions[8][2]` of `isValidMove` and `makeMove`. -/
def directions : List (Int × Int) :=
  [(-1, -1), (-1, 0), (-1, 1), (0, -1), (0, 1), (1, -1), (1, 0), (1, 1)]

/-- The expression `(player == BLACK) ? WHITE : BLACK`. -/
def opponentOf (player : Int) : Int :=
  if player = BLACK then WHITE else BLACK

/-- The board and counter after `initBoard()`. -/
def initBoard : Game :=
  { board := setCell (setCell (setCell (setCell (fun _ _ => EMPTY) 3 3 WHITE) 3 4 BLACK)
      4 3 BLACK) 4 4 WHITE
    moveCount := 4 }

/-! ## Move rules -/

/-- The function `isInBounds`. -/
def isInBounds (row col : Int) : Bool :=
  decide (row ≥ 0) && decide (row < BOARD_SIZE) && decide (col ≥ 0) && decide (col < BOARD_SIZE)

/-- The `while (isInBounds(r, c))` loop of `checkDirection`, at position `(r, c)`
with the flag `foundOpponent`.  The first argument bounds the number of
iterations; a walk that stays on the board takes at most 8 steps. -/
def checkDirectionLoop (board : Board) (dr dc player opponent : Int) :
    Nat → Int → Int → Bool → Bool
  | 0, _, _, _ => false
  | n + 1, r, c, foundOpponent =>
    if isInBounds r c then
      if board r c = EMPTY then false
      else if board r c = opponent then
        checkDirectionLoop board dr dc player opponent n (r + dr) (c + dc) true
      else if board r c = player then foundOpponent
      else checkDirectionLoop board dr dc player opponent n (r + dr) (c + dc) foundOpponent
    else false

/-- The function `checkDirection`: the walk starts one step from `(row, col)` with
`foundOpponent = false`. -/
def checkDirection (board : Board) (row col dr dc player : Int) : Bool :=
  checkDirectionLoop board dr dc player (opponentOf player) 8 (row + dr) (col + dc) false

/-- The function `isValidMove`: the guard, then the loop over `directions` that returns
true at the first direction that captures. -/
def isValidMove (board : Board) (row col player : Int) : Bool :=
  if !isInBounds row col || board row col ≠ EMPTY then false
  else directions.any (fun d => checkDirection board row col d.1 d.2 player)

/-! ## Move execution -/

/-- The `while (isInBounds(r, c) && board[r][c] == opponent)` loop of
`flipDirection`, at position `(r, c)`. -/
def flipDirectionLoop (dr dc player opponent : Int) : Nat → Int → Int → Board → Board
  | 0, _, _, board => board
  | n + 1, r, c, board =>
    if isInBounds r c && board r c = opponent then
      flipDirectionLoop dr dc player opponent n (r + dr) (c + dc) (setCell board r c player)
    else board

/-- The function `flipDirection` of `Reversi.cpp`. -/
def flipDirection (board : Board) (row col dr dc player : Int) : Board :=
  flipDirectionLoop dr dc player (opponentOf player) 8 (row + dr) (col + dc) board

/-- One iteration of the direction loop of `makeMove`. -/
def makeMoveStep (row col player : Int) (board : Board) (d : Int × Int) : Board :=
  if checkDirection board row col d.1 d.2 player then
    flipDirection board row col d.1 d.2 player
  else board

/-- The function `makeMove` of `Reversi.cpp`: place the piece, count the move, then run
the loop over `directions`. -/
def makeMove (row col player : Int) (g : Game) : Game :=
  { board := directions.foldl (makeMoveStep row col player) (setCell g.board row col player)
    moveCount := g.moveCount + 1 }

/-- The function `hasValidMoves`: the row-major scan that returns true at the first legal
cell. -/
def hasValidMoves (board : Board) (player : Int) : Bool :=
  indices.any (fun i => indices.any (fun j => isValidMove board i j player))

/-! ## Move execution in the graphical file -/

/-- The animation globals of `ReversiGUI.cpp` that `flipDirection` and `makeMove` write:
the first `animationCount` entries `(animRow, animCol, animFromPlayer, animToPlayer)` of
the animation arrays, so that `animationCount` is the length of `queue`, and the flag
`isAnimating`.  The time stamps `animStartTime` and `animProgress` are left out. -/
structure AnimState where
  queue : List (Int × Int × Int × Int)
  isAnimating : Bool

/-- The loop of `flipDirection` in `ReversiGUI.cpp`: it flips the cell as the console
loop does and, while `animationCount < 64`, appends the flip to the animation queue. -/
def flipDirectionLoopGUI (dr dc player opponent : Int) :
    Nat → Int → Int → Board × AnimState → Board × AnimState
  | 0, _, _, s => s
  | n + 1, r, c, s =>
    if isInBounds r c && s.1 r c = opponent then
      let anim : AnimState :=
        if s.2.queue.length < 64 then
          { s.2 with queue := s.2.queue ++ [(r, c, opponent, player)] }
        else s.2
      flipDirectionLoopGUI dr dc player opponent n (r + dr) (c + dc)
        (setCell s.1 r c player, anim)
    else s

/-- `flipDirection` of `ReversiGUI.cpp`. -/
def flipDirectionGUI (s : Board × AnimState) (row col dr dc player : Int) : Board × AnimState :=
  flipDirectionLoopGUI dr dc player (opponentOf player) 8 (row + dr) (col + dc) s

/-- One iteration of the direction loop of `makeMove` in `ReversiGUI.cpp`. -/
def makeMoveStepGUI (row col player : Int) (s : Board × AnimState) (d : Int × Int) :
    Board × AnimState :=
  if checkDirection s.1 row col d.1 d.2 player then flipDirectionGUI s row col d.1 d.2 player
  else s

/-- `makeMove` of `ReversiGUI.cpp`: the console `makeMove` plus the reset of the animation
queue before the flips and of `isAnimating` when nothing was flipped. -/
def makeMoveGUI (row col player : Int) (g : Game) : Game × AnimState :=
  let s := directions.foldl (makeMoveStepGUI row col player)
    (setCell g.board row col player, { queue := [], isAnimating := true })
  let anim : AnimState := if s.2.queue.length = 0 then { s.2 with isAnimating := false } else s.2
  ({ board := s.1, moveCount := g.moveCount + 1 }, anim)

/-! ## Counting -/

/-- The 64 cells in the row-major order of the `i` / `j` loops. -/
def allCells : List (Int × Int) := indices.flatMap (fun i => indices.map (fun j => (i, j)))

/-- The body of the loops of `countPieces` at cell `(i, j)`; the pair is
`(blackCount, whiteCount)`. -/
def countStep (board : Board) (acc : Int × Int) (i j : Int) : Int × Int :=
  if board i j = BLACK then (acc.1 + 1, acc.2)
  else if board i j = WHITE then (acc.1, acc.2 + 1)
  else acc

/-- The pair `(blackCount, whiteCount)` that `countPieces` writes to its arguments. -/
def countPieces (board : Board) : Int × Int :=
  indices.foldl (fun acc i => indices.foldl (fun acc j => countStep board acc i j) acc) (0, 0)

/-! ## Position evaluation -/

/-- The table `corners[4][2]` of `evaluateBoard`. -/
def corners : List (Int × Int) := [(0, 0), (0, 7), (7, 0), (7, 7)]

/-- `evaluateBoard` of `Reversi.cpp` (console): piece difference, corner loop, edge loop. -/
def evaluateBoard (board : Board) (player : Int) : Int :=
  let counts := countPieces board
  let blackCount := counts.1
  let whiteCount := counts.2
  let cornerWeight : Int := 25
  let edgeWeight : Int := 5
  let score : Int := if player = BLACK then blackCount - whiteCount else whiteCount - blackCount
  let score := corners.foldl (fun score rc =>
    if board rc.1 rc.2 = player then score + cornerWeight
    else if board rc.1 rc.2 ≠ EMPTY then score - cornerWeight
    else score) score
  let score := indices.foldl (fun score i =>
    if board 0 i = player ∨ board 7 i = player ∨ board i 0 = player ∨ board i 7 = player then
      score + edgeWeight
    else score) score
  score

/-- `evaluateBoard` of `ReversiGUI.cpp` (graphical): piece difference and corner loop;
`edgeWeight` is declared but there is no edge loop. -/
def evaluateBoardGUI (board : Board) (player : Int) : Int :=
  let counts := countPieces board
  let blackCount := counts.1
  let whiteCount := counts.2
  let cornerWeight : Int := 25
  let score : Int := if player = BLACK then blackCount - whiteCount else whiteCount - blackCount
  let score := corners.foldl (fun score rc =>
    if board rc.1 rc.2 = player then score + cornerWeight
    else if board rc.1 rc.2 ≠ EMPTY then score - cornerWeight
    else score) score
  score

/-! ## Search -/

/-- The variables that the move loops of `minimax` update: the globals, the running
`maxEval` / `minEval` (`best`), and the locals `alpha` and `beta`. -/
structure SearchState where
  game : Game
  best : Int
  alpha : Int
  beta : Int

/-- The inner `for j` loop of the maximizing branch of `minimax` in row `i`.  `child` is
the recursive call `minimax(depth - 1, false, player, alpha, beta)`, here a function of
`alpha`, `beta` and the globals.  With `prune = false` the statement
`if (beta <= alpha) break;` is left out. -/
def maxCols (prune : Bool) (child : Int → Int → Game → Int × Game) (currentPlayer i : Int) :
    List Int → SearchState → SearchState
  | [], st => st
  | j :: js, st =>
    if isValidMove st.game.board i j currentPlayer then
      let tempBoard := st.game.board
      let tempMoveCount := st.game.moveCount
      let res := child st.alpha st.beta (makeMove i j currentPlayer st.game)
      let eval := res.1
      let restored : Game := { res.2 with board := tempBoard, moveCount := tempMoveCount }
      let maxEval := if eval > st.best then eval else st.best
      let alpha := if st.alpha > eval then st.alpha else eval
      let st' : SearchState := { game := restored, best := maxEval, alpha := alpha, beta := st.beta }
      if prune && decide (st.beta ≤ alpha) then st'
      else maxCols prune child currentPlayer i js st'
    else maxCols prune child currentPlayer i js st

/-- The outer `for i` loop of the maximizing branch, with its own
`if (beta <= alpha) break;` after each row. -/
def maxRows (prune : Bool) (child : Int → Int → Game → Int × Game) (currentPlayer : Int) :
    List Int → SearchState → SearchState
  | [], st => st
  | i :: is, st =>
    let st' := maxCols prune child currentPlayer i indices st
    if prune && decide (st'.beta ≤ st'.alpha) then st'
    else maxRows prune child currentPlayer is st'

/-- The inner `for j` loop of the minimizing branch of `minimax` in row `i`. -/
def minCols (prune : Bool) (child : Int → Int → Game → Int × Game) (currentPlayer i : Int) :
    List Int → SearchState → SearchState
  | [], st => st
  | j :: js, st =>
    if isValidMove st.game.board i j currentPlayer then
      let tempBoard := st.game.board
      let tempMoveCount := st.game.moveCount
      let res := child st.alpha st.beta (makeMove i j currentPlayer st.game)
      let eval := res.1
      let restored : Game := { res.2 with board := tempBoard, moveCount := tempMoveCount }
      let minEval := if eval < st.best then eval else st.best
      let beta := if st.beta < eval then st.beta else eval
      let st' : SearchState := { game := restored, best := minEval, alpha := st.alpha, beta := beta }
      if prune && decide (beta ≤ st.alpha) then st'
      else minCols prune child currentPlayer i js st'
    else minCols prune child currentPlayer i js st

/-- The outer `for i` loop of the minimizing branch. -/
def minRows (prune : Bool) (child : Int → Int → Game → Int × Game) (currentPlayer : Int) :
    List Int → SearchState → SearchState
  | [], st => st
  | i :: is, st =>
    let st' := minCols prune child currentPlayer i indices st
    if prune && decide (st'.beta ≤ st'.alpha) then st'
    else minRows prune child currentPlayer is st'

/-- The function `minimax`, returning its value and the globals it leaves behind.
`ev` is the file's `evaluateBoard`; `prune = true` is the code as written and
`prune = false` drops the `beta <= alpha` cut-offs.  The first `Nat` bounds the nesting
of recursive calls; `searchFuel` below is always enough (`minimaxWith_unfold`), and when
it runs out the position is evaluated. -/
def minimaxAux (prune : Bool) (ev : Board → Int → Int) (player : Int) :
    Nat → Int → Bool → Int → Int → Game → Int × Game
  | 0, _, _, _, _, g => (ev g.board player, g)
  | fuel + 1, depth, isMaximizing, alpha, beta, g =>
    if depth = 0 ∨ g.moveCount = BOARD_SIZE * BOARD_SIZE then (ev g.board player, g)
    else
      let opponent := opponentOf player
      let currentPlayer := if isMaximizing then player else opponent
      if !hasValidMoves g.board currentPlayer then
        if !hasValidMoves g.board opponent then (ev g.board player, g)
        else minimaxAux prune ev player fuel (depth - 1) (!isMaximizing) alpha beta g
      else if isMaximizing then
        let st := maxRows prune
          (fun a b g' => minimaxAux prune ev player fuel (depth - 1) false a b g')
          currentPlayer indices { game := g, best := -100000, alpha := alpha, beta := beta }
        (st.best, st.game)
      else
        let st := minRows prune
          (fun a b g' => minimaxAux prune ev player fuel (depth - 1) true a b g')
          currentPlayer indices { game := g, best := 100000, alpha := alpha, beta := beta }
        (st.best, st.game)

/-- A bound on the nesting of recursive calls of `minimax`, whatever `depth` is: a
recursive call follows a legal move, which fills one of at most 64 empty cells, or is the
pass of the maximizing side, which is never followed by a second pass. -/
def searchFuel : Nat := 130

/-- The search with either evaluation function, with and without the cut-offs. -/
def minimaxWith (prune : Bool) (ev : Board → Int → Int) (depth : Int) (isMaximizing : Bool)
    (player alpha beta : Int) (g : Game) : Int × Game :=
  minimaxAux prune ev player searchFuel depth isMaximizing alpha beta g

/-- `minimax` of `Reversi.cpp`. -/
def minimax (depth : Int) (isMaximizing : Bool) (player alpha beta : Int) (g : Game) :
    Int × Game :=
  minimaxWith true evaluateBoard depth isMaximizing player alpha beta g

/-- `minimax` of `ReversiGUI.cpp`. -/
def minimaxGUI (depth : Int) (isMaximizing : Bool) (player alpha beta : Int) (g : Game) :
    Int × Game :=
  minimaxWith true evaluateBoardGUI depth isMaximizing player alpha beta g

/-- The recursion of the console `minimax` with the `beta <= alpha` cut-offs removed. -/
def plainMinimax (depth : Int) (isMaximizing : Bool) (player alpha beta : Int) (g : Game) :
    Int × Game :=
  minimaxWith false evaluateBoard depth isMaximizing player alpha beta g

/-- The recursion of the graphical `minimax` with the `beta <= alpha` cut-offs removed. -/
def plainMinimaxGUI (depth : Int) (isMaximizing : Bool) (player alpha beta : Int) (g : Game) :
    Int × Game :=
  minimaxWith false evaluateBoardGUI depth isMaximizing player alpha beta g

/-- The variables that the loops of `getAIMove` update. -/
structure AIState where
  game : Game
  bestScore : Int
  bestRow : Int
  bestCol : Int

/-- The inner `for j` loop of `getAIMove` in row `i`; `score` is the call
`minimax(MAX_DEPTH - 1, false, player, -100000, 100000)` as a function of the globals. -/
def aiCols (score : Game → Int × Game) (player i : Int) : List Int → AIState → AIState
  | [], st => st
  | j :: js, st =>
    if isValidMove st.game.board i j player then
      let tempBoard := st.game.board
      let tempMoveCount := st.game.moveCount
      let res := score (makeMove i j player st.game)
      let restored : Game := { res.2 with board := tempBoard, moveCount := tempMoveCount }
      if res.1 > st.bestScore then
        aiCols score player i js { game := restored, bestScore := res.1, bestRow := i, bestCol := j }
      else aiCols score player i js { st with game := restored }
    else aiCols score player i js st

/-- The outer `for i` loop of `getAIMove`. -/
def aiRows (score : Game → Int × Game) (player : Int) : List Int → AIState → AIState
  | [], st => st
  | i :: is, st => aiRows score player is (aiCols score player i indices st)

/-- The function `getAIMove` for a given scoring call: the pair `(row, col)` it writes to
its arguments and the globals it leaves behind. -/
def getAIMoveBy (score : Game → Int × Game) (player : Int) (g : Game) : (Int × Int) × Game :=
  let st := aiRows score player indices
    { game := g, bestScore := -100000, bestRow := -1, bestCol := -1 }
  ((st.bestRow, st.bestCol), st.game)

/-- `getAIMove` of `Reversi.cpp`. -/
def getAIMove (player : Int) (g : Game) : (Int × Int) × Game :=
  getAIMoveBy (minimax (MAX_DEPTH - 1) false player (-100000) 100000) player g

/-- `getAIMove` of `ReversiGUI.cpp`. -/
def getAIMoveGUI (player : Int) (g : Game) : (Int × Int) × Game :=
  getAIMoveBy (minimaxGUI (MAX_DEPTH - 1) false player (-100000) 100000) player g

/-- The console `getAIMove` scoring its candidates with `plainMinimax`. -/
def plainGetAIMove (player : Int) (g : Game) : (Int × Int) × Game :=
  getAIMoveBy (plainMinimax (MAX_DEPTH - 1) false player (-100000) 100000) player g

/-- The graphical `getAIMove` scoring its candidates with `plainMinimaxGUI`. -/
def plainGetAIMoveGUI (player : Int) (g : Game) : (Int × Int) × Game :=
  getAIMoveBy (plainMinimaxGUI (MAX_DEPTH - 1) false player (-100000) 100000) player g

/-! ## `initBoard` as a function of the globals -/

/-- The two nested loops of `initBoard` that write `EMPTY` to every cell. -/
def clearBoard (board : Board) : Board :=
  indices.foldl (fun b i => indices.foldl (fun b j => setCell b i j EMPTY) b) board

/-- The function `initBoard` of `Reversi.cpp` run on the globals `g`; `initBoard` above is
the state it always produces on the 64 cells. -/
def initBoardOn (g : Game) : Game :=
  { board := setCell (setCell (setCell (setCell (clearBoard g.board) 3 3 WHITE) 3 4 BLACK)
      4 3 BLACK) 4 4 WHITE
    moveCount := 4 }

/-! ## The console shell -/

/-- The variables of the driving loop of `main` in `Reversi.cpp`: the globals and the
locals `currentPlayer` and `gameOver`. -/
structure ConsoleState where
  game : Game
  currentPlayer : Int
  gameOver : Bool

/-- What one iteration of the console loop did: which branch it took and, for a move, the
coordinate passed to `makeMove`. -/
inductive ConsoleEvent
  | gameOver
  | pass
  | invalidInput
  | invalidMove
  | humanMove (row col : Int)
  | aiMove (row col : Int)
  deriving DecidableEq

/-- The code of a character as the `int` that C++ computes with. -/
def charCode (c : Char) : Int := c.toNat

/-- The column of a token: `move[0] - 'A'`, replaced by `move[0] - 'a'` when
`move[0] >= 'a'`. -/
def decodeCol (c0 : Int) : Int :=
  if c0 ≥ charCode 'a' then c0 - charCode 'a' else c0 - charCode 'A'

/-- The row of a token: `move[1] - '1'`. -/
def decodeRow (c1 : Int) : Int := c1 - charCode '1'

/-- The branch `if (currentPlayer == BLACK)` of the console loop, with the statement
`currentPlayer = ...` that follows it: `move` holds the characters of the token read by
`cin >> move`. -/
def humanTurn (move : List Int) (s : ConsoleState) : ConsoleState × ConsoleEvent :=
  if move.length < 2 then (s, ConsoleEvent.invalidInput)
  else
    let col := decodeCol (move.getD 0 0)
    let row := decodeRow (move.getD 1 0)
    if !isValidMove s.game.board row col s.currentPlayer then (s, ConsoleEvent.invalidMove)
    else
      ({ s with game := makeMove row col s.currentPlayer s.game
                currentPlayer := opponentOf s.currentPlayer },
        ConsoleEvent.humanMove row col)

/-- The `else` branch of the console loop (the AI moves), with the statement
`currentPlayer = ...` that follows it. -/
def aiTurn (s : ConsoleState) : ConsoleState × ConsoleEvent :=
  let ai := getAIMove s.currentPlayer s.game
  ({ s with game := makeMove ai.1.1 ai.1.2 s.currentPlayer ai.2
            currentPlayer := opponentOf s.currentPlayer },
    ConsoleEvent.aiMove ai.1.1 ai.1.2)

/-- One iteration of `while (!gameOver)` in `main` of `Reversi.cpp`; `move` is the token
that `cin >> move` delivers if the iteration reads one. -/
def consoleStep (move : List Int) (s : ConsoleState) : ConsoleState × ConsoleEvent :=
  if !hasValidMoves s.game.board s.currentPlayer then
    if !hasValidMoves s.game.board (opponentOf s.currentPlayer) then
      ({ s with gameOver := true }, ConsoleEvent.gameOver)
    else ({ s with currentPlayer := opponentOf s.currentPlayer }, ConsoleEvent.pass)
  else if s.currentPlayer = BLACK then humanTurn move s
  else aiTurn s

/-! ## The graphical shell -/

/-- The constant `CELL_SIZE`. -/
def CELL_SIZE : Int := 80

/-- The constant `BOARD_OFFSET_X`. -/
def BOARD_OFFSET_X : Int := 84

/-- The constant `BOARD_OFFSET_Y`. -/
def BOARD_OFFSET_Y : Int := 150

/-- The globals of `ReversiGUI.cpp` and the local `pendingPlayer` of `main`, with
`windowClosed` recording a call of `CloseWindow()`.  The clock `gameTime` is left out. -/
structure GuiState where
  game : Game
  anim : AnimState
  gameOver : Bool
  currentPlayer : Int
  pendingPlayer : Int
  windowClosed : Bool

/-- The function `initBoard` of `ReversiGUI.cpp`. -/
def initBoardGUI (s : GuiState) : GuiState :=
  { s with game := initBoardOn s.game, gameOver := false, currentPlayer := BLACK }

/-- What a frame receives from outside: the pixel position of a left click, if
`IsMouseButtonPressed` holds in this frame; whether the loop of `updateAnimations` finds an
entry with `animProgress < 1` at the frame's `gameTime`; and the answers of
`CheckCollisionPointRec` for the mouse position and the buttons PLAY AGAIN and QUIT of the
end-game panel. -/
structure FrameInput where
  click : Option (Int × Int)
  anyActive : Bool
  playHover : Bool
  quitHover : Bool

/-- The function `updateAnimations`; its loop over the queue finds nothing when the queue
is empty. -/
def updateAnimations (anyActive : Bool) (a : AnimState) : AnimState :=
  if !a.isAnimating then a
  else if !(decide (0 < a.queue.length) && anyActive) then { queue := [], isAnimating := false }
  else a

/-- The column of a click: `(mousePos.x - BOARD_OFFSET_X) / CELL_SIZE` converted to `int`,
which truncates toward zero. -/
def pixelToCol (x : Int) : Int := Int.tdiv (x - BOARD_OFFSET_X) CELL_SIZE

/-- The row of a click: `(mousePos.y - BOARD_OFFSET_Y) / CELL_SIZE` converted to `int`. -/
def pixelToRow (y : Int) : Int := Int.tdiv (y - BOARD_OFFSET_Y) CELL_SIZE

/-- The block "Handle player moves" of the frame loop. -/
def guiClick (click : Option (Int × Int)) (s : GuiState) : GuiState :=
  match click with
  | none => s
  | some (x, y) =>
    if !s.gameOver && !s.anim.isAnimating && decide (s.currentPlayer = BLACK) then
      let col := pixelToCol x
      let row := pixelToRow y
      if isValidMove s.game.board row col s.currentPlayer then
        let res := makeMoveGUI row col s.currentPlayer s.game
        if res.2.isAnimating then { s with game := res.1, anim := res.2, pendingPlayer := WHITE }
        else { s with game := res.1, anim := res.2, currentPlayer := WHITE }
      else s
    else s

/-- The block "AI move" of the frame loop. -/
def guiAI (s : GuiState) : GuiState :=
  if !s.gameOver && !s.anim.isAnimating && decide (s.currentPlayer = WHITE) then
    if hasValidMoves s.game.board WHITE then
      let ai := getAIMoveGUI WHITE s.game
      let res := makeMoveGUI ai.1.1 ai.1.2 WHITE ai.2
      if res.2.isAnimating then { s with game := res.1, anim := res.2, pendingPlayer := BLACK }
      else { s with game := res.1, anim := res.2, currentPlayer := BLACK }
    else if !hasValidMoves s.game.board BLACK then { s with gameOver := true }
    else { s with currentPlayer := BLACK }
  else s

/-- The block "Check for game over" of the frame loop. -/
def guiGameOverCheck (s : GuiState) : GuiState :=
  if !s.gameOver && !hasValidMoves s.game.board BLACK && !hasValidMoves s.game.board WHITE then
    { s with gameOver := true }
  else s

/-- The first part of one frame of `while (!WindowShouldClose())` in `main` of
`ReversiGUI.cpp`: from `updateAnimations()` to the block "Check for game over". -/
def guiTurn (inp : FrameInput) (s : GuiState) : GuiState :=
  let wasAnimating := s.anim.isAnimating
  let s1 : GuiState := { s with anim := updateAnimations inp.anyActive s.anim }
  let s2 : GuiState :=
    if wasAnimating && !s1.anim.isAnimating && decide (s1.pendingPlayer ≠ EMPTY) then
      { s1 with currentPlayer := s1.pendingPlayer, pendingPlayer := EMPTY }
    else s1
  guiGameOverCheck (guiAI (guiClick inp.click s2))

/-- The function `drawEndGameGUI`.  It reads the board to draw the panel; only its block
"Handle clicks" writes variables: a left click with the mouse on PLAY AGAIN calls
`initBoard()`, a left click with the mouse on QUIT calls `CloseWindow()`. -/
def drawEndGameGUI (inp : FrameInput) (s : GuiState) : GuiState :=
  match inp.click with
  | none => s
  | some _ =>
    if inp.playHover then initBoardGUI s
    else if inp.quitHover then { s with windowClosed := true }
    else s

/-- One frame of `while (!WindowShouldClose())` in `main` of `ReversiGUI.cpp`: the part up
to the game-over check, then the drawing code, of which only
`if (gameOver) drawEndGameGUI();` writes variables. -/
def guiFrame (inp : FrameInput) (s : GuiState) : GuiState :=
  if (guiTurn inp s).gameOver then drawEndGameGUI inp (guiTurn inp s) else guiTurn inp s

/-! ## Specification-side predicates -/

/-- Every cell of the board is one of Empty, Black, White. -/
def ValidBoard (b : Board) : Prop :=
  ∀ r c : Int, isInBounds r c = true → b r c = EMPTY ∨ b r c = BLACK ∨ b r c = WHITE

/-- The side is Black or White. -/
def ValidSide (p : Int) : Prop := p = BLACK ∨ p = WHITE

/-- The capture rule in the spec's words, for one direction and one run length
`k`: the cells at distance `1..k` from `(row, col)` are on the board and hold
the opposite side, and the cell at distance `k + 1` is on the board and holds
`side`. -/
def CapturesAt (b : Board) (row col dr dc side : Int) (k : Nat) : Prop :=
  1 ≤ k ∧
  (∀ j : Nat, 1 ≤ j → j ≤ k →
    isInBounds (row + j * dr) (col + j * dc) = true ∧
      b (row + j * dr) (col + j * dc) = opponentOf side) ∧
  isInBounds (row + (k + 1 : Nat) * dr) (col + (k + 1 : Nat) * dc) = true ∧
  b (row + (k + 1 : Nat) * dr) (col + (k + 1 : Nat) * dc) = side

/-- A cell lies strictly between the target `(row, col)` and the closing cell of
`side` in a direction of `ds` that captures on board `b`. -/
def IsCaptured (b : Board) (row col side : Int) (ds : List (Int × Int)) (r c : Int) : Prop :=
  ∃ d ∈ ds, ∃ k j : Nat, CapturesAt b row col d.1 d.2 side k ∧ 1 ≤ j ∧ j ≤ k ∧
    r = row + j * d.1 ∧ c = col + j * d.2

/-- A decidable form of `ValidBoard`: the 64 cells are checked one by one. -/
def validBoardB (b : Board) : Bool :=
  indices.all (fun r => indices.all (fun c =>
    decide (b r c = EMPTY) || decide (b r c = BLACK) || decide (b r c = WHITE)))

/-- The number of the 64 cells that hold the value `v`. -/
def countCells (b : Board) (v : Int) : Nat :=
  allCells.countP (fun p => decide (b p.1 p.2 = v))

/-- The number of the 64 cells that are not Empty. -/
def countOccupied (b : Board) : Nat :=
  allCells.countP (fun p => decide (b p.1 p.2 ≠ EMPTY))

/-- The number of cells that `makeMove row col side` turns from the opponent's colour
to `side`. -/
def flipCount (g : Game) (row col side : Int) : Nat :=
  allCells.countP (fun p => decide (g.board p.1 p.2 = opponentOf side) &&
    decide ((makeMove row col side g).board p.1 p.2 = side))

/-- The number of the four corners that hold `v`. -/
def cornerCount (b : Board) (v : Int) : Nat :=
  corners.countP (fun rc => decide (b rc.1 rc.2 = v))

/-- The number of indices `i` in `0..7` for which one of `board[0][i]`, `board[7][i]`,
`board[i][0]`, `board[i][7]` holds `p`. -/
def edgeCount (b : Board) (p : Int) : Nat :=
  indices.countP (fun i => decide (b 0 i = p ∨ b 7 i = p ∨ b i 0 = p ∨ b i 7 = p))

/-- The loop variables of the maximizing branch after a candidate scored `e`. -/
def maxStep (st : SearchState) (e : Int) : SearchState :=
  { game := st.game
    best := if e > st.best then e else st.best
    alpha := if st.alpha > e then st.alpha else e
    beta := st.beta }

/-- The loop variables of the minimizing branch after a candidate scored `e`. -/
def minStep (st : SearchState) (e : Int) : SearchState :=
  { game := st.game
    best := if e < st.best then e else st.best
    alpha := st.alpha
    beta := if st.beta < e then st.beta else e }

/-- The alpha-beta window property: `r` is the value returned with window `(a, b)`, `v` the
value of the recursion without cut-offs. -/
def ThreeWay (r v a b : Int) : Prop :=
  (v ≤ a → r ≤ a) ∧ (b ≤ v → b ≤ r) ∧ (a < v → v < b → r = v)

/-- Relation between the maximizing loop with cut-offs (`st`) and without (`st'`) while no
cut-off has happened; `a0` is the value of `alpha` on entry and `s` the initial `maxEval`. -/
def MaxInv (a0 s : Int) (st st' : SearchState) : Prop :=
  st.game = st'.game ∧ a0 ≤ st.alpha ∧ st.alpha < st.beta ∧
  (st.alpha ≤ a0 ∨ st.alpha ≤ st'.best) ∧ (st.best ≤ s ∨ st.best ≤ st.alpha) ∧
  s ≤ st'.best ∧ (a0 < st'.best → st.best = st'.best)

/-- Relation between the two maximizing loops once the loop with cut-offs has stopped. -/
def MaxBrk (st st' : SearchState) : Prop :=
  st.beta ≤ st.alpha ∧ st.beta ≤ st.best ∧ st.beta ≤ st'.best

/-- Relation between the minimizing loop with cut-offs (`st`) and without (`st'`) while no
cut-off has happened; `b0` is the value of `beta` on entry and `s` the initial `minEval`. -/
def MinInv (b0 s : Int) (st st' : SearchState) : Prop :=
  st.game = st'.game ∧ st.beta ≤ b0 ∧ st.alpha < st.beta ∧
  (b0 ≤ st.beta ∨ st'.best ≤ st.beta) ∧ (s ≤ st.best ∨ st.beta ≤ st.best) ∧
  st'.best ≤ s ∧ (st'.best < b0 → st.best = st'.best)

/-- Relation between the two minimizing loops once the loop with cut-offs has stopped. -/
def MinBrk (st st' : SearchState) : Prop :=
  st.beta ≤ st.alpha ∧ st.best ≤ st.alpha ∧ st'.best ≤ st.alpha

/-- The loop variables of `getAIMove` before any candidate was accepted. -/
def AIUnset (st : AIState) : Prop :=
  st.bestScore = -100000 ∧ st.bestRow = -1 ∧ st.bestCol = -1

/-- The loop variables of `getAIMove` hold a legal move of `player` on `g` and its score. -/
def AISet (score : Game → Int × Game) (player : Int) (g : Game) (st : AIState) : Prop :=
  isValidMove g.board st.bestRow st.bestCol player = true ∧
  st.bestScore = (score (makeMove st.bestRow st.bestCol player g)).1

/-- A game with an empty board, on which nobody can move. -/
def emptyGame : Game := { board := fun _ _ => EMPTY, moveCount := 0 }

/-- The states the program can be in: the start position, any legal move from a reachable
state, and the states that `minimax` and `getAIMove` leave behind. -/
inductive Reachable : Game → Prop
  | init : Reachable initBoard
  | move (g : Game) (row col side : Int) : Reachable g →
      isValidMove g.board row col side = true → Reachable (makeMove row col side g)
  | search (g : Game) (depth : Int) (isMaximizing : Bool) (player alpha beta : Int) :
      Reachable g → Reachable (minimax depth isMaximizing player alpha beta g).2
  | searchGUI (g : Game) (depth : Int) (isMaximizing : Bool) (player alpha beta : Int) :
      Reachable g → Reachable (minimaxGUI depth isMaximizing player alpha beta g).2
  | ai (g : Game) (player : Int) : Reachable g → Reachable (getAIMove player g).2
  | aiGUI (g : Game) (player : Int) : Reachable g → Reachable (getAIMoveGUI player g).2

/-- The number of the 64 cells that are Empty. -/
def emptyCount (b : Board) : Nat :=
  allCells.countP (fun p => decide (b p.1 p.2 = EMPTY))

/-- The state of the direction loop of `makeMove` after the directions `ds`, in
terms of the board `b0` before the move. -/
structure MoveInv (b0 : Board) (row col side : Int) (ds : List (Int × Int)) (b : Board) :
    Prop where
  target : b row col = side
  flipped : ∀ r c, IsCaptured b0 row col side ds r c → b r c = side
  kept : ∀ r c, ¬ (r = row ∧ c = col) → ¬ IsCaptured b0 row col side ds r c → b r c = b0 r c

/-! ## Sample positions -/

/-- A board given by its eight rows; cells outside the table are Empty. -/
def boardOfRows (rows : List (List Int)) : Board :=
  fun r c => if r < 0 ∨ c < 0 then EMPTY else (rows.getD r.toNat []).getD c.toNat EMPTY

/-- The 64 cells of a board as a table of rows. -/
def rowsOfBoard (b : Board) : List (List Int) :=
  indices.map (fun r => indices.map (fun c => b r c))

/-- Whether playing `moves` (row, column, side) from board `b` is legal move by move and
leads through the positions `tables`. -/
def followsLine : Board → List (Int × Int × Int) → List (List (List Int)) → Bool
  | _, [], [] => true
  | b, m :: moves, t :: tables =>
    isValidMove b m.1 m.2.1 m.2.2 &&
      decide (rowsOfBoard (makeMove m.1 m.2.1 m.2.2 { board := b, moveCount := 0 }).board = t) &&
      followsLine (boardOfRows t) moves tables
  | _, _, _ => false

/-- The rows of the position after Black (2,3), White (2,2), Black (2,1), White (1,3):
Black to move can play (0,3). -/
def rowZeroRows : List (List Int) :=
  [[0, 0, 0, 0, 0, 0, 0, 0],
   [0, 0, 0, 2, 0, 0, 0, 0],
   [0, 1, 1, 2, 0, 0, 0, 0],
   [0, 0, 0, 2, 1, 0, 0, 0],
   [0, 0, 0, 1, 2, 0, 0, 0],
   [0, 0, 0, 0, 0, 0, 0, 0],
   [0, 0, 0, 0, 0, 0, 0, 0],
   [0, 0, 0, 0, 0, 0, 0, 0]]

/-- The rows of the position after Black (2,3), White (2,2), Black (4,5), White (1,3),
Black (0,3), White (0,4), Black (1,1), White (0,2): Black to move has no legal move,
White has. -/
def blackStuckRows : List (List Int) :=
  [[0, 0, 2, 2, 2, 0, 0, 0],
   [0, 1, 0, 2, 0, 0, 0, 0],
   [0, 0, 1, 1, 0, 0, 0, 0],
   [0, 0, 0, 1, 1, 0, 0, 0],
   [0, 0, 0, 1, 1, 1, 0, 0],
   [0, 0, 0, 0, 0, 0, 0, 0],
   [0, 0, 0, 0, 0, 0, 0, 0],
   [0, 0, 0, 0, 0, 0, 0, 0]]

/-- The moves of the first sample game, as (row, column, side). -/
def edgeMoves : List (Int × Int × Int) :=
  [(2, 3, BLACK), (2, 2, WHITE), (2, 1, BLACK), (1, 3, WHITE)]

/-- The positions of the first sample game after each of `edgeMoves`. -/
def edgeTables : List (List (List Int)) :=
  [[[0, 0, 0, 0, 0, 0, 0, 0], [0, 0, 0, 0, 0, 0, 0, 0], [0, 0, 0, 1, 0, 0, 0, 0],
    [0, 0, 0, 1, 1, 0, 0, 0], [0, 0, 0, 1, 2, 0, 0, 0], [0, 0, 0, 0, 0, 0, 0, 0],
    [0, 0, 0, 0, 0, 0, 0, 0], [0, 0, 0, 0, 0, 0, 0, 0]],
   [[0, 0, 0, 0, 0, 0, 0, 0], [0, 0, 0, 0, 0, 0, 0, 0], [0, 0, 2, 1, 0, 0, 0, 0],
    [0, 0, 0, 2, 1, 0, 0, 0], [0, 0, 0, 1, 2, 0, 0, 0], [0, 0, 0, 0, 0, 0, 0, 0],
    [0, 0, 0, 0, 0, 0, 0, 0], [0, 0, 0, 0, 0, 0, 0, 0]],
   [[0, 0, 0, 0, 0, 0, 0, 0], [0, 0, 0, 0, 0, 0, 0, 0], [0, 1, 1, 1, 0, 0, 0, 0],
    [0, 0, 0, 2, 1, 0, 0, 0], [0, 0, 0, 1, 2, 0, 0, 0], [0, 0, 0, 0, 0, 0, 0, 0],
    [0, 0, 0, 0, 0, 0, 0, 0], [0, 0, 0, 0, 0, 0, 0, 0]],
   rowZeroRows]

/-- The moves of the second sample game, as (row, column, side). -/
def sampleMoves : List (Int × Int × Int) :=
  [(2, 3, BLACK), (2, 2, WHITE), (4, 5, BLACK), (1, 3, WHITE),
   (0, 3, BLACK), (0, 4, WHITE), (1, 1, BLACK), (0, 2, WHITE)]

/-- The positions of the second sample game after each of `sampleMoves`. -/
def sampleTables : List (List (List Int)) :=
  [[[0, 0, 0, 0, 0, 0, 0, 0], [0, 0, 0, 0, 0, 0, 0, 0], [0, 0, 0, 1, 0, 0, 0, 0],
    [0, 0, 0, 1, 1, 0, 0, 0], [0, 0, 0, 1, 2, 0, 0, 0], [0, 0, 0, 0, 0, 0, 0, 0],
    [0, 0, 0, 0, 0, 0, 0, 0], [0, 0, 0, 0, 0, 0, 0, 0]],
   [[0, 0, 0, 0, 0, 0, 0, 0], [0, 0, 0, 0, 0, 0, 0, 0], [0, 0, 2, 1, 0, 0, 0, 0],
    [0, 0, 0, 2, 1, 0, 0, 0], [0, 0, 0, 1, 2, 0, 0, 0], [0, 0, 0, 0, 0, 0, 0, 0],
    [0, 0, 0, 0, 0, 0, 0, 0], [0, 0, 0, 0, 0, 0, 0, 0]],
   [[0, 0, 0, 0, 0, 0, 0, 0], [0, 0, 0, 0, 0, 0, 0, 0], [0, 0, 2, 1, 0, 0, 0, 0],
    [0, 0, 0, 2, 1, 0, 0, 0], [0, 0, 0, 1, 1, 1, 0, 0], [0, 0, 0, 0, 0, 0, 0, 0],
    [0, 0, 0, 0, 0, 0, 0, 0], [0, 0, 0, 0, 0, 0, 0, 0]],
   [[0, 0, 0, 0, 0, 0, 0, 0], [0, 0, 0, 2, 0, 0, 0, 0], [0, 0, 2, 2, 0, 0, 0, 0],
    [0, 0, 0, 2, 1, 0, 0, 0], [0, 0, 0, 1, 1, 1, 0, 0], [0, 0, 0, 0, 0, 0, 0, 0],
    [0, 0, 0, 0, 0, 0, 0, 0], [0, 0, 0, 0, 0, 0, 0, 0]],
   [[0, 0, 0, 1, 0, 0, 0, 0], [0, 0, 0, 1, 0, 0, 0, 0], [0, 0, 2, 1, 0, 0, 0, 0],
    [0, 0, 0, 1, 1, 0, 0, 0], [0, 0, 0, 1, 1, 1, 0, 0], [0, 0, 0, 0, 0, 0, 0, 0],
    [0, 0, 0, 0, 0, 0, 0, 0], [0, 0, 0, 0, 0, 0, 0, 0]],
   [[0, 0, 0, 1, 2, 0, 0, 0], [0, 0, 0, 2, 0, 0, 0, 0], [0, 0, 2, 1, 0, 0, 0, 0],
    [0, 0, 0, 1, 1, 0, 0, 0], [0, 0, 0, 1, 1, 1, 0, 0], [0, 0, 0, 0, 0, 0, 0, 0],
    [0, 0, 0, 0, 0, 0, 0, 0], [0, 0, 0, 0, 0, 0, 0, 0]],
   [[0, 0, 0, 1, 2, 0, 0, 0], [0, 1, 0, 2, 0, 0, 0, 0], [0, 0, 1, 1, 0, 0, 0, 0],
    [0, 0, 0, 1, 1, 0, 0, 0], [0, 0, 0, 1, 1, 1, 0, 0], [0, 0, 0, 0, 0, 0, 0, 0],
    [0, 0, 0, 0, 0, 0, 0, 0], [0, 0, 0, 0, 0, 0, 0, 0]],
   blackStuckRows]

/-- The sample position in which Black to move can play (0,3), with `moveCount = 8`. -/
def rowZeroGame : Game := { board := boardOfRows rowZeroRows, moveCount := 8 }

/-- The sample position in which Black to move must pass, with `moveCount = 12`. -/
def blackStuckGame : Game := { board := boardOfRows blackStuckRows, moveCount := 12 }

/-- The graphical shell waiting for Black on `g`: no animation, game not over. -/
def guiBlackToMove (g : Game) : GuiState :=
  { game := g, anim := { queue := [], isAnimating := false }, gameOver := false,
    currentPlayer := BLACK, pendingPlayer := EMPTY, windowClosed := false }


/-- The body of the loops of `getAIMove` at the cell `p`. -/
def aiBody (score : Game → Int × Game) (player : Int) (st : AIState) (p : Int × Int) : AIState :=
  if isValidMove st.game.board p.1 p.2 player = true then
    if (score (makeMove p.1 p.2 player st.game)).1 > st.bestScore then
      { game := st.game, bestScore := (score (makeMove p.1 p.2 player st.game)).1,
        bestRow := p.1, bestCol := p.2 }
    else st
  else st

/-- Row-major order of cells: an earlier row, or the same row and an earlier column. -/
def RowMajorLt (p q : Int × Int) : Prop := p.1 < q.1 ∨ (p.1 = q.1 ∧ p.2 < q.2)

/-- The loop variables of `getAIMove` after the cells `seen`: nothing accepted and no legal
cell seen, or the accepted cell splits `seen` so that every legal cell before it scores
strictly less and every legal cell after it scores at most as much. -/
def AIFirst (score : Game → Int × Game) (player : Int) (g : Game) (seen : List (Int × Int))
    (st : AIState) : Prop :=
  (AIUnset st ∧ ∀ p ∈ seen, isValidMove g.board p.1 p.2 player = false) ∨
  (AISet score player g st ∧ ∃ pre post : List (Int × Int),
    seen = pre ++ (st.bestRow, st.bestCol) :: post ∧
    (∀ p ∈ pre, isValidMove g.board p.1 p.2 player = true →
      (score (makeMove p.1 p.2 player g)).1 < st.bestScore) ∧
    (∀ p ∈ post, isValidMove g.board p.1 p.2 player = true →
      (score (makeMove p.1 p.2 player g)).1 ≤ st.bestScore))

/-- The position after Black (2,3) and White (2,2) from the start. -/
def afterTwoMoves : Game := makeMove 2 2 WHITE (makeMove 2 3 BLACK initBoard)

/-- The rows of a position with one empty cell, (7,4), where Black to move can play and
White cannot. -/
def lastCellRows : List (List Int) :=
  [[1, 1, 1, 1, 1, 2, 2, 2],
   [1, 2, 2, 1, 2, 2, 2, 2],
   [1, 2, 2, 2, 2, 2, 2, 2],
   [1, 1, 1, 2, 2, 2, 1, 2],
   [1, 2, 1, 2, 2, 2, 2, 2],
   [1, 1, 2, 2, 2, 2, 2, 2],
   [1, 1, 2, 2, 2, 2, 2, 2],
   [2, 2, 2, 2, 0, 2, 2, 2]]

/-- The sample position with the single empty cell (7,4), with `moveCount = 63`. -/
def lastCellGame : Game := { board := boardOfRows lastCellRows, moveCount := 63 }

/-- The call `minimax(MAX_DEPTH - 1, false, player, -100000, 100000)` that `getAIMove` of
`Reversi.cpp` makes for a candidate move, with the constant `MAX_DEPTH` as a parameter. -/
def candidateScore (maxDepth player : Int) (g : Game) : Int × Game :=
  minimax (maxDepth - 1) false player (-100000) 100000 g

/-- The rows of the full board that Black's move at (7,4) makes of `lastCellRows`. -/
def fullRows : List (List Int) :=
  [[1, 1, 1, 1, 1, 2, 2, 2],
   [1, 2, 2, 1, 1, 2, 2, 2],
   [1, 2, 2, 2, 1, 2, 2, 2],
   [1, 1, 1, 2, 1, 2, 1, 2],
   [1, 1, 1, 2, 1, 2, 2, 2],
   [1, 1, 1, 2, 1, 2, 2, 2],
   [1, 1, 2, 1, 1, 2, 2, 2],
   [2, 2, 2, 2, 1, 2, 2, 2]]

/-- The full sample position, with `moveCount = 64`. -/
def fullGame : Game := { board := boardOfRows fullRows, moveCount := 64 }

/-- The rows of a position with one empty cell, (7,6), where White to move can play. -/
def whiteLastRows : List (List Int) :=
  [[2, 2, 2, 2, 2, 2, 2, 2],
   [2, 2, 2, 2, 2, 2, 2, 2],
   [2, 2, 2, 1, 2, 2, 2, 2],
   [2, 2, 2, 1, 2, 2, 2, 2],
   [2, 2, 2, 1, 2, 1, 2, 2],
   [2, 2, 2, 1, 2, 1, 2, 2],
   [2, 2, 1, 2, 1, 1, 2, 2],
   [2, 2, 2, 2, 2, 1, 0, 2]]

/-- The sample position with the single empty cell (7,6), with `moveCount = 63`. -/
def whiteLastGame : Game := { board := boardOfRows whiteLastRows, moveCount := 63 }

/-- The graphical shell about to let the AI move on `g`: no animation, game not over. -/
def guiWhiteToMove (g : Game) : GuiState :=
  { game := g, anim := { queue := [], isAnimating := false }, gameOver := false,
    currentPlayer := WHITE, pendingPlayer := EMPTY, windowClosed := false }

/-! ## Basic facts -/

theorem isInBounds_iff (r c : Int) :
    isInBounds r c = true ↔ 0 ≤ r ∧ r < 8 ∧ 0 ≤ c ∧ c < 8 := by
  simp [isInBounds, BOARD_SIZE, and_assoc]

theorem mem_indices (x : Int) : x ∈ indices ↔ 0 ≤ x ∧ x < 8 := by
  simp only [indices, List.mem_cons, List.mem_singleton, List.mem_nil_iff, or_false]
  omega

theorem mem_directions (d : Int × Int) :
    d ∈ directions ↔
      (d.1 = -1 ∨ d.1 = 0 ∨ d.1 = 1) ∧ (d.2 = -1 ∨ d.2 = 0 ∨ d.2 = 1) ∧ (d.1 ≠ 0 ∨ d.2 ≠ 0) := by
  obtain ⟨a, b⟩ := d
  simp only [directions, List.mem_cons, List.mem_singleton, List.mem_nil_iff, or_false,
    Prod.mk.injEq]
  omega

theorem opponentOf_ne (p : Int) : opponentOf p ≠ p := by
  unfold opponentOf BLACK WHITE; split_ifs <;> omega

theorem opponentOf_ne_empty (p : Int) : opponentOf p ≠ EMPTY := by
  unfold opponentOf BLACK WHITE EMPTY; split_ifs <;> omega

/-- The loop of `checkDirection` answers true exactly when a run of `k` opponent
cells starting at the current position is closed by a cell of `player`, with
`k ≥ 1` unless an opponent cell was already seen. -/
theorem checkDirectionLoop_iff (b : Board) (hb : ValidBoard b) (dr dc player : Int)
    (hp : ValidSide player) (n : Nat) :
    ∀ (r c : Int) (found : Bool),
      checkDirectionLoop b dr dc player (opponentOf player) n r c found = true ↔
        ∃ k : Nat, k < n ∧ (found = true ∨ 1 ≤ k) ∧
          (∀ j : Nat, j < k → isInBounds (r + j * dr) (c + j * dc) = true ∧
            b (r + j * dr) (c + j * dc) = opponentOf player) ∧
          isInBounds (r + k * dr) (c + k * dc) = true ∧ b (r + k * dr) (c + k * dc) = player := by
  induction n with
  | zero => intro r c found; simp [checkDirectionLoop]
  | succ n ih =>
    intro r c found
    have shift : ∀ j : Nat, r + dr + (j : Int) * dr = r + ((j + 1 : Nat) : Int) * dr ∧
        c + dc + (j : Int) * dc = c + ((j + 1 : Nat) : Int) * dc := by
      intro j; constructor <;> (push_cast; ring)
    have hpe : player ≠ EMPTY := by
      rcases hp with h | h <;> (rw [h]; simp [BLACK, WHITE, EMPTY])
    unfold checkDirectionLoop
    by_cases hin : isInBounds r c = true
    · rw [if_pos hin]
      by_cases he : b r c = EMPTY
      · rw [if_pos he]
        constructor
        · intro h; cases h
        · rintro ⟨k, _, _, hrun, hin', hend⟩
          rcases Nat.eq_zero_or_pos k with hk | hk
          · subst hk; simp at hend; exact absurd (hend.symm.trans he) hpe
          · have := (hrun 0 hk).2; simp at this
            exact absurd (this.symm.trans he) (opponentOf_ne_empty player)
      · rw [if_neg he]
        by_cases ho : b r c = opponentOf player
        · rw [if_pos ho, ih]
          constructor
          · rintro ⟨k, hk, _, hrun, hin', hend⟩
            refine ⟨k + 1, by omega, Or.inr (by omega), ?_, ?_⟩
            · intro j hj
              rcases Nat.eq_zero_or_pos j with hj0 | hj0
              · subst hj0; simpa using ⟨hin, ho⟩
              · obtain ⟨j', rfl⟩ : ∃ j', j = j' + 1 := ⟨j - 1, by omega⟩
                have := hrun j' (by omega)
                rwa [(shift j').1, (shift j').2] at this
            · rw [(shift k).1, (shift k).2] at hin' hend
              exact ⟨hin', hend⟩
          · rintro ⟨k, hk, _, hrun, hin', hend⟩
            rcases Nat.eq_zero_or_pos k with hk0 | hk0
            · subst hk0; simp at hend
              exact absurd (ho.symm.trans hend) (opponentOf_ne player)
            · obtain ⟨k', rfl⟩ : ∃ k', k = k' + 1 := ⟨k - 1, by omega⟩
              refine ⟨k', by omega, Or.inl rfl, ?_, ?_⟩
              · intro j hj
                have := hrun (j + 1) (by omega)
                rwa [← (shift j).1, ← (shift j).2] at this
              · rw [(shift k').1, (shift k').2]; exact ⟨hin', hend⟩
        · rw [if_neg ho]
          have hpl : b r c = player := by
            have hv := hb r c hin
            rcases hp with h | h <;> rw [h] at ho ⊢ <;>
              simp only [opponentOf, BLACK, WHITE, EMPTY] at ho he hv ⊢ <;>
              norm_num at ho <;> omega
          rw [if_pos hpl]
          constructor
          · intro hf
            exact ⟨0, by omega, Or.inl hf, by intro j hj; omega, by simpa using ⟨hin, hpl⟩⟩
          · rintro ⟨k, hk, hfk, hrun, hin', hend⟩
            rcases Nat.eq_zero_or_pos k with hk0 | hk0
            · subst hk0; rcases hfk with h | h
              · exact h
              · omega
            · have := (hrun 0 hk0).2; simp at this
              exact absurd (this.symm.trans hpl) (opponentOf_ne player)
    · rw [if_neg hin]
      constructor
      · intro h; cases h
      · rintro ⟨k, _, _, hrun, hin', _⟩
        rcases Nat.eq_zero_or_pos k with hk | hk
        · subst hk; simp at hin'; exact absurd hin' hin
        · have := (hrun 0 hk).1; simp at this; exact absurd this hin

theorem validBoard_of_validBoardB (b : Board) (h : validBoardB b = true) : ValidBoard b := by
  intro r c hin
  rw [isInBounds_iff] at hin
  simp only [validBoardB, List.all_eq_true, Bool.or_eq_true, decide_eq_true_eq] at h
  have := h r ((mem_indices r).2 ⟨hin.1, hin.2.1⟩) c ((mem_indices c).2 ⟨hin.2.2.1, hin.2.2.2⟩)
  tauto

theorem validBoard_initBoard : ValidBoard initBoard.board :=
  validBoard_of_validBoardB _ (by decide)

/-- A walk that is on the board at distances `1` and `k + 1` has `k < 8`. -/
theorem run_lt_eight (row col dr dc : Int) (hd : (dr, dc) ∈ directions) (k : Nat)
    (h1 : isInBounds (row + dr) (col + dc) = true)
    (h2 : isInBounds (row + (k + 1 : Nat) * dr) (col + (k + 1 : Nat) * dc) = true) : k < 8 := by
  rw [isInBounds_iff] at h1 h2
  rw [mem_directions] at hd
  push_cast at h2
  simp only at hd
  obtain ⟨hr, hc, hne⟩ := hd
  rcases hr with h | h | h <;> rcases hc with h' | h' | h' <;> subst h <;> subst h' <;>
    first
    | (exfalso; simp at hne; done)
    | omega

/-- In one of the 8 directions `checkDirection` is true exactly when the capture rule
holds for some run length. -/
theorem checkDirection_iff (b : Board) (hb : ValidBoard b) (row col dr dc player : Int)
    (hp : ValidSide player) (hd : (dr, dc) ∈ directions) :
    checkDirection b row col dr dc player = true ↔
      ∃ k : Nat, CapturesAt b row col dr dc player k := by
  have shift : ∀ j : Nat, row + dr + (j : Int) * dr = row + ((j + 1 : Nat) : Int) * dr ∧
      col + dc + (j : Int) * dc = col + ((j + 1 : Nat) : Int) * dc := by
    intro j; constructor <;> (push_cast; ring)
  unfold checkDirection
  rw [checkDirectionLoop_iff b hb dr dc player hp]
  constructor
  · rintro ⟨k, _, hfk, hrun, hin, hend⟩
    refine ⟨k, ?_, ?_, ?_⟩
    · rcases hfk with h | h
      · cases h
      · exact h
    · intro j hj1 hjk
      obtain ⟨j', rfl⟩ : ∃ j', j = j' + 1 := ⟨j - 1, by omega⟩
      have := hrun j' (by omega)
      rwa [(shift j').1, (shift j').2] at this
    · rw [(shift k).1, (shift k).2] at hin hend
      exact ⟨hin, hend⟩
  · rintro ⟨k, hk1, hrun, hin, hend⟩
    have h1 := (hrun 1 (le_refl 1) hk1).1
    simp only [Nat.cast_one, one_mul] at h1
    refine ⟨k, run_lt_eight row col dr dc hd k h1 hin, Or.inr hk1, ?_, ?_⟩
    · intro j hj
      have := hrun (j + 1) (by omega) (by omega)
      rwa [← (shift j).1, ← (shift j).2] at this
    · rw [(shift k).1, (shift k).2]; exact ⟨hin, hend⟩


/-- Claim C1.  On a board whose cells are Empty, Black or White and for a side that
is Black or White, `isValidMove row col side` is true exactly when the target is on
the board, the target cell is Empty, and in at least one of the 8 directions there
is `k ≥ 1` such that the cells at distance `1..k` are on the board and hold the
opposite side and the cell at distance `k + 1` is on the board and holds `side`.
In particular it is false for every occupied and for every out-of-bounds target. -/
theorem isValidMove_iff_captures (b : Board) (row col side : Int)
    (hb : ValidBoard b) (hs : ValidSide side) :
    (isValidMove b row col side = true ↔
      (0 ≤ row ∧ row < 8 ∧ 0 ≤ col ∧ col < 8) ∧ b row col = EMPTY ∧
        ∃ d ∈ directions, ∃ k : Nat, 1 ≤ k ∧
          (∀ j : Nat, 1 ≤ j → j ≤ k →
            isInBounds (row + j * d.1) (col + j * d.2) = true ∧
              b (row + j * d.1) (col + j * d.2) = opponentOf side) ∧
          isInBounds (row + (k + 1 : Nat) * d.1) (col + (k + 1 : Nat) * d.2) = true ∧
          b (row + (k + 1 : Nat) * d.1) (col + (k + 1 : Nat) * d.2) = side) ∧
    (b row col ≠ EMPTY → isValidMove b row col side = false) ∧
    (¬ (0 ≤ row ∧ row < 8 ∧ 0 ≤ col ∧ col < 8) → isValidMove b row col side = false) := by
  refine ⟨?_, ?_, ?_⟩
  · unfold isValidMove
    by_cases hin : isInBounds row col = true
    · by_cases he : b row col = EMPTY
      · have hin' := (isInBounds_iff row col).1 hin
        simp only [hin, he, Bool.not_true, ne_eq, not_true_eq_false, decide_False, Bool.or_self,
          Bool.false_eq_true, ↓reduceIte, List.any_eq_true, hin', true_and]
        constructor
        · rintro ⟨d, hd, hc⟩
          exact ⟨d, hd, (checkDirection_iff b hb row col d.1 d.2 side hs hd).1 hc⟩
        · rintro ⟨d, hd, hc⟩
          exact ⟨d, hd, (checkDirection_iff b hb row col d.1 d.2 side hs hd).2 hc⟩
      · simp [hin, he]
    · have hin' : ¬ (0 ≤ row ∧ row < 8 ∧ 0 ≤ col ∧ col < 8) := fun h =>
        hin ((isInBounds_iff row col).2 h)
      simp [hin, hin']
  · intro he; simp [isValidMove, he]
  · intro hin
    have : isInBounds row col = false := by
      rw [← Bool.not_eq_true, isInBounds_iff]; exact hin
    simp [isValidMove, this]

/-- Claim C1, instance: on the start board Black may play (2,3) and the
characterisation applies there. -/
theorem isValidMove_iff_captures_witness :
    ValidBoard initBoard.board ∧ ValidSide BLACK ∧
    (isValidMove initBoard.board 2 3 BLACK = true ↔
      (0 ≤ (2 : Int) ∧ (2 : Int) < 8 ∧ 0 ≤ (3 : Int) ∧ (3 : Int) < 8) ∧
        initBoard.board 2 3 = EMPTY ∧
        ∃ d ∈ directions, ∃ k : Nat, 1 ≤ k ∧
          (∀ j : Nat, 1 ≤ j → j ≤ k →
            isInBounds (2 + j * d.1) (3 + j * d.2) = true ∧
              initBoard.board (2 + j * d.1) (3 + j * d.2) = opponentOf BLACK) ∧
          isInBounds (2 + (k + 1 : Nat) * d.1) (3 + (k + 1 : Nat) * d.2) = true ∧
          initBoard.board (2 + (k + 1 : Nat) * d.1) (3 + (k + 1 : Nat) * d.2) = BLACK) :=
  have hb : ValidBoard initBoard.board := validBoard_initBoard
  ⟨hb, Or.inl rfl, (isValidMove_iff_captures initBoard.board 2 3 BLACK hb (Or.inl rfl)).1⟩

/-! ## Rays -/

/-- Two steps along a direction that is not `(0, 0)` reach the same cell only when
the step counts agree. -/
theorem ray_injective (dr dc : Int) (hd : (dr, dc) ∈ directions) (i j : Nat) (r c : Int)
    (h1 : r + (i : Int) * dr = r + (j : Int) * dr) (h2 : c + (i : Int) * dc = c + (j : Int) * dc) :
    i = j := by
  rw [mem_directions] at hd
  simp only at hd
  obtain ⟨hr, hc, hne⟩ := hd
  rcases hr with h | h | h <;> rcases hc with h' | h' | h' <;> subst h <;> subst h' <;>
    first
    | (exfalso; simp at hne; done)
    | omega

/-- Rays of different directions from the same cell share no cell. -/
theorem ray_disjoint (d d' : Int × Int) (hd : d ∈ directions) (hd' : d' ∈ directions)
    (j j' : Nat) (hj : 1 ≤ j) (hj' : 1 ≤ j') (row col : Int)
    (h1 : row + (j : Int) * d.1 = row + (j' : Int) * d'.1)
    (h2 : col + (j : Int) * d.2 = col + (j' : Int) * d'.2) : d = d' := by
  obtain ⟨a, b⟩ := d
  obtain ⟨a', b'⟩ := d'
  rw [mem_directions] at hd hd'
  simp only at hd hd' h1 h2
  obtain ⟨hr, hc, hne⟩ := hd
  obtain ⟨hr', hc', hne'⟩ := hd'
  rcases hr with h | h | h <;> rcases hc with h' | h' | h' <;> subst h <;> subst h' <;>
    rcases hr' with g | g | g <;> rcases hc' with g' | g' | g' <;> subst g <;> subst g' <;>
    first
    | rfl
    | (exfalso; simp at hne; done)
    | (exfalso; simp at hne'; done)
    | (exfalso; omega)

/-- The start cell is not on any of its rays. -/
theorem ray_ne_start (d : Int × Int) (hd : d ∈ directions) (j : Nat) (hj : 1 ≤ j)
    (row col : Int) (h1 : row + (j : Int) * d.1 = row) (h2 : col + (j : Int) * d.2 = col) :
    False := by
  have := ray_injective d.1 d.2 hd j 0 row col (by simpa using h1) (by simpa using h2)
  omega

/-! ## The iteration bounds of the model are never reached -/

/-- A walk that leaves the board after `m` steps gives the same answer for every bound
of at least `m` iterations. -/
theorem checkDirectionLoop_fuel (b : Board) (dr dc player opponent : Int) (m : Nat) :
    ∀ (n1 n2 : Nat) (r c : Int) (found : Bool), m ≤ n1 → m ≤ n2 →
      isInBounds (r + m * dr) (c + m * dc) = false →
      checkDirectionLoop b dr dc player opponent n1 r c found =
        checkDirectionLoop b dr dc player opponent n2 r c found := by
  induction m with
  | zero =>
    intro n1 n2 r c found _ _ hout
    simp only [Nat.cast_zero, zero_mul, add_zero] at hout
    cases n1 <;> cases n2 <;> simp [checkDirectionLoop, hout]
  | succ m ih =>
    intro n1 n2 r c found h1 h2 hout
    obtain ⟨n1, rfl⟩ : ∃ k, n1 = k + 1 := ⟨n1 - 1, by omega⟩
    obtain ⟨n2, rfl⟩ : ∃ k, n2 = k + 1 := ⟨n2 - 1, by omega⟩
    have hout' : isInBounds (r + dr + m * dr) (c + dc + m * dc) = false := by
      have e1 : r + dr + (m : Int) * dr = r + ((m + 1 : Nat) : Int) * dr := by push_cast; ring
      have e2 : c + dc + (m : Int) * dc = c + ((m + 1 : Nat) : Int) * dc := by push_cast; ring
      rw [e1, e2]; exact hout
    unfold checkDirectionLoop
    rw [ih n1 n2 (r + dr) (c + dc) true (by omega) (by omega) hout',
      ih n1 n2 (r + dr) (c + dc) found (by omega) (by omega) hout']

/-- From any cell, eight steps in one of the 8 directions lead off the board. -/
theorem eight_steps_out (r c dr dc : Int) (hd : (dr, dc) ∈ directions)
    (hin : isInBounds r c = true) : isInBounds (r + (8 : Nat) * dr) (c + (8 : Nat) * dc) = false := by
  rw [← Bool.not_eq_true, isInBounds_iff]
  rw [isInBounds_iff] at hin
  rw [mem_directions] at hd
  simp only at hd
  obtain ⟨hr, hc, hne⟩ := hd
  push_cast
  rcases hr with h | h | h <;> rcases hc with h' | h' | h' <;> subst h <;> subst h' <;>
    first
    | (exfalso; simp at hne; done)
    | omega

/-- In the 8 directions the bound of 8 iterations in `checkDirection` is never the reason
for the answer: every larger bound gives the same result. -/
theorem checkDirection_fuel (b : Board) (row col dr dc player : Int)
    (hd : (dr, dc) ∈ directions) (n : Nat) (hn : 8 ≤ n) :
    checkDirectionLoop b dr dc player (opponentOf player) n (row + dr) (col + dc) false =
      checkDirection b row col dr dc player := by
  unfold checkDirection
  by_cases hin : isInBounds (row + dr) (col + dc) = true
  · exact checkDirectionLoop_fuel b dr dc player _ 8 n 8 _ _ _ hn (le_refl _)
      (eight_steps_out _ _ dr dc hd hin)
  · exact checkDirectionLoop_fuel b dr dc player _ 0 n 8 _ _ _ (by omega) (by omega)
      (by simpa using hin)

theorem flipDirectionLoop_fuel (dr dc player opponent : Int) (m : Nat) :
    ∀ (n1 n2 : Nat) (r c : Int) (b : Board), m ≤ n1 → m ≤ n2 →
      isInBounds (r + m * dr) (c + m * dc) = false →
      flipDirectionLoop dr dc player opponent n1 r c b =
        flipDirectionLoop dr dc player opponent n2 r c b := by
  induction m with
  | zero =>
    intro n1 n2 r c b _ _ hout
    simp only [Nat.cast_zero, zero_mul, add_zero] at hout
    cases n1 <;> cases n2 <;> simp [flipDirectionLoop, hout]
  | succ m ih =>
    intro n1 n2 r c b h1 h2 hout
    obtain ⟨n1, rfl⟩ : ∃ k, n1 = k + 1 := ⟨n1 - 1, by omega⟩
    obtain ⟨n2, rfl⟩ : ∃ k, n2 = k + 1 := ⟨n2 - 1, by omega⟩
    have hout' : isInBounds (r + dr + m * dr) (c + dc + m * dc) = false := by
      have e1 : r + dr + (m : Int) * dr = r + ((m + 1 : Nat) : Int) * dr := by push_cast; ring
      have e2 : c + dc + (m : Int) * dc = c + ((m + 1 : Nat) : Int) * dc := by push_cast; ring
      rw [e1, e2]; exact hout
    unfold flipDirectionLoop
    rw [ih n1 n2 (r + dr) (c + dc) _ (by omega) (by omega) hout']

/-- In the 8 directions the bound of 8 iterations in `flipDirection` is never reached
with cells left to flip: every larger bound gives the same board. -/
theorem flipDirection_fuel (b : Board) (row col dr dc player : Int)
    (hd : (dr, dc) ∈ directions) (n : Nat) (hn : 8 ≤ n) :
    flipDirectionLoop dr dc player (opponentOf player) n (row + dr) (col + dc) b =
      flipDirection b row col dr dc player := by
  unfold flipDirection
  by_cases hin : isInBounds (row + dr) (col + dc) = true
  · exact flipDirectionLoop_fuel dr dc player _ 8 n 8 _ _ _ hn (le_refl _)
      (eight_steps_out _ _ dr dc hd hin)
  · exact flipDirectionLoop_fuel dr dc player _ 0 n 8 _ _ _ (by omega) (by omega)
      (by simpa using hin)

/-! ## The effect of `makeMove` on the board -/

/-- Cells that the loop of `flipDirection` reaches through an unbroken run of
opponent cells become `player`. -/
theorem flipDirectionLoop_run (dr dc player opponent : Int) (hd : (dr, dc) ∈ directions)
    (n : Nat) :
    ∀ (r c : Int) (b : Board) (r' c' : Int),
      (flipDirectionLoop dr dc player opponent n r c b r' c' = player ∧
        ∃ j : Nat, j < n ∧ r' = r + j * dr ∧ c' = c + j * dc ∧
          ∀ i : Nat, i ≤ j → isInBounds (r + i * dr) (c + i * dc) = true ∧
            b (r + i * dr) (c + i * dc) = opponent) ∨
      (flipDirectionLoop dr dc player opponent n r c b r' c' = b r' c' ∧
        ¬ ∃ j : Nat, j < n ∧ r' = r + j * dr ∧ c' = c + j * dc ∧
          ∀ i : Nat, i ≤ j → isInBounds (r + i * dr) (c + i * dc) = true ∧
            b (r + i * dr) (c + i * dc) = opponent) := by
  induction n with
  | zero => intro r c b r' c'; right; simp [flipDirectionLoop]
  | succ n ih =>
    intro r c b r' c'
    have shift : ∀ j : Nat, r + dr + (j : Int) * dr = r + ((j + 1 : Nat) : Int) * dr ∧
        c + dc + (j : Int) * dc = c + ((j + 1 : Nat) : Int) * dc := by
      intro j; constructor <;> (push_cast; ring)
    unfold flipDirectionLoop
    by_cases h0 : isInBounds r c = true ∧ b r c = opponent
    · have hc : (isInBounds r c && decide (b r c = opponent)) = true := by simp [h0]
      rw [if_pos hc]
      -- cells further along the ray are untouched by the write at `(r, c)`
      have hset : ∀ i : Nat, setCell b r c player (r + dr + i * dr) (c + dc + i * dc) =
          b (r + dr + i * dr) (c + dc + i * dc) := by
        intro i
        unfold setCell
        rw [if_neg]
        rintro ⟨e1, e2⟩
        rw [(shift i).1] at e1; rw [(shift i).2] at e2
        have := ray_injective dr dc hd (i + 1) 0 r c (by simpa using e1) (by simpa using e2)
        omega
      rcases ih (r + dr) (c + dc) (setCell b r c player) r' c' with ⟨hv, j, hj, e1, e2, hrun⟩ | ⟨hv, hno⟩
      · left
        refine ⟨hv, j + 1, by omega, by rw [e1, (shift j).1], by rw [e2, (shift j).2], ?_⟩
        intro i hi
        rcases Nat.eq_zero_or_pos i with hi0 | hi0
        · subst hi0; simpa using h0
        · obtain ⟨i', rfl⟩ : ∃ i', i = i' + 1 := ⟨i - 1, by omega⟩
          have := hrun i' (by omega)
          rw [hset i', (shift i').1, (shift i').2] at this
          exact this
      · by_cases hrc : r' = r ∧ c' = c
        · left
          obtain ⟨rfl, rfl⟩ := hrc
          refine ⟨?_, 0, by omega, by simp, by simp, ?_⟩
          · rw [hv]; simp [setCell]
          · intro i hi
            obtain rfl : i = 0 := by omega
            simpa using h0
        · right
          refine ⟨?_, ?_⟩
          · rw [hv]; unfold setCell; rw [if_neg hrc]
          · rintro ⟨j, hj, e1, e2, hrun⟩
            rcases Nat.eq_zero_or_pos j with hj0 | hj0
            · subst hj0; simp at e1 e2; exact hrc ⟨e1, e2⟩
            · obtain ⟨j', rfl⟩ : ∃ j', j = j' + 1 := ⟨j - 1, by omega⟩
              apply hno
              refine ⟨j', by omega, by rw [e1, (shift j').1], by rw [e2, (shift j').2], ?_⟩
              intro i hi
              have := hrun (i + 1) (by omega)
              rw [hset i, (shift i).1, (shift i).2]
              exact this
    · have hc : ¬ (isInBounds r c && decide (b r c = opponent)) = true := by simpa using h0
      rw [if_neg hc]
      right
      refine ⟨rfl, ?_⟩
      rintro ⟨j, _, _, _, hrun⟩
      have := hrun 0 (by omega)
      simp at this
      exact h0 this

/-- When direction `(dr, dc)` captures with run length `k`, `flipDirection` turns the
cells at distance `1..k` to `player` and leaves every other cell alone. -/
theorem flipDirection_of_captures (b : Board) (row col dr dc player : Int)
    (hd : (dr, dc) ∈ directions) (k : Nat) (hcap : CapturesAt b row col dr dc player k)
    (r' c' : Int) :
    (flipDirection b row col dr dc player r' c' = player ∧
      ∃ j : Nat, 1 ≤ j ∧ j ≤ k ∧ r' = row + j * dr ∧ c' = col + j * dc) ∨
    (flipDirection b row col dr dc player r' c' = b r' c' ∧
      ¬ ∃ j : Nat, 1 ≤ j ∧ j ≤ k ∧ r' = row + j * dr ∧ c' = col + j * dc) := by
  have shift : ∀ j : Nat, row + dr + (j : Int) * dr = row + ((j + 1 : Nat) : Int) * dr ∧
      col + dc + (j : Int) * dc = col + ((j + 1 : Nat) : Int) * dc := by
    intro j; constructor <;> (push_cast; ring)
  obtain ⟨hk1, hrun, hin, hend⟩ := hcap
  have h1 := (hrun 1 (le_refl 1) hk1).1
  simp only [Nat.cast_one, one_mul] at h1
  have hk8 := run_lt_eight row col dr dc hd k h1 hin
  unfold flipDirection
  rcases flipDirectionLoop_run dr dc player (opponentOf player) hd 8 (row + dr) (col + dc) b r' c'
    with ⟨hv, j, hj, e1, e2, hr⟩ | ⟨hv, hno⟩
  · left
    refine ⟨hv, j + 1, by omega, ?_, by rw [e1, (shift j).1], by rw [e2, (shift j).2]⟩
    by_contra hjk
    have := (hr k (by omega)).2
    rw [(shift k).1, (shift k).2, hend] at this
    exact opponentOf_ne player this.symm
  · right
    refine ⟨hv, ?_⟩
    rintro ⟨j, hj1, hjk, e1, e2⟩
    obtain ⟨j', rfl⟩ : ∃ j', j = j' + 1 := ⟨j - 1, by omega⟩
    apply hno
    refine ⟨j', by omega, by rw [e1, (shift j').1], by rw [e2, (shift j').2], ?_⟩
    intro i hi
    rw [(shift i).1, (shift i).2]
    exact hrun (i + 1) (by omega) (by omega)

theorem MoveInv.valid {b0 : Board} {row col side : Int} {ds : List (Int × Int)} {b : Board}
    (h : MoveInv b0 row col side ds b) (hb : ValidBoard b0) (hs : ValidSide side) :
    ValidBoard b := by
  intro r c hin
  have side_ok : side = EMPTY ∨ side = BLACK ∨ side = WHITE := Or.inr hs
  by_cases ht : r = row ∧ c = col
  · obtain ⟨rfl, rfl⟩ := ht; rw [h.target]; exact side_ok
  · by_cases hc : IsCaptured b0 row col side ds r c
    · rw [h.flipped r c hc]; exact side_ok
    · rw [h.kept r c ht hc]; exact hb r c hin

/-- One iteration of the direction loop of `makeMove` keeps the invariant. -/
theorem MoveInv.step {b0 : Board} {row col side : Int} {ds : List (Int × Int)} {b : Board}
    (h : MoveInv b0 row col side ds b) (hb : ValidBoard b0) (hs : ValidSide side)
    (hds : ∀ d' ∈ ds, d' ∈ directions) (d : Int × Int) (hd : d ∈ directions) (hnew : d ∉ ds) :
    MoveInv b0 row col side (d :: ds) (makeMoveStep row col side b d) := by
  have hvalid := h.valid hb hs
  -- the cells of ray `d` still hold their values from before the move
  have hray : ∀ j : Nat, 1 ≤ j → b (row + j * d.1) (col + j * d.2) =
      b0 (row + j * d.1) (col + j * d.2) := by
    intro j hj
    apply h.kept
    · rintro ⟨e1, e2⟩; exact ray_ne_start d hd j hj row col e1 e2
    · rintro ⟨d', hd', k', j', _, hj'1, _, e1, e2⟩
      have := ray_disjoint d d' hd (hds d' hd') j j' hj hj'1 row col e1 e2
      exact hnew (this ▸ hd')
  have hcap : ∀ k : Nat, CapturesAt b row col d.1 d.2 side k ↔
      CapturesAt b0 row col d.1 d.2 side k := by
    intro k
    unfold CapturesAt
    constructor
    · rintro ⟨hk, hrun, hin, hend⟩
      refine ⟨hk, fun j hj1 hjk => ?_, hin, ?_⟩
      · rw [← hray j hj1]; exact hrun j hj1 hjk
      · rw [← hray (k + 1) (by omega)]; exact hend
    · rintro ⟨hk, hrun, hin, hend⟩
      refine ⟨hk, fun j hj1 hjk => ?_, hin, ?_⟩
      · rw [hray j hj1]; exact hrun j hj1 hjk
      · rw [hray (k + 1) (by omega)]; exact hend
  have hcheck := checkDirection_iff b hvalid row col d.1 d.2 side hs hd
  have hsplit : ∀ r c, IsCaptured b0 row col side (d :: ds) r c ↔
      IsCaptured b0 row col side [d] r c ∨ IsCaptured b0 row col side ds r c := by
    intro r c; simp [IsCaptured]
  unfold makeMoveStep
  by_cases hc : checkDirection b row col d.1 d.2 side = true
  · rw [if_pos hc]
    obtain ⟨k, hk⟩ := hcheck.1 hc
    have hflip := flipDirection_of_captures b row col d.1 d.2 side hd
    refine ⟨?_, ?_, ?_⟩
    · rcases hflip k hk row col with ⟨_, j, hj1, _, e1, e2⟩ | ⟨hv, _⟩
      · exact (ray_ne_start d hd j hj1 row col e1.symm e2.symm).elim
      · rw [hv]; exact h.target
    · intro r c hcapt
      rcases (hsplit r c).1 hcapt with hnow | hold
      · obtain ⟨d', hd', k', j', hk', hj1, hjk, e1, e2⟩ := hnow
        obtain rfl : d' = d := by simpa using hd'
        rcases hflip k' ((hcap k').2 hk') r c with ⟨hv, _⟩ | ⟨_, hno⟩
        · exact hv
        · exact (hno ⟨j', hj1, hjk, e1, e2⟩).elim
      · rcases hflip k hk r c with ⟨hv, _⟩ | ⟨hv, _⟩
        · exact hv
        · rw [hv]; exact h.flipped r c hold
    · intro r c ht hnot
      rw [hsplit] at hnot
      push_neg at hnot
      rcases hflip k hk r c with ⟨_, j, hj1, hjk, e1, e2⟩ | ⟨hv, _⟩
      · exact (hnot.1 ⟨d, by simp, k, j, (hcap k).1 hk, hj1, hjk, e1, e2⟩).elim
      · rw [hv]; exact h.kept r c ht hnot.2
  · rw [if_neg hc]
    have hnone : ∀ r c, ¬ IsCaptured b0 row col side [d] r c := by
      rintro r c ⟨d', hd', k', j', hk', _⟩
      obtain rfl : d' = d := by simpa using hd'
      exact hc (hcheck.2 ⟨k', (hcap k').2 hk'⟩)
    refine ⟨h.target, ?_, ?_⟩
    · intro r c hcapt
      rcases (hsplit r c).1 hcapt with hnow | hold
      · exact (hnone r c hnow).elim
      · exact h.flipped r c hold
    · intro r c ht hnot
      rw [hsplit] at hnot
      push_neg at hnot
      exact h.kept r c ht hnot.2

/-- The direction loop of `makeMove` over a list of distinct directions. -/
theorem MoveInv.foldl {b0 : Board} {row col side : Int} (hb : ValidBoard b0)
    (hs : ValidSide side) :
    ∀ (rest ds : List (Int × Int)) (b : Board), MoveInv b0 row col side ds b →
      (∀ d ∈ ds, d ∈ directions) → (∀ d ∈ rest, d ∈ directions) → rest.Nodup →
      (∀ d ∈ rest, d ∉ ds) →
      MoveInv b0 row col side (rest.reverse ++ ds) (rest.foldl (makeMoveStep row col side) b) := by
  intro rest
  induction rest with
  | nil => intro ds b h _ _ _ _; simpa using h
  | cons d rest ih =>
    intro ds b h hds hrest hnodup hfresh
    rw [List.nodup_cons] at hnodup
    have hstep := h.step hb hs hds d (hrest d (by simp)) (hfresh d (by simp))
    have := ih (d :: ds) _ hstep
      (by intro d' hd'; rcases List.mem_cons.1 hd' with rfl | h'
          · exact hrest _ (by simp)
          · exact hds d' h')
      (fun d' hd' => hrest d' (by simp [hd'])) hnodup.2
      (by intro d' hd' hmem
          rcases List.mem_cons.1 hmem with rfl | h'
          · exact hnodup.1 hd'
          · exact hfresh d' (by simp [hd']) h')
    simpa using this

theorem isCaptured_congr (b : Board) (row col side : Int) (ds ds' : List (Int × Int))
    (h : ∀ d, d ∈ ds ↔ d ∈ ds') (r c : Int) :
    IsCaptured b row col side ds r c ↔ IsCaptured b row col side ds' r c := by
  unfold IsCaptured
  constructor
  · rintro ⟨d, hd, rest⟩; exact ⟨d, (h d).1 hd, rest⟩
  · rintro ⟨d, hd, rest⟩; exact ⟨d, (h d).2 hd, rest⟩

/-- The board after `makeMove`, cell by cell, in terms of the board before. -/
theorem makeMove_board (g : Game) (row col side : Int) (hb : ValidBoard g.board)
    (hs : ValidSide side) :
    MoveInv g.board row col side directions (makeMove row col side g).board := by
  have h0 : MoveInv g.board row col side [] (setCell g.board row col side) := by
    refine ⟨by simp [setCell], ?_, ?_⟩
    · rintro r c ⟨d, hd, _⟩; simp at hd
    · intro r c ht _; unfold setCell; rw [if_neg ht]
  have := MoveInv.foldl hb hs directions [] _ h0 (by simp) (fun d hd => hd) (by decide) (by simp)
  simp only [List.append_nil] at this
  refine ⟨this.target, ?_, ?_⟩
  · intro r c hc
    exact this.flipped r c ((isCaptured_congr _ _ _ _ _ _ (by simp) r c).1 hc)
  · intro r c ht hc
    exact this.kept r c ht (fun h' => hc ((isCaptured_congr _ _ _ _ _ _ (by simp) r c).1 h'))

/-! ## The graphical `makeMove` changes the board as the console one -/

theorem flipDirectionLoopGUI_board (dr dc player opponent : Int) (n : Nat) :
    ∀ (r c : Int) (s : Board × AnimState),
      (flipDirectionLoopGUI dr dc player opponent n r c s).1 =
        flipDirectionLoop dr dc player opponent n r c s.1 := by
  induction n with
  | zero => intro r c s; rfl
  | succ n ih =>
    intro r c s
    unfold flipDirectionLoopGUI flipDirectionLoop
    by_cases h : (isInBounds r c && decide (s.1 r c = opponent)) = true
    · rw [if_pos h, if_pos h]; exact ih _ _ _
    · rw [if_neg h, if_neg h]

theorem makeMoveStepGUI_board (row col player : Int) (s : Board × AnimState) (d : Int × Int) :
    (makeMoveStepGUI row col player s d).1 = makeMoveStep row col player s.1 d := by
  unfold makeMoveStepGUI makeMoveStep
  split_ifs
  · exact flipDirectionLoopGUI_board _ _ _ _ _ _ _ _
  · rfl

theorem makeMoveGUI_foldl_board (row col player : Int) (ds : List (Int × Int)) :
    ∀ s : Board × AnimState,
      (ds.foldl (makeMoveStepGUI row col player) s).1 =
        ds.foldl (makeMoveStep row col player) s.1 := by
  induction ds with
  | nil => intro s; rfl
  | cons d ds ih =>
    intro s
    rw [List.foldl_cons, List.foldl_cons, ih, makeMoveStepGUI_board]

/-- The board and `moveCount` after the graphical `makeMove` are those after the console
`makeMove`: the animation queue never feeds back into them. -/
theorem makeMoveGUI_game (row col player : Int) (g : Game) :
    (makeMoveGUI row col player g).1 = makeMove row col player g := by
  unfold makeMoveGUI makeMove
  simp only [makeMoveGUI_foldl_board]

/-- A successful walk of `checkDirection` ends on a non-empty cell holding `player`. -/
theorem checkDirectionLoop_player (b : Board) (dr dc player opponent : Int) (n : Nat) :
    ∀ (r c : Int) (found : Bool),
      checkDirectionLoop b dr dc player opponent n r c found = true →
        ∃ r' c', isInBounds r' c' = true ∧ b r' c' = player ∧ b r' c' ≠ EMPTY := by
  induction n with
  | zero => intro r c found h; simp [checkDirectionLoop] at h
  | succ n ih =>
    intro r c found h
    unfold checkDirectionLoop at h
    split_ifs at h with h1 h2 h3 h4
    · exact ih _ _ _ h
    · exact ⟨r, c, h1, h4, h2⟩
    · exact ih _ _ _ h

theorem exists_checkDirection_of_isValidMove (b : Board) (row col side : Int)
    (h : isValidMove b row col side = true) :
    isInBounds row col = true ∧ b row col = EMPTY ∧
      ∃ d ∈ directions, checkDirection b row col d.1 d.2 side = true := by
  unfold isValidMove at h
  split_ifs at h with h1
  simp only [ne_eq, Bool.or_eq_true, Bool.not_eq_true', decide_eq_true_eq, not_or,
    Bool.not_eq_false, Decidable.not_not] at h1
  exact ⟨h1.1, h1.2, by simpa using h⟩

/-- Only Black and White can have a legal move on a board of Empty, Black and White cells. -/
theorem validSide_of_isValidMove (b : Board) (row col side : Int) (hb : ValidBoard b)
    (h : isValidMove b row col side = true) : ValidSide side := by
  obtain ⟨_, _, d, _, hc⟩ := exists_checkDirection_of_isValidMove b row col side h
  obtain ⟨r, c, hin, hp, hne⟩ := checkDirectionLoop_player _ _ _ _ _ _ _ _ _ hc
  rcases hb r c hin with h0 | h1 | h2
  · exact (hne h0).elim
  · exact Or.inl (hp.symm.trans h1)
  · exact Or.inr (hp.symm.trans h2)

/-- Claim C2.  After `makeMove row col side` on a legal move the target cell holds
`side`, every cell strictly between the target and the closing `side` cell of a
direction that captures on the board before the move holds `side`, and every other
cell is unchanged; a direction captures on the board before the move exactly when
`checkDirection` succeeds there.  The graphical `makeMove` leaves the same board. -/
theorem makeMove_changes_exactly (g : Game) (row col side : Int) (hb : ValidBoard g.board)
    (hv : isValidMove g.board row col side = true) :
    (makeMove row col side g).board row col = side ∧
    (∀ r c : Int, IsCaptured g.board row col side directions r c →
      (makeMove row col side g).board r c = side) ∧
    (∀ r c : Int, ¬ (r = row ∧ c = col) → ¬ IsCaptured g.board row col side directions r c →
      (makeMove row col side g).board r c = g.board r c) ∧
    (∀ d ∈ directions, checkDirection g.board row col d.1 d.2 side = true ↔
      ∃ k : Nat, CapturesAt g.board row col d.1 d.2 side k) ∧
    (makeMoveGUI row col side g).1.board = (makeMove row col side g).board := by
  have hs := validSide_of_isValidMove g.board row col side hb hv
  have h := makeMove_board g row col side hb hs
  exact ⟨h.target, h.flipped, h.kept,
    fun d hd => checkDirection_iff g.board hb row col d.1 d.2 side hs hd,
    by rw [makeMoveGUI_game]⟩

/-- Claim C2, instance: Black playing (2,3) on the start board. -/
theorem makeMove_changes_exactly_witness :
    ValidBoard initBoard.board ∧ isValidMove initBoard.board 2 3 BLACK = true ∧
    (makeMove 2 3 BLACK initBoard).board 2 3 = BLACK ∧
    (∀ r c : Int, IsCaptured initBoard.board 2 3 BLACK directions r c →
      (makeMove 2 3 BLACK initBoard).board r c = BLACK) ∧
    (∀ r c : Int, ¬ (r = 2 ∧ c = 3) → ¬ IsCaptured initBoard.board 2 3 BLACK directions r c →
      (makeMove 2 3 BLACK initBoard).board r c = initBoard.board r c) :=
  have h := makeMove_changes_exactly initBoard 2 3 BLACK validBoard_initBoard (by decide)
  ⟨validBoard_initBoard, by decide, h.1, h.2.1, h.2.2.1⟩

/-! ## Piece counts -/

theorem mem_allCells (p : Int × Int) : p ∈ allCells ↔ isInBounds p.1 p.2 = true := by
  obtain ⟨r, c⟩ := p
  simp only [allCells, List.mem_flatMap, List.mem_map, Prod.mk.injEq, mem_indices, isInBounds_iff]
  constructor
  · rintro ⟨i, hi, j, hj, rfl, rfl⟩; exact ⟨hi.1, hi.2, hj.1, hj.2⟩
  · rintro ⟨h1, h2, h3, h4⟩; exact ⟨r, ⟨h1, h2⟩, c, ⟨h3, h4⟩, rfl, rfl⟩

theorem allCells_nodup : allCells.Nodup := by decide

theorem allCells_length : allCells.length = 64 := by decide

theorem countStep_foldl (b : Board) (i : Int) (l : List Int) :
    ∀ acc : Int × Int, l.foldl (fun acc j => countStep b acc i j) acc =
      (acc.1 + ((l.map (fun j => (i, j))).countP (fun p => decide (b p.1 p.2 = BLACK)) : Nat),
       acc.2 + ((l.map (fun j => (i, j))).countP (fun p => decide (b p.1 p.2 = WHITE)) : Nat)) := by
  induction l with
  | nil => intro acc; simp
  | cons j l ih =>
    intro acc
    rw [List.foldl_cons, ih]
    simp only [List.map_cons, List.countP_cons, countStep]
    have hbw : ¬ BLACK = WHITE := by decide
    have hwb : ¬ WHITE = BLACK := by decide
    by_cases h1 : b i j = BLACK
    · simp only [h1, hbw, ↓reduceIte, decide_True, decide_False, Bool.false_eq_true]
      push_cast; ext <;> (simp; try ring)
    · by_cases h2 : b i j = WHITE
      · simp only [h2, hwb, ↓reduceIte, decide_True, decide_False, Bool.false_eq_true]
        push_cast; ext <;> (simp; try ring)
      · simp [h1, h2]

theorem countPieces_rows (b : Board) (rows : List Int) :
    ∀ acc : Int × Int,
      rows.foldl (fun acc i => indices.foldl (fun acc j => countStep b acc i j) acc) acc =
      (acc.1 + ((rows.flatMap (fun i => indices.map (fun j => (i, j)))).countP
          (fun p => decide (b p.1 p.2 = BLACK)) : Nat),
       acc.2 + ((rows.flatMap (fun i => indices.map (fun j => (i, j)))).countP
          (fun p => decide (b p.1 p.2 = WHITE)) : Nat)) := by
  induction rows with
  | nil => intro acc; simp
  | cons i rows ih =>
    intro acc
    rw [List.foldl_cons, ih, countStep_foldl]
    simp only [List.flatMap_cons, List.countP_append]
    push_cast; ext <;> simp <;> ring

/-- The loops of `countPieces` count the Black cells and the White cells. -/
theorem countPieces_eq (b : Board) :
    countPieces b = ((countCells b BLACK : Int), (countCells b WHITE : Int)) := by
  unfold countPieces countCells allCells
  rw [countPieces_rows]
  simp

/-- Counting is additive: a pointwise identity between indicator values sums up
over a list. -/
theorem countP_pointwise {α : Type} (l : List α) (p q t f : α → Bool)
    (h : ∀ x ∈ l, (if p x = true then 1 else 0) =
      (if q x = true then 1 else 0) + (if t x = true then 1 else 0) +
        (if f x = true then 1 else 0)) :
    l.countP p = l.countP q + l.countP t + l.countP f := by
  induction l with
  | nil => simp
  | cons a l ih =>
    have h1 := h a (by simp)
    have h2 := ih (fun x hx => h x (by simp [hx]))
    simp only [List.countP_cons]
    omega

/-- How a legal move changes one cell: the three indicator identities behind the
piece counts. -/
theorem makeMove_cell_cases (g : Game) (row col side : Int) (hb : ValidBoard g.board)
    (hv : isValidMove g.board row col side = true) (r c : Int) :
    (r = row ∧ c = col ∧ g.board r c = EMPTY ∧ (makeMove row col side g).board r c = side) ∨
    (¬ (r = row ∧ c = col) ∧ g.board r c = opponentOf side ∧
      (makeMove row col side g).board r c = side) ∨
    (¬ (r = row ∧ c = col) ∧ (makeMove row col side g).board r c = g.board r c ∧
      ¬ (g.board r c = opponentOf side ∧ g.board r c = side)) := by
  have hs := validSide_of_isValidMove g.board row col side hb hv
  obtain ⟨h1, h2, h3⟩ := makeMove_board g row col side hb hs
  obtain ⟨_, hempty, _⟩ := exists_checkDirection_of_isValidMove _ _ _ _ hv
  by_cases ht : r = row ∧ c = col
  · obtain ⟨rfl, rfl⟩ := ht
    exact Or.inl ⟨rfl, rfl, hempty, h1⟩
  · by_cases hc : IsCaptured g.board row col side directions r c
    · right; left
      refine ⟨ht, ?_, h2 r c hc⟩
      obtain ⟨d, _, k, j, hk, hj1, hjk, rfl, rfl⟩ := hc
      exact (hk.2.1 j hj1 hjk).2
    · right; right
      refine ⟨ht, h3 r c ht hc, ?_⟩
      rintro ⟨ho, hs⟩
      exact opponentOf_ne side (ho.symm.trans hs)

theorem countP_eq_one_of_nodup (a : Int × Int) :
    ∀ l : List (Int × Int), l.Nodup → a ∈ l →
      l.countP (fun p => decide (p.1 = a.1 ∧ p.2 = a.2)) = 1 := by
  intro l
  induction l with
  | nil => intro _ h; simp at h
  | cons x l ih =>
    intro hnd hmem
    rw [List.nodup_cons] at hnd
    rw [List.countP_cons]
    by_cases hx : x = a
    · subst hx
      have : l.countP (fun p => decide (p.1 = x.1 ∧ p.2 = x.2)) = 0 := by
        rw [List.countP_eq_zero]
        intro p hp
        simp only [decide_eq_true_eq]
        intro h
        exact hnd.1 ((Prod.ext h.1 h.2 : p = x) ▸ hp)
      rw [this]; simp
    · have hmem' : a ∈ l := by
        rcases List.mem_cons.1 hmem with h | h
        · exact (hx h.symm).elim
        · exact h
      have hne : ¬ (x.1 = a.1 ∧ x.2 = a.2) := fun h => hx (Prod.ext h.1 h.2)
      rw [ih hnd.2 hmem']; simp [hne]

theorem count_target (row col : Int) (hin : isInBounds row col = true) :
    allCells.countP (fun p => decide (p.1 = row ∧ p.2 = col)) = 1 :=
  countP_eq_one_of_nodup (row, col) allCells allCells_nodup ((mem_allCells (row, col)).2 hin)

/-- The piece counts after a legal move, with `flipCount` the number of flipped cells. -/
theorem makeMove_counts_aux (g : Game) (row col side : Int) (hb : ValidBoard g.board)
    (hv : isValidMove g.board row col side = true) :
    1 ≤ flipCount g row col side ∧
    (side = BLACK →
      (countPieces (makeMove row col side g).board).1 =
          (countPieces g.board).1 + 1 + flipCount g row col side ∧
      (countPieces (makeMove row col side g).board).2 =
          (countPieces g.board).2 - flipCount g row col side) ∧
    (side = WHITE →
      (countPieces (makeMove row col side g).board).2 =
          (countPieces g.board).2 + 1 + flipCount g row col side ∧
      (countPieces (makeMove row col side g).board).1 =
          (countPieces g.board).1 - flipCount g row col side) ∧
    countOccupied (makeMove row col side g).board = countOccupied g.board + 1 := by
  have hcases := makeMove_cell_cases g row col side hb hv
  obtain ⟨hin, hempty, d, hd, hcd⟩ := exists_checkDirection_of_isValidMove _ _ _ _ hv
  have hs := validSide_of_isValidMove g.board row col side hb hv
  have hse : side ≠ EMPTY := by
    rcases hs with h | h <;> rw [h] <;> decide
  have hoe := opponentOf_ne_empty side
  have hos := opponentOf_ne side
  have htarget := count_target row col hin
  have hnone : allCells.countP (fun _ => false) = 0 := by simp
  -- the mover gains the target and the flipped cells
  have hmover : countCells (makeMove row col side g).board side =
      countCells g.board side + 1 + flipCount g row col side := by
    have := countP_pointwise allCells
      (fun p => decide ((makeMove row col side g).board p.1 p.2 = side))
      (fun p => decide (g.board p.1 p.2 = side))
      (fun p => decide (p.1 = row ∧ p.2 = col))
      (fun p => decide (g.board p.1 p.2 = opponentOf side) &&
        decide ((makeMove row col side g).board p.1 p.2 = side)) ?_
    · rw [htarget] at this; exact this
    · rintro ⟨r, c⟩ _
      rcases hcases r c with ⟨rfl, rfl, h1, h2⟩ | ⟨h0, h1, h2⟩ | ⟨h0, h1, h2⟩
      · simp [h1, h2, hse.symm, hoe.symm]
      · simp [h0, h1, h2, hos]
      · simp only [h0, h1, decide_False, Bool.false_eq_true, ↓reduceIte]
        by_cases hx : g.board r c = side
        · have : ¬ g.board r c = opponentOf side := fun h => h2 ⟨h, hx⟩
          simp [hx, this, hos.symm]
        · simp [hx]
  -- the opponent loses the flipped cells
  have hopp : countCells g.board (opponentOf side) =
      countCells (makeMove row col side g).board (opponentOf side) + flipCount g row col side := by
    have := countP_pointwise allCells
      (fun p => decide (g.board p.1 p.2 = opponentOf side))
      (fun p => decide ((makeMove row col side g).board p.1 p.2 = opponentOf side))
      (fun _ => false)
      (fun p => decide (g.board p.1 p.2 = opponentOf side) &&
        decide ((makeMove row col side g).board p.1 p.2 = side)) ?_
    · rw [hnone] at this; exact this
    · rintro ⟨r, c⟩ _
      rcases hcases r c with ⟨rfl, rfl, h1, h2⟩ | ⟨h0, h1, h2⟩ | ⟨h0, h1, h2⟩
      · simp [h1, h2, hos.symm, hoe.symm]
      · simp [h1, h2, hos.symm]
      · simp only [h1, Bool.false_eq_true, ↓reduceIte]
        by_cases hx : g.board r c = opponentOf side
        · have : ¬ g.board r c = side := fun h => h2 ⟨hx, h⟩
          simp [hx, hos]
        · simp [hx]
  -- one more cell is occupied
  have hocc : countOccupied (makeMove row col side g).board = countOccupied g.board + 1 := by
    have := countP_pointwise allCells
      (fun p => decide ((makeMove row col side g).board p.1 p.2 ≠ EMPTY))
      (fun p => decide (g.board p.1 p.2 ≠ EMPTY))
      (fun p => decide (p.1 = row ∧ p.2 = col))
      (fun _ => false) ?_
    · rw [htarget, hnone] at this; exact this
    · rintro ⟨r, c⟩ _
      rcases hcases r c with ⟨rfl, rfl, h1, h2⟩ | ⟨h0, h1, h2⟩ | ⟨h0, h1, h2⟩
      · simp [h1, h2, hse]
      · simp [h0, h1, h2, hse, hoe]
      · simp [h0, h1]
  -- at least one cell is flipped: the first cell of a capturing direction
  have hflip : 1 ≤ flipCount g row col side := by
    obtain ⟨k, hk⟩ := (checkDirection_iff g.board hb row col d.1 d.2 side hs hd).1 hcd
    obtain ⟨hin1, hcell1⟩ := hk.2.1 1 (le_refl 1) hk.1
    have hcapt : IsCaptured g.board row col side directions (row + (1 : Nat) * d.1)
        (col + (1 : Nat) * d.2) := ⟨d, hd, k, 1, hk, le_refl 1, hk.1, rfl, rfl⟩
    have h2 := (makeMove_board g row col side hb hs).flipped _ _ hcapt
    simp only [Nat.cast_one, one_mul] at hin1 hcell1 h2
    unfold flipCount
    apply List.countP_pos_iff.2
    exact ⟨(row + d.1, col + d.2), (mem_allCells _).2 hin1, by simp [hcell1, h2]⟩
  have hBW : opponentOf BLACK = WHITE := rfl
  have hWB : opponentOf WHITE = BLACK := rfl
  refine ⟨hflip, ?_, ?_, hocc⟩
  · rintro rfl
    rw [countPieces_eq, countPieces_eq]
    rw [hBW] at hopp
    simp only
    constructor <;> omega
  · rintro rfl
    rw [countPieces_eq, countPieces_eq]
    rw [hWB] at hopp
    simp only
    constructor <;> omega

/-- Claim C3.  For a legal move, with `f` the number of cells that `makeMove` turns
from the opponent's colour to the mover's: `f ≥ 1`, `countPieces` after the move
gives the mover `1 + f` more and the opponent `f` fewer, and the number of occupied
cells grows by exactly 1. -/
theorem makeMove_counts (g : Game) (row col side : Int) (hb : ValidBoard g.board)
    (hv : isValidMove g.board row col side = true) :
    1 ≤ flipCount g row col side ∧
    (side = BLACK →
      (countPieces (makeMove row col side g).board).1 =
          (countPieces g.board).1 + 1 + flipCount g row col side ∧
      (countPieces (makeMove row col side g).board).2 =
          (countPieces g.board).2 - flipCount g row col side) ∧
    (side = WHITE →
      (countPieces (makeMove row col side g).board).2 =
          (countPieces g.board).2 + 1 + flipCount g row col side ∧
      (countPieces (makeMove row col side g).board).1 =
          (countPieces g.board).1 - flipCount g row col side) ∧
    countOccupied (makeMove row col side g).board = countOccupied g.board + 1 :=
  makeMove_counts_aux g row col side hb hv

/-- Claim C3, instance: Black playing (2,3) on the start board flips at least one
cell and the occupied count grows by one. -/
theorem makeMove_counts_witness :
    ValidBoard initBoard.board ∧ isValidMove initBoard.board 2 3 BLACK = true ∧
    1 ≤ flipCount initBoard 2 3 BLACK ∧
    countOccupied (makeMove 2 3 BLACK initBoard).board = countOccupied initBoard.board + 1 :=
  have h := makeMove_counts initBoard 2 3 BLACK validBoard_initBoard (by decide)
  ⟨validBoard_initBoard, by decide, h.1, h.2.2.2⟩

/-! ## Position evaluation -/

theorem foldl_bonus {α : Type} (P : α → Prop) [DecidablePred P] (w : Int) (l : List α) :
    ∀ s : Int, l.foldl (fun score x => if P x then score + w else score) s =
      s + w * (l.countP (fun x => decide (P x)) : Nat) := by
  induction l with
  | nil => intro s; simp
  | cons a l ih =>
    intro s
    rw [List.foldl_cons, ih, List.countP_cons]
    by_cases h : P a
    · simp only [h, ↓reduceIte, decide_True]; push_cast; ring
    · simp [h]

theorem foldl_corner {α : Type} (P Q : α → Prop) [DecidablePred P] [DecidablePred Q] (w : Int)
    (l : List α) :
    ∀ s : Int, l.foldl (fun score x => if P x then score + w else if Q x then score - w
        else score) s =
      s + w * (l.countP (fun x => decide (P x)) : Nat) -
        w * (l.countP (fun x => decide (¬ P x ∧ Q x)) : Nat) := by
  induction l with
  | nil => intro s; simp
  | cons a l ih =>
    intro s
    rw [List.foldl_cons, ih, List.countP_cons, List.countP_cons]
    by_cases h : P a
    · simp only [h, ↓reduceIte, decide_True, not_true_eq_false, false_and, decide_False]
      push_cast; ring
    · by_cases h' : Q a
      · simp only [h, h', ↓reduceIte, decide_True, decide_False, not_false_eq_true, and_self]
        push_cast; ring
      · simp [h, h']

/-- The graphical `evaluateBoard` as a sum, on any board. -/
theorem evaluateBoardGUI_eq (b : Board) (p : Int) :
    evaluateBoardGUI b p =
      (if p = BLACK then (countCells b BLACK : Int) - countCells b WHITE
        else (countCells b WHITE : Int) - countCells b BLACK) +
      25 * (cornerCount b p : Int) -
      25 * (corners.countP (fun rc => decide (¬ b rc.1 rc.2 = p ∧ b rc.1 rc.2 ≠ EMPTY)) : Nat) := by
  unfold evaluateBoardGUI cornerCount
  simp only [countPieces_eq]
  exact foldl_corner (fun rc : Int × Int => b rc.1 rc.2 = p) (fun rc => b rc.1 rc.2 ≠ EMPTY) 25
    corners _

/-- The console `evaluateBoard` is the graphical one plus 5 per edge index. -/
theorem evaluateBoard_eq_gui (b : Board) (p : Int) :
    evaluateBoard b p = evaluateBoardGUI b p + 5 * (edgeCount b p : Int) := by
  unfold evaluateBoard evaluateBoardGUI edgeCount
  exact foldl_bonus (fun i : Int => b 0 i = p ∨ b 7 i = p ∨ b i 0 = p ∨ b i 7 = p) 5 indices _

theorem corners_inBounds (rc : Int × Int) (h : rc ∈ corners) : isInBounds rc.1 rc.2 = true := by
  simp only [corners, List.mem_cons, List.mem_singleton, List.mem_nil_iff, or_false] at h
  rcases h with rfl | rfl | rfl | rfl <;> decide

/-- On a board of Empty, Black and White cells a corner that is neither the player's nor
Empty is the opponent's. -/
theorem corner_opponent_count (b : Board) (p : Int) (hb : ValidBoard b) (hp : ValidSide p) :
    corners.countP (fun rc => decide (¬ b rc.1 rc.2 = p ∧ b rc.1 rc.2 ≠ EMPTY)) =
      cornerCount b (opponentOf p) := by
  unfold cornerCount
  apply List.countP_congr
  intro rc hrc
  have hv := hb rc.1 rc.2 (corners_inBounds rc hrc)
  simp only [decide_eq_true_eq]
  rcases hp with rfl | rfl
  · have : opponentOf BLACK = WHITE := rfl
    rw [this]
    rcases hv with h | h | h <;> rw [h] <;> decide
  · have : opponentOf WHITE = BLACK := rfl
    rw [this]
    rcases hv with h | h | h <;> rw [h] <;> decide

theorem edgeCount_le (b : Board) (p : Int) : edgeCount b p ≤ 8 := by
  unfold edgeCount
  exact (List.countP_le_length _).trans (by decide)

/-- The closed form of the graphical `evaluateBoard` on boards of the data model. -/
theorem evaluateBoardGUI_formula (b : Board) (p : Int) (hb : ValidBoard b) (hp : ValidSide p) :
    evaluateBoardGUI b p =
      (countCells b p : Int) - countCells b (opponentOf p) +
        25 * (cornerCount b p : Int) - 25 * (cornerCount b (opponentOf p) : Int) := by
  rw [evaluateBoardGUI_eq, corner_opponent_count b p hb hp]
  rcases hp with rfl | rfl
  · rfl
  · rfl

/-- Claim C8.  Console engine: on a board of Empty, Black and White cells and for a side
`p` with opponent `q`, `evaluateBoard p` is (number of `p` cells) - (number of `q` cells)
+ 25 * (corners holding `p`) - 25 * (corners holding `q`) + 5 * (number of indices `i` in
`0..7` with `board[0][i]`, `board[7][i]`, `board[i][0]` or `board[i][7]` holding `p`),
and the edge term is at most 40. -/
theorem evaluateBoard_formula (b : Board) (p : Int) (hb : ValidBoard b) (hp : ValidSide p) :
    evaluateBoard b p =
      (countCells b p : Int) - countCells b (opponentOf p) +
        25 * (cornerCount b p : Int) - 25 * (cornerCount b (opponentOf p) : Int) +
        5 * (edgeCount b p : Int) ∧
    5 * (edgeCount b p : Int) ≤ 40 := by
  refine ⟨?_, ?_⟩
  · rw [evaluateBoard_eq_gui, evaluateBoardGUI_formula b p hb hp]
  · have := edgeCount_le b p
    omega

/-- Claim C8, instance: the start board seen from Black. -/
theorem evaluateBoard_formula_witness :
    ValidBoard initBoard.board ∧ ValidSide BLACK ∧
    evaluateBoard initBoard.board BLACK =
      (countCells initBoard.board BLACK : Int) - countCells initBoard.board (opponentOf BLACK) +
        25 * (cornerCount initBoard.board BLACK : Int) -
        25 * (cornerCount initBoard.board (opponentOf BLACK) : Int) +
        5 * (edgeCount initBoard.board BLACK : Int) :=
  ⟨validBoard_initBoard, Or.inl rfl,
    (evaluateBoard_formula initBoard.board BLACK validBoard_initBoard (Or.inl rfl)).1⟩

/-- Claim C9.  Graphical engine: on a board of Empty, Black and White cells
`evaluateBoard p` is the piece difference plus 25 per corner held by `p` minus 25 per
corner held by the opponent, with no edge term; and the console `evaluateBoard p` is the
graphical one plus 5 times the number of indices `i` in `0..7` for which `board[0][i]`,
`board[7][i]`, `board[i][0]` or `board[i][7]` holds `p`. -/
theorem evaluateBoardGUI_formula_and_console (b : Board) (p : Int) (hb : ValidBoard b)
    (hp : ValidSide p) :
    evaluateBoardGUI b p =
      (countCells b p : Int) - countCells b (opponentOf p) +
        25 * (cornerCount b p : Int) - 25 * (cornerCount b (opponentOf p) : Int) ∧
    evaluateBoard b p = evaluateBoardGUI b p + 5 * (edgeCount b p : Int) :=
  ⟨evaluateBoardGUI_formula b p hb hp, evaluateBoard_eq_gui b p⟩

/-- Claim C9, instance: the start board seen from White. -/
theorem evaluateBoardGUI_formula_and_console_witness :
    ValidBoard initBoard.board ∧ ValidSide WHITE ∧
    evaluateBoard initBoard.board WHITE =
      evaluateBoardGUI initBoard.board WHITE + 5 * (edgeCount initBoard.board WHITE : Int) :=
  ⟨validBoard_initBoard, Or.inr rfl,
    (evaluateBoardGUI_formula_and_console initBoard.board WHITE validBoard_initBoard
      (Or.inr rfl)).2⟩

/-- The scan of `hasValidMoves` finds a legal move exactly when one exists. -/
theorem hasValidMoves_eq_true_iff (b : Board) (side : Int) :
    hasValidMoves b side = true ↔
      ∃ i ∈ indices, ∃ j ∈ indices, isValidMove b i j side = true := by
  simp only [hasValidMoves, List.any_eq_true]

/-- Claim C10.  `hasValidMoves side` is true exactly when some `row`, `col` in `0..7`
has `isValidMove row col side` true. -/
theorem hasValidMoves_iff_exists (b : Board) (side : Int) :
    hasValidMoves b side = true ↔
      ∃ row col : Int, (0 ≤ row ∧ row < 8) ∧ (0 ≤ col ∧ col < 8) ∧
        isValidMove b row col side = true := by
  rw [hasValidMoves_eq_true_iff]
  simp only [mem_indices]
  constructor
  · rintro ⟨i, hi, j, hj, h⟩; exact ⟨i, j, hi, hj, h⟩
  · rintro ⟨i, j, hi, hj, h⟩; exact ⟨i, hi, j, hj, h⟩

/-! ## Unfolding the search loops -/

theorem maxCols_cons (prune : Bool) (child : Int → Int → Game → Int × Game) (cur i j : Int)
    (js : List Int) (st : SearchState) :
    maxCols prune child cur i (j :: js) st =
      if isValidMove st.game.board i j cur = true then
        if (prune && decide (st.beta ≤
            (maxStep st (child st.alpha st.beta (makeMove i j cur st.game)).1).alpha)) = true then
          maxStep st (child st.alpha st.beta (makeMove i j cur st.game)).1
        else maxCols prune child cur i js
          (maxStep st (child st.alpha st.beta (makeMove i j cur st.game)).1)
      else maxCols prune child cur i js st := rfl

theorem maxRows_cons (prune : Bool) (child : Int → Int → Game → Int × Game) (cur i : Int)
    (is : List Int) (st : SearchState) :
    maxRows prune child cur (i :: is) st =
      if (prune && decide ((maxCols prune child cur i indices st).beta ≤
          (maxCols prune child cur i indices st).alpha)) = true then
        maxCols prune child cur i indices st
      else maxRows prune child cur is (maxCols prune child cur i indices st) := rfl

theorem minCols_cons (prune : Bool) (child : Int → Int → Game → Int × Game) (cur i j : Int)
    (js : List Int) (st : SearchState) :
    minCols prune child cur i (j :: js) st =
      if isValidMove st.game.board i j cur = true then
        if (prune && decide
            ((minStep st (child st.alpha st.beta (makeMove i j cur st.game)).1).beta ≤
              st.alpha)) = true then
          minStep st (child st.alpha st.beta (makeMove i j cur st.game)).1
        else minCols prune child cur i js
          (minStep st (child st.alpha st.beta (makeMove i j cur st.game)).1)
      else minCols prune child cur i js st := rfl

theorem minRows_cons (prune : Bool) (child : Int → Int → Game → Int × Game) (cur i : Int)
    (is : List Int) (st : SearchState) :
    minRows prune child cur (i :: is) st =
      if (prune && decide ((minCols prune child cur i indices st).beta ≤
          (minCols prune child cur i indices st).alpha)) = true then
        minCols prune child cur i indices st
      else minRows prune child cur is (minCols prune child cur i indices st) := rfl

theorem minimaxAux_succ (prune : Bool) (ev : Board → Int → Int) (player : Int) (fuel : Nat)
    (depth : Int) (isMaximizing : Bool) (alpha beta : Int) (g : Game) :
    minimaxAux prune ev player (fuel + 1) depth isMaximizing alpha beta g =
      if depth = 0 ∨ g.moveCount = BOARD_SIZE * BOARD_SIZE then (ev g.board player, g)
      else if (!hasValidMoves g.board (if isMaximizing = true then player
          else opponentOf player)) = true then
        if (!hasValidMoves g.board (opponentOf player)) = true then (ev g.board player, g)
        else minimaxAux prune ev player fuel (depth - 1) (!isMaximizing) alpha beta g
      else if isMaximizing = true then
        ((maxRows prune (fun a b g' => minimaxAux prune ev player fuel (depth - 1) false a b g')
            (if isMaximizing = true then player else opponentOf player) indices
            { game := g, best := -100000, alpha := alpha, beta := beta }).best,
         (maxRows prune (fun a b g' => minimaxAux prune ev player fuel (depth - 1) false a b g')
            (if isMaximizing = true then player else opponentOf player) indices
            { game := g, best := -100000, alpha := alpha, beta := beta }).game)
      else
        ((minRows prune (fun a b g' => minimaxAux prune ev player fuel (depth - 1) true a b g')
            (if isMaximizing = true then player else opponentOf player) indices
            { game := g, best := 100000, alpha := alpha, beta := beta }).best,
         (minRows prune (fun a b g' => minimaxAux prune ev player fuel (depth - 1) true a b g')
            (if isMaximizing = true then player else opponentOf player) indices
            { game := g, best := 100000, alpha := alpha, beta := beta }).game) := rfl

theorem minimaxAux_succ_max (prune : Bool) (ev : Board → Int → Int) (player : Int) (fuel : Nat)
    (depth : Int) (alpha beta : Int) (g : Game) :
    minimaxAux prune ev player (fuel + 1) depth true alpha beta g =
      if depth = 0 ∨ g.moveCount = BOARD_SIZE * BOARD_SIZE then (ev g.board player, g)
      else if (!hasValidMoves g.board player) = true then
        if (!hasValidMoves g.board (opponentOf player)) = true then (ev g.board player, g)
        else minimaxAux prune ev player fuel (depth - 1) false alpha beta g
      else
        ((maxRows prune (fun a b g' => minimaxAux prune ev player fuel (depth - 1) false a b g')
            player indices { game := g, best := -100000, alpha := alpha, beta := beta }).best,
         (maxRows prune (fun a b g' => minimaxAux prune ev player fuel (depth - 1) false a b g')
            player indices { game := g, best := -100000, alpha := alpha, beta := beta }).game) :=
  rfl

theorem minimaxAux_succ_min (prune : Bool) (ev : Board → Int → Int) (player : Int) (fuel : Nat)
    (depth : Int) (alpha beta : Int) (g : Game) :
    minimaxAux prune ev player (fuel + 1) depth false alpha beta g =
      if depth = 0 ∨ g.moveCount = BOARD_SIZE * BOARD_SIZE then (ev g.board player, g)
      else if (!hasValidMoves g.board (opponentOf player)) = true then (ev g.board player, g)
      else
        ((minRows prune (fun a b g' => minimaxAux prune ev player fuel (depth - 1) true a b g')
            (opponentOf player) indices
            { game := g, best := 100000, alpha := alpha, beta := beta }).best,
         (minRows prune (fun a b g' => minimaxAux prune ev player fuel (depth - 1) true a b g')
            (opponentOf player) indices
            { game := g, best := 100000, alpha := alpha, beta := beta }).game) := by
  rw [minimaxAux_succ]
  by_cases h1 : depth = 0 ∨ g.moveCount = BOARD_SIZE * BOARD_SIZE
  · rw [if_pos h1, if_pos h1]
  · rw [if_neg h1, if_neg h1]
    by_cases h2 : (!hasValidMoves g.board (opponentOf player)) = true
    · simp [h2]
    · simp [h2]

theorem aiCols_cons (score : Game → Int × Game) (player i j : Int) (js : List Int)
    (st : AIState) :
    aiCols score player i (j :: js) st =
      if isValidMove st.game.board i j player = true then
        if (score (makeMove i j player st.game)).1 > st.bestScore then
          aiCols score player i js
            { game := st.game, bestScore := (score (makeMove i j player st.game)).1,
              bestRow := i, bestCol := j }
        else aiCols score player i js st
      else aiCols score player i js st := rfl

/-! ## The search restores the globals -/

theorem maxCols_game (prune : Bool) (child : Int → Int → Game → Int × Game) (cur i : Int)
    (js : List Int) : ∀ st : SearchState,
      (maxCols prune child cur i js st).game = st.game ∧
      (maxCols prune child cur i js st).beta = st.beta := by
  induction js with
  | nil => intro st; exact ⟨rfl, rfl⟩
  | cons j js ih =>
    intro st
    rw [maxCols_cons]
    split_ifs
    · exact ⟨rfl, rfl⟩
    · exact ih _
    · exact ih _

theorem maxRows_game (prune : Bool) (child : Int → Int → Game → Int × Game) (cur : Int)
    (is : List Int) : ∀ st : SearchState,
      (maxRows prune child cur is st).game = st.game ∧
      (maxRows prune child cur is st).beta = st.beta := by
  induction is with
  | nil => intro st; exact ⟨rfl, rfl⟩
  | cons i is ih =>
    intro st
    rw [maxRows_cons]
    have h := maxCols_game prune child cur i indices st
    split_ifs
    · exact h
    · exact ⟨(ih _).1.trans h.1, (ih _).2.trans h.2⟩

theorem minCols_game (prune : Bool) (child : Int → Int → Game → Int × Game) (cur i : Int)
    (js : List Int) : ∀ st : SearchState,
      (minCols prune child cur i js st).game = st.game ∧
      (minCols prune child cur i js st).alpha = st.alpha := by
  induction js with
  | nil => intro st; exact ⟨rfl, rfl⟩
  | cons j js ih =>
    intro st
    rw [minCols_cons]
    split_ifs
    · exact ⟨rfl, rfl⟩
    · exact ih _
    · exact ih _

theorem minRows_game (prune : Bool) (child : Int → Int → Game → Int × Game) (cur : Int)
    (is : List Int) : ∀ st : SearchState,
      (minRows prune child cur is st).game = st.game ∧
      (minRows prune child cur is st).alpha = st.alpha := by
  induction is with
  | nil => intro st; exact ⟨rfl, rfl⟩
  | cons i is ih =>
    intro st
    rw [minRows_cons]
    have h := minCols_game prune child cur i indices st
    split_ifs
    · exact h
    · exact ⟨(ih _).1.trans h.1, (ih _).2.trans h.2⟩

/-- `minimax` leaves `board` and `moveCount` as it found them. -/
theorem minimaxAux_game (prune : Bool) (ev : Board → Int → Int) (player : Int) (fuel : Nat) :
    ∀ (depth : Int) (isMaximizing : Bool) (alpha beta : Int) (g : Game),
      (minimaxAux prune ev player fuel depth isMaximizing alpha beta g).2 = g := by
  induction fuel with
  | zero => intro depth isMaximizing alpha beta g; rfl
  | succ fuel ih =>
    intro depth isMaximizing alpha beta g
    rw [minimaxAux_succ]
    split_ifs <;>
      first
      | rfl
      | exact ih _ _ _ _ _
      | exact (maxRows_game _ _ _ _ _).1
      | exact (minRows_game _ _ _ _ _).1

theorem aiCols_game (score : Game → Int × Game) (player i : Int) (js : List Int) :
    ∀ st : AIState, (aiCols score player i js st).game = st.game := by
  induction js with
  | nil => intro st; rfl
  | cons j js ih =>
    intro st
    rw [aiCols_cons]
    split_ifs
    · exact ih _
    · exact ih _
    · exact ih _

theorem aiRows_game (score : Game → Int × Game) (player : Int) (is : List Int) :
    ∀ st : AIState, (aiRows score player is st).game = st.game := by
  induction is with
  | nil => intro st; rfl
  | cons i is ih =>
    intro st
    unfold aiRows
    exact (ih _).trans (aiCols_game score player i indices st)

theorem getAIMoveBy_game (score : Game → Int × Game) (player : Int) (g : Game) :
    (getAIMoveBy score player g).2 = g :=
  aiRows_game score player indices _

/-- Claim C6.  After `minimax` returns and after `getAIMove` returns, in both files, the
board holds the 64 cell values it held before the call and `moveCount` has its value from
before the call, for every depth, maximizing flag, side, `alpha` and `beta`. -/
theorem search_restores_globals (depth : Int) (isMaximizing : Bool)
    (player alpha beta : Int) (g : Game) :
    ((minimax depth isMaximizing player alpha beta g).2.board = g.board ∧
      (minimax depth isMaximizing player alpha beta g).2.moveCount = g.moveCount) ∧
    ((minimaxGUI depth isMaximizing player alpha beta g).2.board = g.board ∧
      (minimaxGUI depth isMaximizing player alpha beta g).2.moveCount = g.moveCount) ∧
    ((getAIMove player g).2.board = g.board ∧
      (getAIMove player g).2.moveCount = g.moveCount) ∧
    ((getAIMoveGUI player g).2.board = g.board ∧
      (getAIMoveGUI player g).2.moveCount = g.moveCount) := by
  have h1 : (minimax depth isMaximizing player alpha beta g).2 = g :=
    minimaxAux_game _ _ _ _ _ _ _ _ _
  have h2 : (minimaxGUI depth isMaximizing player alpha beta g).2 = g :=
    minimaxAux_game _ _ _ _ _ _ _ _ _
  have h3 : (getAIMove player g).2 = g := getAIMoveBy_game _ _ _
  have h4 : (getAIMoveGUI player g).2 = g := getAIMoveBy_game _ _ _
  rw [h1, h2, h3, h4]
  exact ⟨⟨rfl, rfl⟩, ⟨rfl, rfl⟩, ⟨rfl, rfl⟩, ⟨rfl, rfl⟩⟩

/-! ## The recursion bound of the model is never reached -/

theorem flipDirectionLoop_cell (dr dc player opponent : Int) (n : Nat) :
    ∀ (r c : Int) (b : Board) (r' c' : Int),
      flipDirectionLoop dr dc player opponent n r c b r' c' = b r' c' ∨
      flipDirectionLoop dr dc player opponent n r c b r' c' = player := by
  induction n with
  | zero => intro r c b r' c'; exact Or.inl rfl
  | succ n ih =>
    intro r c b r' c'
    unfold flipDirectionLoop
    split_ifs
    · rcases ih (r + dr) (c + dc) (setCell b r c player) r' c' with h | h
      · rw [h]
        unfold setCell
        split_ifs
        · exact Or.inr rfl
        · exact Or.inl rfl
      · exact Or.inr h
    · exact Or.inl rfl

theorem makeMoveStep_cell (row col player : Int) (b : Board) (d : Int × Int) (r c : Int) :
    makeMoveStep row col player b d r c = b r c ∨ makeMoveStep row col player b d r c = player := by
  unfold makeMoveStep
  split_ifs
  · exact flipDirectionLoop_cell _ _ _ _ _ _ _ _ _ _
  · exact Or.inl rfl

theorem makeMove_foldl_cell (row col player : Int) (ds : List (Int × Int)) :
    ∀ (b : Board) (r c : Int),
      ds.foldl (makeMoveStep row col player) b r c = b r c ∨
      ds.foldl (makeMoveStep row col player) b r c = player := by
  induction ds with
  | nil => intro b r c; exact Or.inl rfl
  | cons d ds ih =>
    intro b r c
    rw [List.foldl_cons]
    rcases ih (makeMoveStep row col player b d) r c with h | h
    · rw [h]; exact makeMoveStep_cell row col player b d r c
    · exact Or.inr h

/-- On any board, `makeMove` leaves a cell alone or gives it to `player`, and the target
cell holds `player` afterwards. -/
theorem makeMove_cell_any (row col player : Int) (g : Game) :
    (makeMove row col player g).board row col = player ∧
    ∀ r c : Int, (makeMove row col player g).board r c = g.board r c ∨
      (makeMove row col player g).board r c = player := by
  have h := makeMove_foldl_cell row col player directions (setCell g.board row col player)
  have hset : setCell g.board row col player row col = player := by simp [setCell]
  constructor
  · rcases h row col with h' | h'
    · exact h'.trans hset
    · exact h'
  · intro r c
    rcases h r c with h' | h'
    · by_cases ht : r = row ∧ c = col
      · right
        show directions.foldl (makeMoveStep row col player) (setCell g.board row col player) r c
          = player
        rw [h']; simp [setCell, ht]
      · left
        show directions.foldl (makeMoveStep row col player) (setCell g.board row col player) r c
          = g.board r c
        rw [h']; unfold setCell; rw [if_neg ht]
    · exact Or.inr h'

theorem countP_lt_of_imp {α : Type} (l : List α) (p q : α → Bool)
    (himp : ∀ x ∈ l, p x = true → q x = true) (hex : ∃ x ∈ l, q x = true ∧ ¬ p x = true) :
    l.countP p < l.countP q := by
  induction l with
  | nil => obtain ⟨x, hx, _⟩ := hex; simp at hx
  | cons a l ih =>
    simp only [List.countP_cons]
    have hle : l.countP p ≤ l.countP q := by
      apply List.countP_mono_left
      intro x hx; exact himp x (by simp [hx])
    have ha := himp a (by simp)
    obtain ⟨x, hx, hq, hp⟩ := hex
    rcases List.mem_cons.1 hx with rfl | hmem
    · rw [if_pos hq, if_neg hp]; omega
    · have := ih (fun y hy => himp y (by simp [hy])) ⟨x, hmem, hq, hp⟩
      split_ifs with h1 h2 <;> first | omega | exact absurd (ha h1) h2

/-- A legal move fills an empty cell and empties none, on any board. -/
theorem emptyCount_makeMove_lt (g : Game) (row col player : Int)
    (hv : isValidMove g.board row col player = true) :
    emptyCount (makeMove row col player g).board < emptyCount g.board := by
  obtain ⟨hin, hempty, d, _, hcd⟩ := exists_checkDirection_of_isValidMove _ _ _ _ hv
  obtain ⟨r0, c0, _, hp, hne⟩ := checkDirectionLoop_player _ _ _ _ _ _ _ _ _ hcd
  have hpe : player ≠ EMPTY := fun h => hne (hp.trans h)
  obtain ⟨htarget, hcell⟩ := makeMove_cell_any row col player g
  unfold emptyCount
  apply countP_lt_of_imp
  · intro x _ hx
    simp only [decide_eq_true_eq] at hx ⊢
    rcases hcell x.1 x.2 with h | h
    · rw [← h]; exact hx
    · exact absurd (h.symm.trans hx) hpe
  · refine ⟨(row, col), (mem_allCells _).2 hin, ?_, ?_⟩
    · simpa using hempty
    · simp only [decide_eq_true_eq]
      rw [htarget]; exact hpe

theorem emptyCount_le (b : Board) : emptyCount b ≤ 64 := by
  unfold emptyCount
  exact (List.countP_le_length _).trans (le_of_eq allCells_length)

theorem maxCols_congr (prune : Bool) (child1 child2 : Int → Int → Game → Int × Game)
    (cur i : Int) (g : Game)
    (h : ∀ a b i j, isValidMove g.board i j cur = true →
      (child1 a b (makeMove i j cur g)).1 = (child2 a b (makeMove i j cur g)).1)
    (js : List Int) :
    ∀ st : SearchState, st.game = g →
      maxCols prune child1 cur i js st = maxCols prune child2 cur i js st := by
  induction js with
  | nil => intro st _; rfl
  | cons j js ih =>
    intro st hg
    rw [maxCols_cons, maxCols_cons]
    by_cases hv : isValidMove st.game.board i j cur = true
    · rw [if_pos hv, if_pos hv]
      have := h st.alpha st.beta i j (by rw [← hg]; exact hv)
      rw [← hg] at this
      rw [this, ih (maxStep st _) hg]
    · rw [if_neg hv, if_neg hv]; exact ih st hg

theorem maxRows_congr (prune : Bool) (child1 child2 : Int → Int → Game → Int × Game)
    (cur : Int) (g : Game)
    (h : ∀ a b i j, isValidMove g.board i j cur = true →
      (child1 a b (makeMove i j cur g)).1 = (child2 a b (makeMove i j cur g)).1)
    (is : List Int) :
    ∀ st : SearchState, st.game = g →
      maxRows prune child1 cur is st = maxRows prune child2 cur is st := by
  induction is with
  | nil => intro st _; rfl
  | cons i is ih =>
    intro st hg
    rw [maxRows_cons, maxRows_cons, maxCols_congr prune child1 child2 cur i g h indices st hg]
    rw [ih _ ((maxCols_game prune child2 cur i indices st).1.trans hg)]

theorem minCols_congr (prune : Bool) (child1 child2 : Int → Int → Game → Int × Game)
    (cur i : Int) (g : Game)
    (h : ∀ a b i j, isValidMove g.board i j cur = true →
      (child1 a b (makeMove i j cur g)).1 = (child2 a b (makeMove i j cur g)).1)
    (js : List Int) :
    ∀ st : SearchState, st.game = g →
      minCols prune child1 cur i js st = minCols prune child2 cur i js st := by
  induction js with
  | nil => intro st _; rfl
  | cons j js ih =>
    intro st hg
    rw [minCols_cons, minCols_cons]
    by_cases hv : isValidMove st.game.board i j cur = true
    · rw [if_pos hv, if_pos hv]
      have := h st.alpha st.beta i j (by rw [← hg]; exact hv)
      rw [← hg] at this
      rw [this, ih (minStep st _) hg]
    · rw [if_neg hv, if_neg hv]; exact ih st hg

theorem minRows_congr (prune : Bool) (child1 child2 : Int → Int → Game → Int × Game)
    (cur : Int) (g : Game)
    (h : ∀ a b i j, isValidMove g.board i j cur = true →
      (child1 a b (makeMove i j cur g)).1 = (child2 a b (makeMove i j cur g)).1)
    (is : List Int) :
    ∀ st : SearchState, st.game = g →
      minRows prune child1 cur is st = minRows prune child2 cur is st := by
  induction is with
  | nil => intro st _; rfl
  | cons i is ih =>
    intro st hg
    rw [minRows_cons, minRows_cons, minCols_congr prune child1 child2 cur i g h indices st hg]
    rw [ih _ ((minCols_game prune child2 cur i indices st).1.trans hg)]

/-- Two bounds that both allow two nested calls per empty cell give the same result. -/
theorem minimaxAux_fuel (prune : Bool) (ev : Board → Int → Int) (player : Int) (f1 : Nat) :
    ∀ (f2 : Nat) (depth : Int) (isMaximizing : Bool) (a b : Int) (g : Game),
      2 * emptyCount g.board + (if isMaximizing = true then 1 else 0) + 1 ≤ f1 →
      2 * emptyCount g.board + (if isMaximizing = true then 1 else 0) + 1 ≤ f2 →
      minimaxAux prune ev player f1 depth isMaximizing a b g =
        minimaxAux prune ev player f2 depth isMaximizing a b g := by
  induction f1 with
  | zero => intro f2 depth isMaximizing a b g h; omega
  | succ f1 ih =>
    intro f2 depth isMaximizing a b g h1 h2
    obtain ⟨f2, rfl⟩ : ∃ k, f2 = k + 1 := ⟨f2 - 1, by omega⟩
    cases isMaximizing
    · simp only [Bool.false_eq_true, ↓reduceIte] at h1 h2
      rw [minimaxAux_succ_min, minimaxAux_succ_min]
      have hch : ∀ a b i j, isValidMove g.board i j (opponentOf player) = true →
          (minimaxAux prune ev player f1 (depth - 1) true a b
            (makeMove i j (opponentOf player) g)).1 =
          (minimaxAux prune ev player f2 (depth - 1) true a b
            (makeMove i j (opponentOf player) g)).1 := by
        intro a b i j hv
        have := emptyCount_makeMove_lt g i j _ hv
        rw [ih f2 (depth - 1) true a b _ (by simp only [↓reduceIte]; omega)
          (by simp only [↓reduceIte]; omega)]
      rw [minRows_congr prune _ _ (opponentOf player) g hch indices _ rfl]
    · simp only [↓reduceIte] at h1 h2
      rw [minimaxAux_succ_max, minimaxAux_succ_max]
      have hch : ∀ a b i j, isValidMove g.board i j player = true →
          (minimaxAux prune ev player f1 (depth - 1) false a b (makeMove i j player g)).1 =
          (minimaxAux prune ev player f2 (depth - 1) false a b (makeMove i j player g)).1 := by
        intro a b i j hv
        have := emptyCount_makeMove_lt g i j _ hv
        rw [ih f2 (depth - 1) false a b _
          (by simp only [Bool.false_eq_true, ↓reduceIte]; omega)
          (by simp only [Bool.false_eq_true, ↓reduceIte]; omega)]
      rw [maxRows_congr prune _ _ player g hch indices _ rfl,
        ih f2 (depth - 1) false a b g
          (by simp only [Bool.false_eq_true, ↓reduceIte]; omega)
          (by simp only [Bool.false_eq_true, ↓reduceIte]; omega)]

/-- The model of `minimax` satisfies the recursion of the source, for every `depth`: the
bound on the nesting of calls never cuts a call short. -/
theorem minimaxWith_unfold (prune : Bool) (ev : Board → Int → Int) (depth : Int)
    (isMaximizing : Bool) (player alpha beta : Int) (g : Game) :
    minimaxWith prune ev depth isMaximizing player alpha beta g =
      if depth = 0 ∨ g.moveCount = BOARD_SIZE * BOARD_SIZE then (ev g.board player, g)
      else if (!hasValidMoves g.board (if isMaximizing = true then player
          else opponentOf player)) = true then
        if (!hasValidMoves g.board (opponentOf player)) = true then (ev g.board player, g)
        else minimaxWith prune ev (depth - 1) (!isMaximizing) player alpha beta g
      else if isMaximizing = true then
        ((maxRows prune (fun a b g' => minimaxWith prune ev (depth - 1) false player a b g')
            (if isMaximizing = true then player else opponentOf player) indices
            { game := g, best := -100000, alpha := alpha, beta := beta }).best,
         (maxRows prune (fun a b g' => minimaxWith prune ev (depth - 1) false player a b g')
            (if isMaximizing = true then player else opponentOf player) indices
            { game := g, best := -100000, alpha := alpha, beta := beta }).game)
      else
        ((minRows prune (fun a b g' => minimaxWith prune ev (depth - 1) true player a b g')
            (if isMaximizing = true then player else opponentOf player) indices
            { game := g, best := 100000, alpha := alpha, beta := beta }).best,
         (minRows prune (fun a b g' => minimaxWith prune ev (depth - 1) true player a b g')
            (if isMaximizing = true then player else opponentOf player) indices
            { game := g, best := 100000, alpha := alpha, beta := beta }).game) := by
  have he := emptyCount_le g.board
  have hfuel : searchFuel = 129 + 1 := rfl
  have hch : ∀ (flag : Bool) (cur a b i j : Int), isValidMove g.board i j cur = true →
      (minimaxAux prune ev player 129 (depth - 1) flag a b (makeMove i j cur g)).1 =
        (minimaxWith prune ev (depth - 1) flag player a b (makeMove i j cur g)).1 := by
    intro flag cur a b i j hv
    have := emptyCount_makeMove_lt g i j cur hv
    unfold minimaxWith
    rw [minimaxAux_fuel prune ev player 129 searchFuel (depth - 1) flag a b _
      (by split_ifs <;> omega) (by rw [hfuel]; split_ifs <;> omega)]
  unfold minimaxWith
  rw [hfuel]
  cases isMaximizing
  · rw [minimaxAux_succ_min]
    simp only [Bool.false_eq_true, ↓reduceIte]
    rw [minRows_congr prune _ _ (opponentOf player) g (hch true (opponentOf player)) indices _ rfl]
    by_cases h3 : (!hasValidMoves g.board (opponentOf player)) = true
    · simp only [h3, ↓reduceIte]
    · simp only [h3, Bool.false_eq_true, ↓reduceIte]
      rfl
  · rw [minimaxAux_succ_max]
    simp only [↓reduceIte, Bool.not_true]
    rw [maxRows_congr prune _ _ player g (hch false player) indices _ rfl,
      minimaxAux_fuel prune ev player 129 (129 + 1) (depth - 1) false alpha beta g
        (by simp only [Bool.false_eq_true, ↓reduceIte]; omega)
        (by simp only [Bool.false_eq_true, ↓reduceIte]; omega)]
    rfl

/-! ## Alpha-beta against the recursion without cut-offs -/

theorem maxCols_best_ge (child : Int → Int → Game → Int × Game) (cur i : Int) (js : List Int) :
    ∀ st : SearchState, st.best ≤ (maxCols false child cur i js st).best := by
  induction js with
  | nil => intro st; exact le_refl _
  | cons j js ih =>
    intro st
    rw [maxCols_cons]
    split_ifs with h1 h2
    · simp at h2
    · refine le_trans ?_ (ih _)
      simp only [maxStep]; split_ifs <;> omega
    · exact ih _

theorem maxRows_best_ge (child : Int → Int → Game → Int × Game) (cur : Int) (is : List Int) :
    ∀ st : SearchState, st.best ≤ (maxRows false child cur is st).best := by
  induction is with
  | nil => intro st; exact le_refl _
  | cons i is ih =>
    intro st
    rw [maxRows_cons]
    split_ifs with h1
    · simp at h1
    · exact le_trans (maxCols_best_ge child cur i indices st) (ih _)

theorem maxCols_rel (child child' : Int → Int → Game → Int × Game) (cur i a0 s : Int)
    (hchild : ∀ a b a' b' g, a < b → ThreeWay (child a b g).1 (child' a' b' g).1 a b)
    (js : List Int) :
    ∀ st st' : SearchState, MaxInv a0 s st st' →
      MaxInv a0 s (maxCols true child cur i js st) (maxCols false child' cur i js st') ∨
      MaxBrk (maxCols true child cur i js st) (maxCols false child' cur i js st') := by
  induction js with
  | nil => intro st st' h; exact Or.inl h
  | cons j js ih =>
    intro st st' h
    obtain ⟨hg, h1, h2, h3, h4, h5, h6⟩ := h
    rw [maxCols_cons, maxCols_cons, ← hg]
    by_cases hv : isValidMove st.game.board i j cur = true
    · rw [if_pos hv, if_pos hv]
      obtain ⟨t1, t2, t3⟩ := hchild st.alpha st.beta st'.alpha st'.beta
        (makeMove i j cur st.game) h2
      generalize (child st.alpha st.beta (makeMove i j cur st.game)).1 = e at t1 t2 t3 ⊢
      generalize (child' st'.alpha st'.beta (makeMove i j cur st.game)).1 = e' at t1 t2 t3 ⊢
      simp only [Bool.true_and, Bool.false_and, decide_eq_true_eq, Bool.false_eq_true,
        ↓reduceIte]
      by_cases hb : st.beta ≤ (maxStep st e).alpha
      · rw [if_pos hb]
        right
        have hmono := maxCols_best_ge child' cur i js (maxStep st' e')
        refine ⟨hb, ?_, le_trans ?_ hmono⟩
        · simp only [maxStep] at hb ⊢; split_ifs at hb ⊢ <;> omega
        · simp only [maxStep] at hb ⊢; split_ifs at hb ⊢ <;> omega
      · rw [if_neg hb]
        apply ih
        simp only [maxStep] at hb
        refine ⟨hg, ?_, ?_, ?_, ?_, ?_, ?_⟩ <;> simp only [maxStep] <;>
          split_ifs at hb ⊢ <;> omega
    · rw [if_neg hv, if_neg hv]
      exact ih st st' ⟨hg, h1, h2, h3, h4, h5, h6⟩

theorem maxRows_rel (child child' : Int → Int → Game → Int × Game) (cur a0 s : Int)
    (hchild : ∀ a b a' b' g, a < b → ThreeWay (child a b g).1 (child' a' b' g).1 a b)
    (is : List Int) :
    ∀ st st' : SearchState, MaxInv a0 s st st' →
      MaxInv a0 s (maxRows true child cur is st) (maxRows false child' cur is st') ∨
      MaxBrk (maxRows true child cur is st) (maxRows false child' cur is st') := by
  induction is with
  | nil => intro st st' h; exact Or.inl h
  | cons i is ih =>
    intro st st' h
    rw [maxRows_cons, maxRows_cons]
    simp only [Bool.true_and, Bool.false_and, decide_eq_true_eq, Bool.false_eq_true, ↓reduceIte]
    rcases maxCols_rel child child' cur i a0 s hchild indices st st' h with hinv | hbrk
    · have : ¬ (maxCols true child cur i indices st).beta ≤
          (maxCols true child cur i indices st).alpha := by
        have := hinv.2.2.1; omega
      rw [if_neg this]
      exact ih _ _ hinv
    · rw [if_pos hbrk.1]
      right
      exact ⟨hbrk.1, hbrk.2.1, le_trans hbrk.2.2 (maxRows_best_ge child' cur is _)⟩

theorem minCols_best_le (child : Int → Int → Game → Int × Game) (cur i : Int) (js : List Int) :
    ∀ st : SearchState, (minCols false child cur i js st).best ≤ st.best := by
  induction js with
  | nil => intro st; exact le_refl _
  | cons j js ih =>
    intro st
    rw [minCols_cons]
    split_ifs with h1 h2
    · simp at h2
    · refine le_trans (ih _) ?_
      simp only [minStep]; split_ifs <;> omega
    · exact ih _

theorem minRows_best_le (child : Int → Int → Game → Int × Game) (cur : Int) (is : List Int) :
    ∀ st : SearchState, (minRows false child cur is st).best ≤ st.best := by
  induction is with
  | nil => intro st; exact le_refl _
  | cons i is ih =>
    intro st
    rw [minRows_cons]
    split_ifs with h1
    · simp at h1
    · exact le_trans (ih _) (minCols_best_le child cur i indices st)

theorem minCols_rel (child child' : Int → Int → Game → Int × Game) (cur i b0 s : Int)
    (hchild : ∀ a b a' b' g, a < b → ThreeWay (child a b g).1 (child' a' b' g).1 a b)
    (js : List Int) :
    ∀ st st' : SearchState, MinInv b0 s st st' →
      MinInv b0 s (minCols true child cur i js st) (minCols false child' cur i js st') ∨
      MinBrk (minCols true child cur i js st) (minCols false child' cur i js st') := by
  induction js with
  | nil => intro st st' h; exact Or.inl h
  | cons j js ih =>
    intro st st' h
    obtain ⟨hg, h1, h2, h3, h4, h5, h6⟩ := h
    rw [minCols_cons, minCols_cons, ← hg]
    by_cases hv : isValidMove st.game.board i j cur = true
    · rw [if_pos hv, if_pos hv]
      obtain ⟨t1, t2, t3⟩ := hchild st.alpha st.beta st'.alpha st'.beta
        (makeMove i j cur st.game) h2
      generalize (child st.alpha st.beta (makeMove i j cur st.game)).1 = e at t1 t2 t3 ⊢
      generalize (child' st'.alpha st'.beta (makeMove i j cur st.game)).1 = e' at t1 t2 t3 ⊢
      simp only [Bool.true_and, Bool.false_and, decide_eq_true_eq, Bool.false_eq_true,
        ↓reduceIte]
      by_cases hb : (minStep st e).beta ≤ st.alpha
      · rw [if_pos hb]
        right
        have hmono := minCols_best_le child' cur i js (minStep st' e')
        refine ⟨hb, ?_, le_trans hmono ?_⟩
        · simp only [minStep] at hb ⊢; split_ifs at hb ⊢ <;> omega
        · simp only [minStep] at hb ⊢; split_ifs at hb ⊢ <;> omega
      · rw [if_neg hb]
        apply ih
        simp only [minStep] at hb
        refine ⟨hg, ?_, ?_, ?_, ?_, ?_, ?_⟩ <;> simp only [minStep] <;>
          split_ifs at hb ⊢ <;> omega
    · rw [if_neg hv, if_neg hv]
      exact ih st st' ⟨hg, h1, h2, h3, h4, h5, h6⟩

theorem minRows_rel (child child' : Int → Int → Game → Int × Game) (cur b0 s : Int)
    (hchild : ∀ a b a' b' g, a < b → ThreeWay (child a b g).1 (child' a' b' g).1 a b)
    (is : List Int) :
    ∀ st st' : SearchState, MinInv b0 s st st' →
      MinInv b0 s (minRows true child cur is st) (minRows false child' cur is st') ∨
      MinBrk (minRows true child cur is st) (minRows false child' cur is st') := by
  induction is with
  | nil => intro st st' h; exact Or.inl h
  | cons i is ih =>
    intro st st' h
    rw [minRows_cons, minRows_cons]
    simp only [Bool.true_and, Bool.false_and, decide_eq_true_eq, Bool.false_eq_true, ↓reduceIte]
    rcases minCols_rel child child' cur i b0 s hchild indices st st' h with hinv | hbrk
    · have : ¬ (minCols true child cur i indices st).beta ≤
          (minCols true child cur i indices st).alpha := by
        have := hinv.2.2.1; omega
      rw [if_neg this]
      exact ih _ _ hinv
    · rw [if_pos hbrk.1]
      right
      exact ⟨hbrk.1, hbrk.2.1, le_trans (minRows_best_le child' cur is _) hbrk.2.2⟩

/-- The window property of `minimax`: with `alpha < beta` the value returned with the
cut-offs is exact when the value without cut-offs lies inside the window, and lies on the
same side of the window otherwise. -/
theorem minimaxAux_threeWay (ev : Board → Int → Int) (player : Int) (fuel : Nat) :
    ∀ (depth : Int) (isMaximizing : Bool) (a b a' b' : Int) (g : Game), a < b →
      ThreeWay (minimaxAux true ev player fuel depth isMaximizing a b g).1
        (minimaxAux false ev player fuel depth isMaximizing a' b' g).1 a b := by
  induction fuel with
  | zero =>
    intro depth isMaximizing a b a' b' g _
    exact ⟨fun h => h, fun h => h, fun _ _ => rfl⟩
  | succ fuel ih =>
    intro depth isMaximizing a b a' b' g hab
    have triv : ThreeWay (ev g.board player) (ev g.board player) a b :=
      ⟨fun h => h, fun h => h, fun _ _ => rfl⟩
    cases isMaximizing
    · rw [minimaxAux_succ_min, minimaxAux_succ_min]
      by_cases h1 : depth = 0 ∨ g.moveCount = BOARD_SIZE * BOARD_SIZE
      · rw [if_pos h1, if_pos h1]; exact triv
      · rw [if_neg h1, if_neg h1]
        by_cases h3 : (!hasValidMoves g.board (opponentOf player)) = true
        · rw [if_pos h3, if_pos h3]; exact triv
        · rw [if_neg h3, if_neg h3]
          have hrel := minRows_rel
            (fun a b g' => minimaxAux true ev player fuel (depth - 1) true a b g')
            (fun a b g' => minimaxAux false ev player fuel (depth - 1) true a b g')
            (opponentOf player) b 100000
            (fun a b a' b' g' hab' => ih _ _ a b a' b' g' hab') indices
            { game := g, best := 100000, alpha := a, beta := b }
            { game := g, best := 100000, alpha := a', beta := b' }
            ⟨rfl, le_refl _, hab, Or.inl (le_refl _), Or.inl (le_refl _), le_refl _,
              fun _ => rfl⟩
          have halpha := (minRows_game true
            (fun a b g' => minimaxAux true ev player fuel (depth - 1) true a b g')
            (opponentOf player) indices
            { game := g, best := 100000, alpha := a, beta := b }).2
          simp only at halpha ⊢
          rcases hrel with ⟨_, k1, k2, k3, k4, k5, k6⟩ | ⟨k1, k2, k3⟩
          · rw [halpha] at k2
            refine ⟨fun h => ?_, fun h => ?_, fun h h' => ?_⟩ <;> omega
          · rw [halpha] at k1 k2 k3
            refine ⟨fun h => ?_, fun h => ?_, fun h h' => ?_⟩ <;> omega
    · rw [minimaxAux_succ_max, minimaxAux_succ_max]
      by_cases h1 : depth = 0 ∨ g.moveCount = BOARD_SIZE * BOARD_SIZE
      · rw [if_pos h1, if_pos h1]; exact triv
      · rw [if_neg h1, if_neg h1]
        by_cases h2 : (!hasValidMoves g.board player) = true
        · rw [if_pos h2, if_pos h2]
          by_cases h3 : (!hasValidMoves g.board (opponentOf player)) = true
          · rw [if_pos h3, if_pos h3]; exact triv
          · rw [if_neg h3, if_neg h3]; exact ih _ _ _ _ _ _ _ hab
        · rw [if_neg h2, if_neg h2]
          have hrel := maxRows_rel
            (fun a b g' => minimaxAux true ev player fuel (depth - 1) false a b g')
            (fun a b g' => minimaxAux false ev player fuel (depth - 1) false a b g')
            player a (-100000)
            (fun a b a' b' g' hab' => ih _ _ a b a' b' g' hab') indices
            { game := g, best := -100000, alpha := a, beta := b }
            { game := g, best := -100000, alpha := a', beta := b' }
            ⟨rfl, le_refl _, hab, Or.inl (le_refl _), Or.inl (le_refl _), le_refl _,
              fun _ => rfl⟩
          have hbeta := (maxRows_game true
            (fun a b g' => minimaxAux true ev player fuel (depth - 1) false a b g')
            player indices
            { game := g, best := -100000, alpha := a, beta := b }).2
          simp only at hbeta ⊢
          rcases hrel with ⟨_, k1, k2, k3, k4, k5, k6⟩ | ⟨k1, k2, k3⟩
          · rw [hbeta] at k2
            refine ⟨fun h => ?_, fun h => ?_, fun h h' => ?_⟩ <;> omega
          · rw [hbeta] at k1 k2 k3
            refine ⟨fun h => ?_, fun h => ?_, fun h h' => ?_⟩ <;> omega

/-! ## Range of the evaluation -/

theorem countP_add_le_length {α : Type} (l : List α) (p q : α → Bool)
    (h : ∀ x ∈ l, ¬ (p x = true ∧ q x = true)) : l.countP p + l.countP q ≤ l.length := by
  induction l with
  | nil => simp
  | cons a l ih =>
    have h1 := h a (by simp)
    have h2 := ih (fun x hx => h x (by simp [hx]))
    simp only [List.countP_cons, List.length_cons]
    split_ifs with hp hq <;> first | omega | exact absurd ⟨hp, hq⟩ h1

theorem countCells_black_white_le (b : Board) : countCells b BLACK + countCells b WHITE ≤ 64 := by
  have := countP_add_le_length allCells (fun p => decide (b p.1 p.2 = BLACK))
    (fun p => decide (b p.1 p.2 = WHITE)) (by
      intro x _ h
      simp only [decide_eq_true_eq] at h
      exact absurd (h.1.symm.trans h.2) (by decide))
  rw [allCells_length] at this
  exact this

theorem corner_counts_le (b : Board) (p : Int) :
    cornerCount b p +
      corners.countP (fun rc => decide (¬ b rc.1 rc.2 = p ∧ b rc.1 rc.2 ≠ EMPTY)) ≤ 4 := by
  have := countP_add_le_length corners (fun rc => decide (b rc.1 rc.2 = p))
    (fun rc => decide (¬ b rc.1 rc.2 = p ∧ b rc.1 rc.2 ≠ EMPTY)) (by
      intro x _ h
      simp only [decide_eq_true_eq] at h
      exact h.2.1 h.1)
  exact this

/-- The graphical evaluation lies in `[-164, 164]` on every board. -/
theorem evaluateBoardGUI_range (b : Board) (p : Int) :
    -164 ≤ evaluateBoardGUI b p ∧ evaluateBoardGUI b p ≤ 164 := by
  rw [evaluateBoardGUI_eq]
  have h1 := countCells_black_white_le b
  have h2 := corner_counts_le b p
  split_ifs <;> constructor <;> omega

/-- The console evaluation lies in `[-164, 204]` on every board. -/
theorem evaluateBoard_range (b : Board) (p : Int) :
    -164 ≤ evaluateBoard b p ∧ evaluateBoard b p ≤ 204 := by
  rw [evaluateBoard_eq_gui]
  have h1 := evaluateBoardGUI_range b p
  have h2 := edgeCount_le b p
  constructor <;> omega

/-! ## Range of the search without cut-offs -/

theorem maxCols_bounds (child : Int → Int → Game → Int × Game) (cur i lo hi : Int)
    (hchild : ∀ a b g, lo ≤ (child a b g).1 ∧ (child a b g).1 ≤ hi) (js : List Int) :
    ∀ st : SearchState, st.best ≤ hi →
      (maxCols false child cur i js st).best ≤ hi ∧
      ((lo ≤ st.best ∨ ∃ j ∈ js, isValidMove st.game.board i j cur = true) →
        lo ≤ (maxCols false child cur i js st).best) := by
  induction js with
  | nil =>
    intro st h
    refine ⟨h, ?_⟩
    rintro (h' | ⟨j, hj, _⟩)
    · exact h'
    · simp at hj
  | cons j js ih =>
    intro st h
    rw [maxCols_cons]
    by_cases hv : isValidMove st.game.board i j cur = true
    · rw [if_pos hv]
      simp only [Bool.false_and, Bool.false_eq_true, ↓reduceIte]
      obtain ⟨c1, c2⟩ := hchild st.alpha st.beta (makeMove i j cur st.game)
      have hb : (maxStep st (child st.alpha st.beta (makeMove i j cur st.game)).1).best ≤ hi := by
        simp only [maxStep]; split_ifs <;> omega
      have hl : lo ≤ (maxStep st (child st.alpha st.beta (makeMove i j cur st.game)).1).best := by
        simp only [maxStep]; split_ifs <;> omega
      exact ⟨(ih _ hb).1, fun _ => (ih _ hb).2 (Or.inl hl)⟩
    · rw [if_neg hv]
      refine ⟨(ih st h).1, ?_⟩
      rintro (h' | ⟨j', hj', hv'⟩)
      · exact (ih st h).2 (Or.inl h')
      · rcases List.mem_cons.1 hj' with rfl | hmem
        · exact absurd hv' hv
        · exact (ih st h).2 (Or.inr ⟨j', hmem, hv'⟩)

theorem maxRows_bounds (child : Int → Int → Game → Int × Game) (cur lo hi : Int)
    (hchild : ∀ a b g, lo ≤ (child a b g).1 ∧ (child a b g).1 ≤ hi) (is : List Int) :
    ∀ st : SearchState, st.best ≤ hi →
      (maxRows false child cur is st).best ≤ hi ∧
      ((lo ≤ st.best ∨ ∃ i ∈ is, ∃ j ∈ indices, isValidMove st.game.board i j cur = true) →
        lo ≤ (maxRows false child cur is st).best) := by
  induction is with
  | nil =>
    intro st h
    refine ⟨h, ?_⟩
    rintro (h' | ⟨i, hi', _⟩)
    · exact h'
    · simp at hi'
  | cons i is ih =>
    intro st h
    rw [maxRows_cons]
    simp only [Bool.false_and, Bool.false_eq_true, ↓reduceIte]
    obtain ⟨r1, r2⟩ := maxCols_bounds child cur i lo hi hchild indices st h
    have hg := (maxCols_game false child cur i indices st).1
    refine ⟨(ih _ r1).1, ?_⟩
    rintro (h' | ⟨i', hi', j, hj, hv⟩)
    · exact (ih _ r1).2 (Or.inl (r2 (Or.inl h')))
    · rcases List.mem_cons.1 hi' with rfl | hmem
      · exact (ih _ r1).2 (Or.inl (r2 (Or.inr ⟨j, hj, hv⟩)))
      · exact (ih _ r1).2 (Or.inr ⟨i', hmem, j, hj, by rw [hg]; exact hv⟩)

theorem minCols_bounds (child : Int → Int → Game → Int × Game) (cur i lo hi : Int)
    (hchild : ∀ a b g, lo ≤ (child a b g).1 ∧ (child a b g).1 ≤ hi) (js : List Int) :
    ∀ st : SearchState, lo ≤ st.best →
      lo ≤ (minCols false child cur i js st).best ∧
      ((st.best ≤ hi ∨ ∃ j ∈ js, isValidMove st.game.board i j cur = true) →
        (minCols false child cur i js st).best ≤ hi) := by
  induction js with
  | nil =>
    intro st h
    refine ⟨h, ?_⟩
    rintro (h' | ⟨j, hj, _⟩)
    · exact h'
    · simp at hj
  | cons j js ih =>
    intro st h
    rw [minCols_cons]
    by_cases hv : isValidMove st.game.board i j cur = true
    · rw [if_pos hv]
      simp only [Bool.false_and, Bool.false_eq_true, ↓reduceIte]
      obtain ⟨c1, c2⟩ := hchild st.alpha st.beta (makeMove i j cur st.game)
      have hb : lo ≤ (minStep st (child st.alpha st.beta (makeMove i j cur st.game)).1).best := by
        simp only [minStep]; split_ifs <;> omega
      have hl : (minStep st (child st.alpha st.beta (makeMove i j cur st.game)).1).best ≤ hi := by
        simp only [minStep]; split_ifs <;> omega
      exact ⟨(ih _ hb).1, fun _ => (ih _ hb).2 (Or.inl hl)⟩
    · rw [if_neg hv]
      refine ⟨(ih st h).1, ?_⟩
      rintro (h' | ⟨j', hj', hv'⟩)
      · exact (ih st h).2 (Or.inl h')
      · rcases List.mem_cons.1 hj' with rfl | hmem
        · exact absurd hv' hv
        · exact (ih st h).2 (Or.inr ⟨j', hmem, hv'⟩)

theorem minRows_bounds (child : Int → Int → Game → Int × Game) (cur lo hi : Int)
    (hchild : ∀ a b g, lo ≤ (child a b g).1 ∧ (child a b g).1 ≤ hi) (is : List Int) :
    ∀ st : SearchState, lo ≤ st.best →
      lo ≤ (minRows false child cur is st).best ∧
      ((st.best ≤ hi ∨ ∃ i ∈ is, ∃ j ∈ indices, isValidMove st.game.board i j cur = true) →
        (minRows false child cur is st).best ≤ hi) := by
  induction is with
  | nil =>
    intro st h
    refine ⟨h, ?_⟩
    rintro (h' | ⟨i, hi', _⟩)
    · exact h'
    · simp at hi'
  | cons i is ih =>
    intro st h
    rw [minRows_cons]
    simp only [Bool.false_and, Bool.false_eq_true, ↓reduceIte]
    obtain ⟨r1, r2⟩ := minCols_bounds child cur i lo hi hchild indices st h
    have hg := (minCols_game false child cur i indices st).1
    refine ⟨(ih _ r1).1, ?_⟩
    rintro (h' | ⟨i', hi', j, hj, hv⟩)
    · exact (ih _ r1).2 (Or.inl (r2 (Or.inl h')))
    · rcases List.mem_cons.1 hi' with rfl | hmem
      · exact (ih _ r1).2 (Or.inl (r2 (Or.inr ⟨j, hj, hv⟩)))
      · exact (ih _ r1).2 (Or.inr ⟨i', hmem, j, hj, by rw [hg]; exact hv⟩)

/-- Without cut-offs every value of the search lies in the range of the evaluation. -/
theorem minimaxAux_plain_bounds (ev : Board → Int → Int) (player lo hi : Int)
    (hev : ∀ b p, lo ≤ ev b p ∧ ev b p ≤ hi) (hlo : lo ≤ 100000) (hhi : -100000 ≤ hi)
    (fuel : Nat) :
    ∀ (depth : Int) (isMaximizing : Bool) (a b : Int) (g : Game),
      lo ≤ (minimaxAux false ev player fuel depth isMaximizing a b g).1 ∧
      (minimaxAux false ev player fuel depth isMaximizing a b g).1 ≤ hi := by
  induction fuel with
  | zero => intro depth isMaximizing a b g; exact hev _ _
  | succ fuel ih =>
    intro depth isMaximizing a b g
    cases isMaximizing
    · rw [minimaxAux_succ_min]
      split_ifs with h1 h3
      · exact hev _ _
      · exact hev _ _
      · have hmoves : ∃ i ∈ indices, ∃ j ∈ indices,
            isValidMove g.board i j (opponentOf player) = true := by
          rw [← hasValidMoves_eq_true_iff]; simpa using h3
        obtain ⟨r1, r2⟩ := minRows_bounds
          (fun a b g' => minimaxAux false ev player fuel (depth - 1) true a b g')
          (opponentOf player) lo hi (fun a b g' => ih _ _ a b g') indices
          { game := g, best := 100000, alpha := a, beta := b } hlo
        exact ⟨r1, r2 (Or.inr hmoves)⟩
    · rw [minimaxAux_succ_max]
      split_ifs with h1 h2 h3
      · exact hev _ _
      · exact hev _ _
      · exact ih _ _ _ _ _
      · have hmoves : ∃ i ∈ indices, ∃ j ∈ indices, isValidMove g.board i j player = true := by
          rw [← hasValidMoves_eq_true_iff]; simpa using h2
        obtain ⟨r1, r2⟩ := maxRows_bounds
          (fun a b g' => minimaxAux false ev player fuel (depth - 1) false a b g')
          player lo hi (fun a b g' => ih _ _ a b g') indices
          { game := g, best := -100000, alpha := a, beta := b } hhi
        exact ⟨r2 (Or.inr hmoves), r1⟩

/-- With the full window `(-100000, 100000)` the cut-offs do not change the value. -/
theorem minimaxWith_full_window (ev : Board → Int → Int) (lo hi : Int)
    (hev : ∀ b p, lo ≤ ev b p ∧ ev b p ≤ hi) (hlo : -100000 < lo) (hhi : hi < 100000)
    (depth : Int) (isMaximizing : Bool) (player : Int) (g : Game) :
    (minimaxWith true ev depth isMaximizing player (-100000) 100000 g).1 =
      (minimaxWith false ev depth isMaximizing player (-100000) 100000 g).1 := by
  unfold minimaxWith
  have hne := hev g.board player
  obtain ⟨b1, b2⟩ := minimaxAux_plain_bounds ev player lo hi hev (by omega) (by omega)
    searchFuel depth isMaximizing (-100000) 100000 g
  exact (minimaxAux_threeWay ev player searchFuel depth isMaximizing (-100000) 100000
    (-100000) 100000 g (by decide)).2.2 (by omega) (by omega)

/-! ## The loops of `getAIMove` -/

theorem aiRows_cons (score : Game → Int × Game) (player i : Int) (is : List Int)
    (st : AIState) :
    aiRows score player (i :: is) st =
      aiRows score player is (aiCols score player i indices st) := rfl

theorem aiCols_congr (score score' : Game → Int × Game) (player i : Int)
    (h : ∀ g, (score g).1 = (score' g).1) (js : List Int) :
    ∀ st : AIState, aiCols score player i js st = aiCols score' player i js st := by
  induction js with
  | nil => intro st; rfl
  | cons j js ih =>
    intro st
    rw [aiCols_cons, aiCols_cons, h, ih, ih]

theorem aiRows_congr (score score' : Game → Int × Game) (player : Int)
    (h : ∀ g, (score g).1 = (score' g).1) (is : List Int) :
    ∀ st : AIState, aiRows score player is st = aiRows score' player is st := by
  induction is with
  | nil => intro st; rfl
  | cons i is ih =>
    intro st
    rw [aiRows_cons, aiRows_cons, aiCols_congr score score' player i h, ih]

/-- `getAIMove` depends on the scoring call only through the scores. -/
theorem getAIMoveBy_congr (score score' : Game → Int × Game) (player : Int)
    (h : ∀ g, (score g).1 = (score' g).1) (g : Game) :
    getAIMoveBy score player g = getAIMoveBy score' player g := by
  unfold getAIMoveBy
  rw [aiRows_congr score score' player h]

theorem aiCols_none (score : Game → Int × Game) (player i : Int) (js : List Int) :
    ∀ st : AIState, (∀ j ∈ js, isValidMove st.game.board i j player = false) →
      aiCols score player i js st = st := by
  induction js with
  | nil => intro st _; rfl
  | cons j js ih =>
    intro st h
    rw [aiCols_cons, if_neg (by rw [h j (by simp)]; simp)]
    exact ih st (fun j' hj' => h j' (by simp [hj']))

theorem aiCols_mono (score : Game → Int × Game) (player i : Int) (js : List Int) :
    ∀ st : AIState, st.bestScore ≤ (aiCols score player i js st).bestScore := by
  induction js with
  | nil => intro st; exact le_refl _
  | cons j js ih =>
    intro st
    rw [aiCols_cons]
    split_ifs with h1 h2
    · exact le_trans (le_of_lt h2) (ih _)
    · exact ih _
    · exact ih _

theorem aiCols_set (score : Game → Int × Game) (player i : Int) (g : Game) (js : List Int) :
    ∀ st : AIState, st.game = g → AISet score player g st →
      AISet score player g (aiCols score player i js st) := by
  induction js with
  | nil => intro st _ h; exact h
  | cons j js ih =>
    intro st hg h
    rw [aiCols_cons]
    split_ifs with h1 h2
    · exact ih _ hg ⟨by rw [← hg]; exact h1, by rw [← hg]⟩
    · exact ih _ hg h
    · exact ih _ hg h

theorem aiCols_valid (score : Game → Int × Game) (player i : Int) (g : Game)
    (hpos : ∀ g', -100000 < (score g').1) (js : List Int) :
    ∀ st : AIState, st.game = g → (AIUnset st ∨ AISet score player g st) →
      ∀ j ∈ js, isValidMove g.board i j player = true →
        AISet score player g (aiCols score player i js st) ∧
        (score (makeMove i j player g)).1 ≤ (aiCols score player i js st).bestScore := by
  induction js with
  | nil => intro st _ _ j hj; simp at hj
  | cons j0 js ih =>
    intro st hg hst j hj hv
    subst hg
    rw [aiCols_cons]
    by_cases h1 : isValidMove st.game.board i j0 player = true
    · rw [if_pos h1]
      by_cases h2 : (score (makeMove i j0 player st.game)).1 > st.bestScore
      · rw [if_pos h2]
        have hset : AISet score player st.game
            { game := st.game, bestScore := (score (makeMove i j0 player st.game)).1,
              bestRow := i, bestCol := j0 } := ⟨h1, rfl⟩
        rcases List.mem_cons.1 hj with rfl | hmem
        · exact ⟨aiCols_set score player i st.game js _ rfl hset,
            aiCols_mono score player i js
              { game := st.game, bestScore := (score (makeMove i j player st.game)).1,
                bestRow := i, bestCol := j }⟩
        · exact ih ⟨st.game, (score (makeMove i j0 player st.game)).1, i, j0⟩ rfl
            (Or.inr hset) j hmem hv
      · rw [if_neg h2]
        have hset : AISet score player st.game st := by
          rcases hst with hu | hs
          · have := hpos (makeMove i j0 player st.game)
            rw [hu.1] at h2
            omega
          · exact hs
        rcases List.mem_cons.1 hj with rfl | hmem
        · refine ⟨aiCols_set score player i st.game js _ rfl hset, ?_⟩
          have := aiCols_mono score player i js st
          omega
        · exact ih st rfl (Or.inr hset) j hmem hv
    · rw [if_neg h1]
      rcases List.mem_cons.1 hj with rfl | hmem
      · exact absurd hv h1
      · exact ih st rfl hst j hmem hv

theorem aiRows_none (score : Game → Int × Game) (player : Int) (is : List Int) :
    ∀ st : AIState,
      (∀ i ∈ is, ∀ j ∈ indices, isValidMove st.game.board i j player = false) →
      aiRows score player is st = st := by
  induction is with
  | nil => intro st _; rfl
  | cons i is ih =>
    intro st h
    rw [aiRows_cons, aiCols_none score player i indices st (h i (by simp))]
    exact ih st (fun i' hi' => h i' (by simp [hi']))

theorem aiRows_mono (score : Game → Int × Game) (player : Int) (is : List Int) :
    ∀ st : AIState, st.bestScore ≤ (aiRows score player is st).bestScore := by
  induction is with
  | nil => intro st; exact le_refl _
  | cons i is ih =>
    intro st
    rw [aiRows_cons]
    exact le_trans (aiCols_mono score player i indices st) (ih _)

theorem aiRows_set (score : Game → Int × Game) (player : Int) (g : Game) (is : List Int) :
    ∀ st : AIState, st.game = g → AISet score player g st →
      AISet score player g (aiRows score player is st) := by
  induction is with
  | nil => intro st _ h; exact h
  | cons i is ih =>
    intro st hg h
    rw [aiRows_cons]
    exact ih _ ((aiCols_game score player i indices st).trans hg)
      (aiCols_set score player i g indices st hg h)

theorem aiRows_valid (score : Game → Int × Game) (player : Int) (g : Game)
    (hpos : ∀ g', -100000 < (score g').1) (is : List Int) :
    ∀ st : AIState, st.game = g → (AIUnset st ∨ AISet score player g st) →
      ∀ i ∈ is, ∀ j ∈ indices, isValidMove g.board i j player = true →
        AISet score player g (aiRows score player is st) ∧
        (score (makeMove i j player g)).1 ≤ (aiRows score player is st).bestScore := by
  induction is with
  | nil => intro st _ _ i hi; simp at hi
  | cons i0 is ih =>
    intro st hg hst i hi j hj hv
    rw [aiRows_cons]
    have hg' := (aiCols_game score player i0 indices st).trans hg
    rcases List.mem_cons.1 hi with rfl | hmem
    · obtain ⟨hs, hle⟩ := aiCols_valid score player i g hpos indices st hg hst j hj hv
      exact ⟨aiRows_set score player g is _ hg' hs,
        le_trans hle (aiRows_mono score player is _)⟩
    · have hst' : AIUnset (aiCols score player i0 indices st) ∨
          AISet score player g (aiCols score player i0 indices st) := by
        by_cases hex : ∃ j' ∈ indices, isValidMove g.board i0 j' player = true
        · obtain ⟨j', hj', hv'⟩ := hex
          exact Or.inr (aiCols_valid score player i0 g hpos indices st hg hst j' hj' hv').1
        · push_neg at hex
          rw [aiCols_none score player i0 indices st
            (fun j' hj' => by rw [hg]; simpa using hex j' hj')]
          exact hst
      exact ih _ hg' hst' i hmem j hj hv

/-- What `getAIMove` returns, for a scoring call whose scores exceed `-100000`: `(-1, -1)`
when `player` has no legal move, and otherwise a legal move whose score is the greatest
among the legal moves. -/
theorem getAIMoveBy_spec (score : Game → Int × Game) (player : Int) (g : Game)
    (hpos : ∀ g', -100000 < (score g').1) :
    (hasValidMoves g.board player = false → (getAIMoveBy score player g).1 = (-1, -1)) ∧
    (hasValidMoves g.board player = true →
      isValidMove g.board (getAIMoveBy score player g).1.1 (getAIMoveBy score player g).1.2
        player = true ∧
      ∀ i j : Int, isValidMove g.board i j player = true →
        (score (makeMove i j player g)).1 ≤
          (score (makeMove (getAIMoveBy score player g).1.1 (getAIMoveBy score player g).1.2
            player g)).1) := by
  have hinit : AIUnset { game := g, bestScore := -100000, bestRow := -1, bestCol := -1 } :=
    ⟨rfl, rfl, rfl⟩
  constructor
  · intro h
    have hnone : ∀ i ∈ indices, ∀ j ∈ indices, isValidMove g.board i j player = false := by
      intro i hi j hj
      by_contra hc
      have : hasValidMoves g.board player = true :=
        (hasValidMoves_eq_true_iff _ _).2 ⟨i, hi, j, hj, by simpa using hc⟩
      rw [h] at this; cases this
    unfold getAIMoveBy
    rw [aiRows_none score player indices _ hnone]
  · intro h
    obtain ⟨i0, hi0, j0, hj0, hv0⟩ := (hasValidMoves_eq_true_iff _ _).1 h
    have key := aiRows_valid score player g hpos indices
      { game := g, bestScore := -100000, bestRow := -1, bestCol := -1 } rfl (Or.inl hinit)
    obtain ⟨hset, _⟩ := key i0 hi0 j0 hj0 hv0
    refine ⟨hset.1, ?_⟩
    intro i j hv
    obtain ⟨hin, _, _⟩ := exists_checkDirection_of_isValidMove _ _ _ _ hv
    rw [isInBounds_iff] at hin
    have := (key i ((mem_indices i).2 ⟨hin.1, hin.2.1⟩) j
      ((mem_indices j).2 ⟨hin.2.2.1, hin.2.2.2⟩) hv).2
    rw [hset.2] at this
    exact this

/-! ## The choice of `getAIMove` -/

theorem minimax_eq_plain (depth : Int) (isMaximizing : Bool) (player : Int) (g : Game) :
    (minimax depth isMaximizing player (-100000) 100000 g).1 =
      (plainMinimax depth isMaximizing player (-100000) 100000 g).1 :=
  minimaxWith_full_window evaluateBoard (-164) 204 evaluateBoard_range (by decide) (by decide)
    depth isMaximizing player g

theorem minimaxGUI_eq_plain (depth : Int) (isMaximizing : Bool) (player : Int) (g : Game) :
    (minimaxGUI depth isMaximizing player (-100000) 100000 g).1 =
      (plainMinimaxGUI depth isMaximizing player (-100000) 100000 g).1 :=
  minimaxWith_full_window evaluateBoardGUI (-164) 164 evaluateBoardGUI_range (by decide)
    (by decide) depth isMaximizing player g

theorem plainMinimax_pos (depth : Int) (isMaximizing : Bool) (player a b : Int) (g : Game) :
    -100000 < (plainMinimax depth isMaximizing player a b g).1 := by
  have := (minimaxAux_plain_bounds evaluateBoard player (-164) 204 evaluateBoard_range
    (by decide) (by decide) searchFuel depth isMaximizing a b g).1
  unfold plainMinimax minimaxWith
  omega

theorem plainMinimaxGUI_pos (depth : Int) (isMaximizing : Bool) (player a b : Int) (g : Game) :
    -100000 < (plainMinimaxGUI depth isMaximizing player a b g).1 := by
  have := (minimaxAux_plain_bounds evaluateBoardGUI player (-164) 164 evaluateBoardGUI_range
    (by decide) (by decide) searchFuel depth isMaximizing a b g).1
  unfold plainMinimaxGUI minimaxWith
  omega

theorem getAIMove_eq_plainGetAIMove (side : Int) (g : Game) :
    getAIMove side g = plainGetAIMove side g :=
  getAIMoveBy_congr _ _ side (fun g' => minimax_eq_plain _ _ _ g') g

theorem getAIMoveGUI_eq_plainGetAIMoveGUI (side : Int) (g : Game) :
    getAIMoveGUI side g = plainGetAIMoveGUI side g :=
  getAIMoveBy_congr _ _ side (fun g' => minimaxGUI_eq_plain _ _ _ g') g

theorem isValidMove_neg_one (b : Board) (side : Int) : isValidMove b (-1) (-1) side = false := by
  simp [isValidMove, isInBounds]

/-- Claim C4.  For a side that has a legal move, in both files: the move returned by
`getAIMove`, which scores each candidate with alpha-beta `minimax` at depth
`MAX_DEPTH - 1`, is the move the same search returns when it scores candidates with the
recursion without cut-offs; it is a legal move, and its score without cut-offs is the
greatest score without cut-offs among all legal moves of that side.  The cell values and
`moveCount` are arbitrary. -/
theorem getAIMove_matches_plain (side : Int) (g : Game)
    (h : hasValidMoves g.board side = true) :
    ((getAIMove side g).1 = (plainGetAIMove side g).1 ∧
      isValidMove g.board (getAIMove side g).1.1 (getAIMove side g).1.2 side = true ∧
      ∀ i j : Int, isValidMove g.board i j side = true →
        (plainMinimax (MAX_DEPTH - 1) false side (-100000) 100000 (makeMove i j side g)).1 ≤
          (plainMinimax (MAX_DEPTH - 1) false side (-100000) 100000
            (makeMove (getAIMove side g).1.1 (getAIMove side g).1.2 side g)).1) ∧
    ((getAIMoveGUI side g).1 = (plainGetAIMoveGUI side g).1 ∧
      isValidMove g.board (getAIMoveGUI side g).1.1 (getAIMoveGUI side g).1.2 side = true ∧
      ∀ i j : Int, isValidMove g.board i j side = true →
        (plainMinimaxGUI (MAX_DEPTH - 1) false side (-100000) 100000 (makeMove i j side g)).1 ≤
          (plainMinimaxGUI (MAX_DEPTH - 1) false side (-100000) 100000
            (makeMove (getAIMoveGUI side g).1.1 (getAIMoveGUI side g).1.2 side g)).1) := by
  constructor
  · rw [getAIMove_eq_plainGetAIMove]
    exact ⟨rfl, (getAIMoveBy_spec _ side g (fun g' => plainMinimax_pos _ _ _ _ _ g')).2 h⟩
  · rw [getAIMoveGUI_eq_plainGetAIMoveGUI]
    exact ⟨rfl, (getAIMoveBy_spec _ side g (fun g' => plainMinimaxGUI_pos _ _ _ _ _ g')).2 h⟩

/-- Claim C4, instance: Black to move on the start board. -/
theorem getAIMove_matches_plain_witness :
    hasValidMoves initBoard.board BLACK = true ∧
    (getAIMove BLACK initBoard).1 = (plainGetAIMove BLACK initBoard).1 ∧
    (getAIMoveGUI BLACK initBoard).1 = (plainGetAIMoveGUI BLACK initBoard).1 :=
  have h := getAIMove_matches_plain BLACK initBoard (by decide)
  ⟨by decide, h.1.1, h.2.1⟩

/-- Claim C5.  In both files: if the side has a legal move, `getAIMove` returns a `(row, col)`
for which `isValidMove` is true on that board, in particular not `(-1, -1)`; if the side
has none, `getAIMove` returns `(-1, -1)`.  The cell values and `moveCount` are arbitrary. -/
theorem getAIMove_legal_or_none (side : Int) (g : Game) :
    (hasValidMoves g.board side = true →
      (isValidMove g.board (getAIMove side g).1.1 (getAIMove side g).1.2 side = true ∧
        (getAIMove side g).1 ≠ (-1, -1)) ∧
      (isValidMove g.board (getAIMoveGUI side g).1.1 (getAIMoveGUI side g).1.2 side = true ∧
        (getAIMoveGUI side g).1 ≠ (-1, -1))) ∧
    (hasValidMoves g.board side = false →
      (getAIMove side g).1 = (-1, -1) ∧ (getAIMoveGUI side g).1 = (-1, -1)) := by
  have hne : ∀ p : Int × Int, isValidMove g.board p.1 p.2 side = true → p ≠ (-1, -1) := by
    rintro p hp rfl
    rw [isValidMove_neg_one] at hp
    cases hp
  constructor
  · intro h
    have h1 : isValidMove g.board (getAIMove side g).1.1 (getAIMove side g).1.2 side = true := by
      rw [getAIMove_eq_plainGetAIMove]
      exact ((getAIMoveBy_spec _ side g (fun g' => plainMinimax_pos _ _ _ _ _ g')).2 h).1
    have h2 : isValidMove g.board (getAIMoveGUI side g).1.1 (getAIMoveGUI side g).1.2 side
        = true := by
      rw [getAIMoveGUI_eq_plainGetAIMoveGUI]
      exact ((getAIMoveBy_spec _ side g (fun g' => plainMinimaxGUI_pos _ _ _ _ _ g')).2 h).1
    exact ⟨⟨h1, hne _ h1⟩, ⟨h2, hne _ h2⟩⟩
  · intro h
    constructor
    · rw [getAIMove_eq_plainGetAIMove]
      exact (getAIMoveBy_spec _ side g (fun g' => plainMinimax_pos _ _ _ _ _ g')).1 h
    · rw [getAIMoveGUI_eq_plainGetAIMoveGUI]
      exact (getAIMoveBy_spec _ side g (fun g' => plainMinimaxGUI_pos _ _ _ _ _ g')).1 h

/-- Claim C5, instances: Black on the start board gets a legal move; on an empty board
Black has no legal move and gets `(-1, -1)`. -/
theorem getAIMove_legal_or_none_witness :
    (hasValidMoves initBoard.board BLACK = true ∧
      isValidMove initBoard.board (getAIMove BLACK initBoard).1.1
        (getAIMove BLACK initBoard).1.2 BLACK = true) ∧
    (hasValidMoves emptyGame.board BLACK = false ∧ (getAIMove BLACK emptyGame).1 = (-1, -1)) :=
  ⟨⟨by decide, ((getAIMove_legal_or_none BLACK initBoard).1 (by decide)).1.1⟩,
    ⟨by decide, ((getAIMove_legal_or_none BLACK emptyGame).2 (by decide)).1⟩⟩

/-! ## The move counter -/

theorem countOccupied_eq (b : Board) (hb : ValidBoard b) :
    countOccupied b = countCells b BLACK + countCells b WHITE := by
  have := countP_pointwise allCells (fun p => decide (b p.1 p.2 ≠ EMPTY))
    (fun p => decide (b p.1 p.2 = BLACK)) (fun p => decide (b p.1 p.2 = WHITE))
    (fun _ => false) (by
      intro x hx
      have e1 : ¬ BLACK = EMPTY := by decide
      have e2 : ¬ WHITE = EMPTY := by decide
      have e3 : ¬ EMPTY = BLACK := by decide
      have e4 : ¬ EMPTY = WHITE := by decide
      have e5 : ¬ BLACK = WHITE := by decide
      have e6 : ¬ WHITE = BLACK := by decide
      rcases hb x.1 x.2 ((mem_allCells x).1 hx) with h | h | h <;>
        simp [h, e1, e2, e3, e4, e5, e6])
  simpa [countOccupied, countCells] using this

theorem countOccupied_eq_64 (b : Board) :
    countOccupied b = 64 ↔ ∀ r c : Int, isInBounds r c = true → b r c ≠ EMPTY := by
  unfold countOccupied
  rw [← allCells_length, List.countP_eq_length]
  constructor
  · intro h r c hin
    simpa using h (r, c) ((mem_allCells (r, c)).2 hin)
  · intro h p hp
    simpa using h p.1 p.2 ((mem_allCells p).1 hp)

/-- Every reachable state has cells in Empty, Black, White and a move counter that equals
the number of occupied cells. -/
theorem reachable_inv (g : Game) (h : Reachable g) :
    ValidBoard g.board ∧ g.moveCount = (countOccupied g.board : Int) := by
  induction h with
  | init => exact ⟨validBoard_initBoard, by decide⟩
  | move g row col side _ hv ih =>
    obtain ⟨hb, hc⟩ := ih
    have hs := validSide_of_isValidMove g.board row col side hb hv
    refine ⟨(makeMove_board g row col side hb hs).valid hb hs, ?_⟩
    rw [(makeMove_counts_aux g row col side hb hv).2.2.2]
    show g.moveCount + 1 = _
    rw [hc]; push_cast; rfl
  | search g depth isMaximizing player alpha beta _ ih =>
    have : (minimax depth isMaximizing player alpha beta g).2 = g :=
      minimaxAux_game _ _ _ _ _ _ _ _ _
    rw [this]; exact ih
  | searchGUI g depth isMaximizing player alpha beta _ ih =>
    have : (minimaxGUI depth isMaximizing player alpha beta g).2 = g :=
      minimaxAux_game _ _ _ _ _ _ _ _ _
    rw [this]; exact ih
  | ai g player _ ih =>
    have : (getAIMove player g).2 = g := getAIMoveBy_game _ _ _
    rw [this]; exact ih
  | aiGUI g player _ ih =>
    have : (getAIMoveGUI player g).2 = g := getAIMoveBy_game _ _ _
    rw [this]; exact ih

/-- Claim C7.  In every state reachable from `initBoard` by legal `makeMove` calls (and by
the calls of `minimax` and `getAIMove`, which undo their speculative moves), `moveCount`
is `blackCount + whiteCount` of `countPieces`, which is the number of non-Empty cells; so
`moveCount == 64` holds exactly when the board has no Empty cell. -/
theorem moveCount_eq_pieces (g : Game) (h : Reachable g) :
    g.moveCount = (countPieces g.board).1 + (countPieces g.board).2 ∧
    g.moveCount = (countOccupied g.board : Int) ∧
    (g.moveCount = 64 ↔ ∀ r c : Int, isInBounds r c = true → g.board r c ≠ EMPTY) := by
  obtain ⟨hb, hc⟩ := reachable_inv g h
  refine ⟨?_, hc, ?_⟩
  · rw [hc, countPieces_eq, countOccupied_eq g.board hb]; push_cast; rfl
  · rw [← countOccupied_eq_64, hc]; norm_cast

/-- Claim C7, instance: the state after Black's opening move (2,3). -/
theorem moveCount_eq_pieces_witness :
    Reachable (makeMove 2 3 BLACK initBoard) ∧
    (makeMove 2 3 BLACK initBoard).moveCount =
      (countOccupied (makeMove 2 3 BLACK initBoard).board : Int) :=
  have hr : Reachable (makeMove 2 3 BLACK initBoard) :=
    Reachable.move initBoard 2 3 BLACK Reachable.init (by decide)
  ⟨hr, (moveCount_eq_pieces _ hr).2.1⟩

/-! ## `countPieces` -/

theorem countOccupied_add_emptyCount (b : Board) : countOccupied b + emptyCount b = 64 := by
  have := countP_pointwise allCells (fun _ => true)
    (fun p => decide (b p.1 p.2 ≠ EMPTY)) (fun p => decide (b p.1 p.2 = EMPTY))
    (fun _ => false) (by
      intro x _
      by_cases h : b x.1 x.2 = EMPTY <;> simp [h])
  have ht : allCells.countP (fun _ => true) = 64 := by decide
  have hf : allCells.countP (fun _ => false) = 0 := by simp
  rw [ht, hf] at this
  unfold countOccupied emptyCount
  omega

/-- Claim C11.  On a board of Empty, Black and White cells `countPieces` returns
`blackCount` = number of Black cells and `whiteCount` = number of White cells, so
`blackCount + whiteCount` is the number of non-Empty cells and
`blackCount + whiteCount + (number of Empty cells) = 64`. -/
theorem countPieces_counts (b : Board) (hb : ValidBoard b) :
    (countPieces b).1 = (countCells b BLACK : Int) ∧
    (countPieces b).2 = (countCells b WHITE : Int) ∧
    (countPieces b).1 + (countPieces b).2 = (countOccupied b : Int) ∧
    (countPieces b).1 + (countPieces b).2 + (emptyCount b : Int) = 64 := by
  have h1 := countOccupied_eq b hb
  have h2 := countOccupied_add_emptyCount b
  rw [countPieces_eq]
  refine ⟨rfl, rfl, ?_, ?_⟩
  · simp only; omega
  · simp only; omega

/-- Claim C11, instance: the start board has 2 Black, 2 White and 60 Empty cells. -/
theorem countPieces_counts_witness :
    ValidBoard initBoard.board ∧
    (countPieces initBoard.board).1 + (countPieces initBoard.board).2 +
      (emptyCount initBoard.board : Int) = 64 :=
  ⟨validBoard_initBoard, (countPieces_counts initBoard.board validBoard_initBoard).2.2.2⟩

/-! ## `initBoard` -/

theorem clearRow_cell (i : Int) (js : List Int) :
    ∀ (b : Board) (r c : Int),
      js.foldl (fun b j => setCell b i j EMPTY) b r c =
        if r = i ∧ c ∈ js then EMPTY else b r c := by
  induction js with
  | nil => intro b r c; simp
  | cons j js ih =>
    intro b r c
    rw [List.foldl_cons, ih]
    by_cases h1 : r = i ∧ c ∈ js
    · have : r = i ∧ c ∈ j :: js := ⟨h1.1, List.mem_cons_of_mem _ h1.2⟩
      rw [if_pos h1, if_pos this]
    · rw [if_neg h1]
      unfold setCell
      by_cases h2 : r = i ∧ c = j
      · rw [if_pos h2, if_pos ⟨h2.1, by rw [h2.2]; exact List.mem_cons_self _ _⟩]
      · rw [if_neg h2, if_neg]
        rintro ⟨e1, e2⟩
        rcases List.mem_cons.1 e2 with e3 | e3
        · exact h2 ⟨e1, e3⟩
        · exact h1 ⟨e1, e3⟩

theorem clearRows_cell (is : List Int) :
    ∀ (b : Board) (r c : Int),
      is.foldl (fun b i => indices.foldl (fun b j => setCell b i j EMPTY) b) b r c =
        if r ∈ is ∧ c ∈ indices then EMPTY else b r c := by
  induction is with
  | nil => intro b r c; simp
  | cons i is ih =>
    intro b r c
    rw [List.foldl_cons, ih, clearRow_cell]
    by_cases h1 : r ∈ is ∧ c ∈ indices
    · rw [if_pos h1, if_pos ⟨List.mem_cons_of_mem _ h1.1, h1.2⟩]
    · rw [if_neg h1]
      by_cases h2 : r = i ∧ c ∈ indices
      · rw [if_pos h2, if_pos ⟨by rw [h2.1]; exact List.mem_cons_self _ _, h2.2⟩]
      · rw [if_neg h2, if_neg]
        rintro ⟨e1, e2⟩
        rcases List.mem_cons.1 e1 with e3 | e3
        · exact h2 ⟨e3, e2⟩
        · exact h1 ⟨e3, e2⟩

/-- The loops of `initBoard` leave every cell of the board Empty. -/
theorem clearBoard_cell (b : Board) (r c : Int) (hin : isInBounds r c = true) :
    clearBoard b r c = EMPTY := by
  rw [isInBounds_iff] at hin
  unfold clearBoard
  rw [clearRows_cell, if_pos ⟨(mem_indices r).2 ⟨hin.1, hin.2.1⟩,
    (mem_indices c).2 ⟨hin.2.2.1, hin.2.2.2⟩⟩]

/-- Claim C12.  Whatever the board and `moveCount` were before, after `initBoard` the
cells (3,3) and (4,4) are White, (3,4) and (4,3) are Black, the other 60 cells are Empty
and `moveCount` is 4; the graphical `initBoard` does the same and also sets the side to
move to Black and `gameOver` to false. -/
theorem initBoard_result (g : Game) (s : GuiState) :
    (initBoardOn g).board 3 3 = WHITE ∧ (initBoardOn g).board 4 4 = WHITE ∧
    (initBoardOn g).board 3 4 = BLACK ∧ (initBoardOn g).board 4 3 = BLACK ∧
    (∀ r c : Int, isInBounds r c = true →
      ¬ (r = 3 ∧ c = 3) → ¬ (r = 4 ∧ c = 4) → ¬ (r = 3 ∧ c = 4) → ¬ (r = 4 ∧ c = 3) →
      (initBoardOn g).board r c = EMPTY) ∧
    (initBoardOn g).moveCount = 4 ∧
    (∀ r c : Int, isInBounds r c = true → (initBoardOn g).board r c = initBoard.board r c) ∧
    (initBoardGUI s).game = initBoardOn s.game ∧
    (initBoardGUI s).currentPlayer = BLACK ∧ (initBoardGUI s).gameOver = false := by
  have hcell : ∀ r c : Int, isInBounds r c = true →
      (initBoardOn g).board r c = initBoard.board r c := by
    intro r c hin
    simp only [initBoardOn, initBoard, setCell, clearBoard_cell g.board r c hin]
  refine ⟨?_, ?_, ?_, ?_, ?_, rfl, hcell, rfl, rfl, rfl⟩
  · rw [hcell 3 3 (by decide)]; decide
  · rw [hcell 4 4 (by decide)]; decide
  · rw [hcell 3 4 (by decide)]; decide
  · rw [hcell 4 3 (by decide)]; decide
  · intro r c hin h1 h2 h3 h4
    rw [hcell r c hin]
    simp only [initBoard, setCell, h1, h2, h3, h4, ↓reduceIte]

/-- Claim C12, instance: `initBoard` run on a position of a game in progress empties the
cell (0,2), which held a White piece. -/
theorem initBoard_result_witness :
    blackStuckGame.board 0 2 = WHITE ∧ isInBounds 0 2 = true ∧
    (initBoardOn blackStuckGame).board 0 2 = EMPTY ∧
    (initBoardOn blackStuckGame).moveCount = 4 :=
  have h := initBoard_result blackStuckGame (guiBlackToMove blackStuckGame)
  ⟨by decide, by decide,
    h.2.2.2.2.1 0 2 (by decide) (by decide) (by decide) (by decide) (by decide), h.2.2.2.2.2.1⟩


/-! ## `getAIMove` keeps the first best move -/

theorem aiCols_eq_foldl (score : Game → Int × Game) (player i : Int) (js : List Int) :
    ∀ st : AIState, aiCols score player i js st =
      (js.map (fun j => (i, j))).foldl (aiBody score player) st := by
  induction js with
  | nil => intro st; rfl
  | cons j js ih =>
    intro st
    rw [aiCols_cons, List.map_cons, List.foldl_cons]
    unfold aiBody
    split_ifs <;> exact ih _

theorem aiRows_eq_foldl (score : Game → Int × Game) (player : Int) (is : List Int) :
    ∀ st : AIState, aiRows score player is st =
      (is.flatMap (fun i => indices.map (fun j => (i, j)))).foldl (aiBody score player) st := by
  induction is with
  | nil => intro st; rfl
  | cons i is ih =>
    intro st
    rw [aiRows_cons, List.flatMap_cons, List.foldl_append, ih, aiCols_eq_foldl]

theorem aiBody_game (score : Game → Int × Game) (player : Int) (st : AIState) (p : Int × Int) :
    (aiBody score player st p).game = st.game := by
  unfold aiBody; split_ifs <;> rfl

theorem aiFirst_step (score : Game → Int × Game) (player : Int) (g : Game)
    (hpos : ∀ g', -100000 < (score g').1) (seen : List (Int × Int)) (st : AIState)
    (hg : st.game = g) (h : AIFirst score player g seen st) (p : Int × Int) :
    AIFirst score player g (seen ++ [p]) (aiBody score player st p) := by
  subst hg
  unfold aiBody
  by_cases hv : isValidMove st.game.board p.1 p.2 player = true
  · rw [if_pos hv]
    by_cases hs : (score (makeMove p.1 p.2 player st.game)).1 > st.bestScore
    · rw [if_pos hs]
      right
      refine ⟨⟨hv, rfl⟩, seen, [], rfl, ?_, by simp⟩
      intro q hq hqv
      show (score (makeMove q.1 q.2 player st.game)).1 < (score (makeMove p.1 p.2 player st.game)).1
      rcases h with ⟨_, hnone⟩ | ⟨hset, pre, post, hseen, hpre, hpost⟩
      · rw [hnone q hq] at hqv; cases hqv
      · rw [hseen] at hq
        rcases List.mem_append.1 hq with h1 | h1
        · exact lt_trans (hpre q h1 hqv) hs
        · rcases List.mem_cons.1 h1 with rfl | h2
          · rw [← hset.2]; exact hs
          · exact lt_of_le_of_lt (hpost q h2 hqv) hs
    · rw [if_neg hs]
      rcases h with ⟨hu, _⟩ | ⟨hset, pre, post, hseen, hpre, hpost⟩
      · have := hpos (makeMove p.1 p.2 player st.game)
        rw [hu.1] at hs
        omega
      · right
        refine ⟨hset, pre, post ++ [p], by rw [hseen]; simp, hpre, ?_⟩
        intro q hq hqv
        rcases List.mem_append.1 hq with h1 | h1
        · exact hpost q h1 hqv
        · obtain rfl : q = p := by simpa using h1
          omega
  · rw [if_neg hv]
    rcases h with ⟨hu, hnone⟩ | ⟨hset, pre, post, hseen, hpre, hpost⟩
    · left
      refine ⟨hu, ?_⟩
      intro q hq
      rcases List.mem_append.1 hq with h1 | h1
      · exact hnone q h1
      · obtain rfl : q = p := by simpa using h1
        simpa using hv
    · right
      refine ⟨hset, pre, post ++ [p], by rw [hseen]; simp, hpre, ?_⟩
      intro q hq hqv
      rcases List.mem_append.1 hq with h1 | h1
      · exact hpost q h1 hqv
      · obtain rfl : q = p := by simpa using h1
        exact absurd hqv hv

theorem aiFirst_foldl (score : Game → Int × Game) (player : Int) (g : Game)
    (hpos : ∀ g', -100000 < (score g').1) (rest : List (Int × Int)) :
    ∀ (seen : List (Int × Int)) (st : AIState), st.game = g →
      AIFirst score player g seen st →
      AIFirst score player g (seen ++ rest) (rest.foldl (aiBody score player) st) := by
  induction rest with
  | nil => intro seen st _ h; simpa using h
  | cons p rest ih =>
    intro seen st hg h
    rw [List.foldl_cons]
    have := ih (seen ++ [p]) _ ((aiBody_game score player st p).trans hg)
      (aiFirst_step score player g hpos seen st hg h p)
    simpa using this

theorem allCells_rowMajor : allCells.Pairwise RowMajorLt := by
  unfold RowMajorLt
  decide

/-- What `getAIMove` returns when a legal move exists, for a scoring call whose scores
exceed `-100000`: a legal move with the greatest score such that every legal move before
it in row-major order scores strictly less. -/
theorem getAIMoveBy_first (score : Game → Int × Game) (player : Int) (g : Game)
    (hpos : ∀ g', -100000 < (score g').1) (h : hasValidMoves g.board player = true) :
    isValidMove g.board (getAIMoveBy score player g).1.1 (getAIMoveBy score player g).1.2
      player = true ∧
    (∀ i j : Int, isValidMove g.board i j player = true →
      (score (makeMove i j player g)).1 ≤
        (score (makeMove (getAIMoveBy score player g).1.1 (getAIMoveBy score player g).1.2
          player g)).1) ∧
    (∀ i j : Int, isValidMove g.board i j player = true →
      RowMajorLt (i, j) (getAIMoveBy score player g).1 →
      (score (makeMove i j player g)).1 <
        (score (makeMove (getAIMoveBy score player g).1.1 (getAIMoveBy score player g).1.2
          player g)).1) := by
  have hspec := (getAIMoveBy_spec score player g hpos).2 h
  refine ⟨hspec.1, hspec.2, ?_⟩
  have hfold := aiFirst_foldl score player g hpos allCells []
    { game := g, bestScore := -100000, bestRow := -1, bestCol := -1 } rfl
    (Or.inl ⟨⟨rfl, rfl, rfl⟩, by simp⟩)
  have hres : aiRows score player indices
      { game := g, bestScore := -100000, bestRow := -1, bestCol := -1 } =
      allCells.foldl (aiBody score player)
        { game := g, bestScore := -100000, bestRow := -1, bestCol := -1 } :=
    aiRows_eq_foldl score player indices _
  simp only [List.nil_append] at hfold
  rw [← hres] at hfold
  intro i j hv hlt
  obtain ⟨hin, _, _⟩ := exists_checkDirection_of_isValidMove _ _ _ _ hv
  have hmem : (i, j) ∈ allCells := (mem_allCells (i, j)).2 hin
  rcases hfold with ⟨_, hnone⟩ | ⟨hset, pre, post, hseen, hpre, _⟩
  · rw [hnone (i, j) hmem] at hv; cases hv
  · have hpw := allCells_rowMajor
    rw [hseen] at hmem hpw
    rw [List.pairwise_append] at hpw
    obtain ⟨_, hpw2, _⟩ := hpw
    rw [List.pairwise_cons] at hpw2
    have hbest : (getAIMoveBy score player g).1 =
        ((aiRows score player indices
          { game := g, bestScore := -100000, bestRow := -1, bestCol := -1 }).bestRow,
         (aiRows score player indices
          { game := g, bestScore := -100000, bestRow := -1, bestCol := -1 }).bestCol) := rfl
    rw [hbest] at hlt
    have hscore := hset.2
    rcases List.mem_append.1 hmem with h1 | h1
    · have := hpre (i, j) h1 hv
      rw [hscore] at this
      exact this
    · exfalso
      rcases List.mem_cons.1 h1 with h2 | h2
      · rw [h2] at hlt
        unfold RowMajorLt at hlt
        omega
      · have hgt := hpw2.1 (i, j) h2
        unfold RowMajorLt at hlt hgt
        simp only at hlt hgt
        omega

theorem minimax_pos (depth : Int) (isMaximizing : Bool) (player : Int) (g : Game) :
    -100000 < (minimax depth isMaximizing player (-100000) 100000 g).1 := by
  rw [minimax_eq_plain]; exact plainMinimax_pos _ _ _ _ _ _

theorem minimaxGUI_pos (depth : Int) (isMaximizing : Bool) (player : Int) (g : Game) :
    -100000 < (minimaxGUI depth isMaximizing player (-100000) 100000 g).1 := by
  rw [minimaxGUI_eq_plain]; exact plainMinimaxGUI_pos _ _ _ _ _ _

/-- Claim C13.  For a side with at least one legal move, in both files, `getAIMove` returns
the first move in row-major order whose score, the value of
`minimax(MAX_DEPTH - 1, false, side, -100000, 100000)` on the position after the move, is
the maximum over all legal moves: the move is legal, no legal move scores more, and every
legal move before it in row-major order scores strictly less. -/
theorem getAIMove_first_best (side : Int) (g : Game) (h : hasValidMoves g.board side = true) :
    (isValidMove g.board (getAIMove side g).1.1 (getAIMove side g).1.2 side = true ∧
      (∀ i j : Int, isValidMove g.board i j side = true →
        (minimax (MAX_DEPTH - 1) false side (-100000) 100000 (makeMove i j side g)).1 ≤
          (minimax (MAX_DEPTH - 1) false side (-100000) 100000
            (makeMove (getAIMove side g).1.1 (getAIMove side g).1.2 side g)).1) ∧
      (∀ i j : Int, isValidMove g.board i j side = true →
        RowMajorLt (i, j) (getAIMove side g).1 →
        (minimax (MAX_DEPTH - 1) false side (-100000) 100000 (makeMove i j side g)).1 <
          (minimax (MAX_DEPTH - 1) false side (-100000) 100000
            (makeMove (getAIMove side g).1.1 (getAIMove side g).1.2 side g)).1)) ∧
    (isValidMove g.board (getAIMoveGUI side g).1.1 (getAIMoveGUI side g).1.2 side = true ∧
      (∀ i j : Int, isValidMove g.board i j side = true →
        (minimaxGUI (MAX_DEPTH - 1) false side (-100000) 100000 (makeMove i j side g)).1 ≤
          (minimaxGUI (MAX_DEPTH - 1) false side (-100000) 100000
            (makeMove (getAIMoveGUI side g).1.1 (getAIMoveGUI side g).1.2 side g)).1) ∧
      (∀ i j : Int, isValidMove g.board i j side = true →
        RowMajorLt (i, j) (getAIMoveGUI side g).1 →
        (minimaxGUI (MAX_DEPTH - 1) false side (-100000) 100000 (makeMove i j side g)).1 <
          (minimaxGUI (MAX_DEPTH - 1) false side (-100000) 100000
            (makeMove (getAIMoveGUI side g).1.1 (getAIMoveGUI side g).1.2 side g)).1)) :=
  ⟨getAIMoveBy_first _ side g (fun g' => minimax_pos _ _ _ g') h,
    getAIMoveBy_first _ side g (fun g' => minimaxGUI_pos _ _ _ g') h⟩

/-- Claim C13, instance: Black to move on the start board. -/
theorem getAIMove_first_best_witness :
    hasValidMoves initBoard.board BLACK = true ∧
    isValidMove initBoard.board (getAIMove BLACK initBoard).1.1
      (getAIMove BLACK initBoard).1.2 BLACK = true ∧
    ∀ i j : Int, isValidMove initBoard.board i j BLACK = true →
      RowMajorLt (i, j) (getAIMove BLACK initBoard).1 →
      (minimax (MAX_DEPTH - 1) false BLACK (-100000) 100000 (makeMove i j BLACK initBoard)).1 <
        (minimax (MAX_DEPTH - 1) false BLACK (-100000) 100000
          (makeMove (getAIMove BLACK initBoard).1.1 (getAIMove BLACK initBoard).1.2 BLACK
            initBoard)).1 :=
  have h := getAIMove_first_best BLACK initBoard (by decide)
  ⟨by decide, h.1.1, h.1.2.2⟩


/-! ## `makeMove` on an illegal move -/

/-- Counterexample to claim C14 as stated.  In the position after Black (2,3) and
White (2,2) the cell (2,3) is on the board and `isValidMove 2 3 BLACK` is false, because
the cell is occupied; yet `makeMove 2 3 BLACK` flips the cell (3,3) from White to Black. -/
theorem makeMove_illegal_counterexample :
    isValidMove initBoard.board 2 3 BLACK = true ∧
    isValidMove (makeMove 2 3 BLACK initBoard).board 2 2 WHITE = true ∧
    isInBounds 2 3 = true ∧ isValidMove afterTwoMoves.board 2 3 BLACK = false ∧
    afterTwoMoves.board 3 3 = WHITE ∧ (makeMove 2 3 BLACK afterTwoMoves).board 3 3 = BLACK := by
  decide

/-- The walk of `checkDirection` reads only the cells of its ray. -/
theorem checkDirectionLoop_congr (b1 b2 : Board) (dr dc player opponent : Int) (n : Nat) :
    ∀ (r c : Int) (f : Bool),
      (∀ j : Nat, b1 (r + (j : Int) * dr) (c + (j : Int) * dc) =
        b2 (r + (j : Int) * dr) (c + (j : Int) * dc)) →
      checkDirectionLoop b1 dr dc player opponent n r c f =
        checkDirectionLoop b2 dr dc player opponent n r c f := by
  induction n with
  | zero => intro r c f _; rfl
  | succ n ih =>
    intro r c f h
    have h0 : b1 r c = b2 r c := by simpa using h 0
    have hnext : ∀ j : Nat, b1 (r + dr + (j : Int) * dr) (c + dc + (j : Int) * dc) =
        b2 (r + dr + (j : Int) * dr) (c + dc + (j : Int) * dc) := by
      intro j
      have := h (j + 1)
      have e1 : r + ((j + 1 : Nat) : Int) * dr = r + dr + (j : Int) * dr := by push_cast; ring
      have e2 : c + ((j + 1 : Nat) : Int) * dc = c + dc + (j : Int) * dc := by push_cast; ring
      rw [e1, e2] at this
      exact this
    simp only [checkDirectionLoop, h0, ih (r + dr) (c + dc) _ hnext]

/-- Placing a piece on the start cell does not change what `checkDirection` finds from it. -/
theorem checkDirection_setCell_start (b : Board) (row col v : Int) (d : Int × Int)
    (hd : d ∈ directions) (player : Int) :
    checkDirection (setCell b row col v) row col d.1 d.2 player =
      checkDirection b row col d.1 d.2 player := by
  unfold checkDirection
  apply checkDirectionLoop_congr
  intro j
  unfold setCell
  rw [if_neg]
  rintro ⟨h1, h2⟩
  exact ray_ne_start d hd (j + 1) (by omega) row col
    (by push_cast; linarith) (by push_cast; linarith)

/-- When no direction captures, the direction loop of `makeMove` leaves the board as it
is after the piece was placed. -/
theorem makeMove_no_capture (g : Game) (row col side : Int)
    (h : ∀ d ∈ directions, checkDirection g.board row col d.1 d.2 side = false) :
    (makeMove row col side g).board = setCell g.board row col side := by
  have hfold : ∀ ds : List (Int × Int), (∀ d ∈ ds, d ∈ directions) →
      ds.foldl (makeMoveStep row col side) (setCell g.board row col side) =
        setCell g.board row col side := by
    intro ds
    induction ds with
    | nil => intro _; rfl
    | cons d ds ih =>
      intro hds
      have hd : d ∈ directions := hds d (List.mem_cons_self _ _)
      have hstep : makeMoveStep row col side (setCell g.board row col side) d =
          setCell g.board row col side := by
        unfold makeMoveStep
        rw [checkDirection_setCell_start g.board row col side d hd side, h d hd]
        rfl
      rw [List.foldl_cons, hstep]
      exact ih (fun d' hd' => hds d' (List.mem_cons_of_mem _ hd'))
  show directions.foldl (makeMoveStep row col side) (setCell g.board row col side) = _
  exact hfold directions (fun _ hd => hd)

/-- Claim C14, amended.  For every board, every in-bounds target whose cell is Empty and
every side for which `isValidMove` is false, `makeMove` places the piece without flips:
the target cell holds `side`, `moveCount` is one greater, and every other cell is
unchanged. -/
theorem makeMove_illegal_empty_target (g : Game) (row col side : Int)
    (hin : isInBounds row col = true) (he : g.board row col = EMPTY)
    (hv : isValidMove g.board row col side = false) :
    (makeMove row col side g).board row col = side ∧
    (makeMove row col side g).moveCount = g.moveCount + 1 ∧
    ∀ r c : Int, ¬ (r = row ∧ c = col) → (makeMove row col side g).board r c = g.board r c := by
  have hno : ∀ d ∈ directions, checkDirection g.board row col d.1 d.2 side = false := by
    intro d hd
    by_contra hc
    have hc' : checkDirection g.board row col d.1 d.2 side = true := by simpa using hc
    have : isValidMove g.board row col side = true := by
      unfold isValidMove
      simp only [hin, he, Bool.not_true, ne_eq, not_true_eq_false, decide_False, Bool.or_self,
        Bool.false_eq_true, ↓reduceIte, List.any_eq_true]
      exact ⟨d, hd, hc'⟩
    rw [hv] at this
    cases this
  rw [makeMove_no_capture g row col side hno]
  refine ⟨?_, rfl, ?_⟩
  · simp [setCell]
  · intro r c ht
    simp only [setCell]
    rw [if_neg ht]

/-- Claim C14, amended, instance: Black placed on the empty corner (0,0) of the start
board, where Black captures nothing. -/
theorem makeMove_illegal_empty_target_witness :
    isInBounds 0 0 = true ∧
    initBoard.board 0 0 = EMPTY ∧ isValidMove initBoard.board 0 0 BLACK = false ∧
    (makeMove 0 0 BLACK initBoard).board 0 0 = BLACK ∧
    (makeMove 0 0 BLACK initBoard).moveCount = initBoard.moveCount + 1 :=
  have h := makeMove_illegal_empty_target initBoard 0 0 BLACK
    (by decide) (by decide) (by decide)
  ⟨by decide, by decide, by decide, h.1, h.2.1⟩

/-! ## The console shell -/

theorem isValidMove_of_not_inBounds (b : Board) (row col side : Int)
    (h : ¬ (0 ≤ row ∧ row < 8 ∧ 0 ≤ col ∧ col < 8)) : isValidMove b row col side = false := by
  have : isInBounds row col = false := by
    rw [← Bool.not_eq_true, isInBounds_iff]; exact h
  simp [isValidMove, this]

theorem isValidMove_false_of_no_moves (b : Board) (side : Int)
    (h : hasValidMoves b side = false) (row col : Int) : isValidMove b row col side = false := by
  by_contra hc
  have hv : isValidMove b row col side = true := by simpa using hc
  obtain ⟨hin, _, _⟩ := exists_checkDirection_of_isValidMove _ _ _ _ hv
  rw [isInBounds_iff] at hin
  have : hasValidMoves b side = true :=
    (hasValidMoves_eq_true_iff b side).2
      ⟨row, (mem_indices row).2 ⟨hin.1, hin.2.1⟩, col, (mem_indices col).2 ⟨hin.2.2.1, hin.2.2.2⟩, hv⟩
  rw [h] at this
  cases this

theorem hasValidMoves_of_isValidMove (b : Board) (row col side : Int)
    (hv : isValidMove b row col side = true) : hasValidMoves b side = true := by
  by_contra hc
  have := isValidMove_false_of_no_moves b side (by simpa using hc) row col
  rw [hv] at this
  cases this

theorem charCode_values :
    charCode 'A' = 65 ∧ charCode 'H' = 72 ∧ charCode 'a' = 97 ∧ charCode 'h' = 104 ∧
    charCode '1' = 49 ∧ charCode '8' = 56 := by
  decide

/-- The decoded column is on the board exactly for the letters `A..H` and `a..h`. -/
theorem decodeCol_inBounds_iff (c0 : Int) :
    (0 ≤ decodeCol c0 ∧ decodeCol c0 < 8) ↔
      (charCode 'A' ≤ c0 ∧ c0 ≤ charCode 'H') ∨ (charCode 'a' ≤ c0 ∧ c0 ≤ charCode 'h') := by
  obtain ⟨hA, hH, ha, hh, _, _⟩ := charCode_values
  unfold decodeCol
  rw [hA, hH, ha, hh]
  split_ifs <;> omega

/-- The decoded row is on the board exactly for the digits `1..8`. -/
theorem decodeRow_inBounds_iff (c1 : Int) :
    (0 ≤ decodeRow c1 ∧ decodeRow c1 < 8) ↔ (charCode '1' ≤ c1 ∧ c1 ≤ charCode '8') := by
  obtain ⟨_, _, _, _, h1, h8⟩ := charCode_values
  unfold decodeRow
  rw [h1, h8]
  omega

theorem humanTurn_eq (move : List Int) (s : ConsoleState) :
    humanTurn move s =
      if move.length < 2 then (s, ConsoleEvent.invalidInput)
      else if isValidMove s.game.board (decodeRow (move.getD 1 0)) (decodeCol (move.getD 0 0))
          s.currentPlayer = true then
        ({ game := makeMove (decodeRow (move.getD 1 0)) (decodeCol (move.getD 0 0))
              s.currentPlayer s.game,
           currentPlayer := opponentOf s.currentPlayer, gameOver := s.gameOver },
          ConsoleEvent.humanMove (decodeRow (move.getD 1 0)) (decodeCol (move.getD 0 0)))
      else (s, ConsoleEvent.invalidMove) := by
  unfold humanTurn
  by_cases h1 : move.length < 2
  · rw [if_pos h1, if_pos h1]
  · rw [if_neg h1, if_neg h1]
    dsimp only
    cases h2 : isValidMove s.game.board (decodeRow (move.getD 1 0))
        (decodeCol (move.getD 0 0)) s.currentPlayer
    · simp only [Bool.not_false, Bool.false_eq_true, ↓reduceIte]
    · simp only [Bool.not_true, Bool.false_eq_true, ↓reduceIte]

theorem consoleStep_human (move : List Int) (s : ConsoleState) (hp : s.currentPlayer = BLACK)
    (hm : hasValidMoves s.game.board BLACK = true) : consoleStep move s = humanTurn move s := by
  unfold consoleStep
  rw [hp]
  simp [hm]

/-- Claim C16.  Console shell, Black to move: for a 2-character token whose first character
is a letter in `A..H` or `a..h` and whose second character is a digit in `1..8`, the decoded
column is the index of the letter within `A..H` (the same for upper and lower case) and
the decoded row is the digit minus one, both in `0..7`; the iteration plays that move
exactly when `isValidMove row col BLACK` is true, and otherwise leaves the board alone. -/
theorem console_token_decoded (c0 c1 : Int) (s : ConsoleState) (hp : s.currentPlayer = BLACK)
    (h0 : (charCode 'A' ≤ c0 ∧ c0 ≤ charCode 'H') ∨ (charCode 'a' ≤ c0 ∧ c0 ≤ charCode 'h'))
    (h1 : charCode '1' ≤ c1 ∧ c1 ≤ charCode '8') :
    ((charCode 'A' ≤ c0 ∧ c0 ≤ charCode 'H') → decodeCol c0 = c0 - charCode 'A') ∧
    ((charCode 'a' ≤ c0 ∧ c0 ≤ charCode 'h') → decodeCol c0 = c0 - charCode 'a') ∧
    decodeRow c1 = c1 - charCode '1' ∧
    (0 ≤ decodeCol c0 ∧ decodeCol c0 < 8) ∧ (0 ≤ decodeRow c1 ∧ decodeRow c1 < 8) ∧
    (isValidMove s.game.board (decodeRow c1) (decodeCol c0) BLACK = true →
      consoleStep [c0, c1] s =
        ({ game := makeMove (decodeRow c1) (decodeCol c0) BLACK s.game,
           currentPlayer := WHITE, gameOver := s.gameOver },
          ConsoleEvent.humanMove (decodeRow c1) (decodeCol c0))) ∧
    (isValidMove s.game.board (decodeRow c1) (decodeCol c0) BLACK = false →
      (consoleStep [c0, c1] s).1.game = s.game ∧
      ∀ r c : Int, (consoleStep [c0, c1] s).2 ≠ ConsoleEvent.humanMove r c) := by
  obtain ⟨hA, hH, ha, hh, _, _⟩ := charCode_values
  have hget0 : [c0, c1].getD 0 0 = c0 := rfl
  have hget1 : [c0, c1].getD 1 0 = c1 := rfl
  have hlen : ¬ [c0, c1].length < 2 := by simp
  refine ⟨?_, ?_, rfl, (decodeCol_inBounds_iff c0).2 h0, (decodeRow_inBounds_iff c1).2 h1, ?_, ?_⟩
  · intro h; unfold decodeCol; rw [ha]; rw [hH] at h; rw [if_neg (by omega)]
  · intro h; unfold decodeCol; rw [ha] at h ⊢; rw [if_pos (by omega)]
  · intro hv
    have hm := hasValidMoves_of_isValidMove _ _ _ _ hv
    rw [consoleStep_human _ s hp hm, humanTurn_eq, if_neg hlen, hget0, hget1, hp, if_pos hv]
    rfl
  · intro hv
    by_cases hm : hasValidMoves s.game.board BLACK = true
    · rw [consoleStep_human _ s hp hm, humanTurn_eq, if_neg hlen, hget0, hget1, hp,
        if_neg (by rw [hv]; simp)]
      exact ⟨rfl, fun r c h => by cases h⟩
    · unfold consoleStep
      rw [hp]
      have hm' : hasValidMoves s.game.board BLACK = false := by simpa using hm
      simp only [hm', Bool.not_false, ↓reduceIte]
      split_ifs
      · exact ⟨rfl, fun r c h => by cases h⟩
      · exact ⟨rfl, fun r c h => by cases h⟩

/-- Claim C16, instance: the token `d3` on the start board plays Black at row 2, column 3. -/
theorem console_token_decoded_witness :
    decodeCol (charCode 'd') = 3 ∧ decodeRow (charCode '3') = 2 ∧
    (consoleStep [charCode 'd', charCode '3'] ⟨initBoard, BLACK, false⟩).2 =
      ConsoleEvent.humanMove (decodeRow (charCode '3')) (decodeCol (charCode 'd')) :=
  have h := console_token_decoded (charCode 'd') (charCode '3') ⟨initBoard, BLACK, false⟩ rfl
    (Or.inr (by decide)) (by decide)
  ⟨by decide, by decide, by rw [h.2.2.2.2.2.1 (by decide)]⟩

/-- Counterexample to claim C17 as stated.  The token `D3x` is not exactly two characters,
yet on the start board the iteration plays Black at (2,3): the characters after the second
are never looked at. -/
theorem console_long_token_counterexample :
    [charCode 'D', charCode '3', charCode 'x'].length = 3 ∧
    initBoard.board 2 3 = EMPTY ∧
    (consoleStep [charCode 'D', charCode '3', charCode 'x'] ⟨initBoard, BLACK, false⟩).2 =
      ConsoleEvent.humanMove 2 3 ∧
    (consoleStep [charCode 'D', charCode '3', charCode 'x']
      ⟨initBoard, BLACK, false⟩).1.game.board 2 3 = BLACK ∧
    (consoleStep [charCode 'D', charCode '3', charCode 'x']
      ⟨initBoard, BLACK, false⟩).1.game.moveCount = 5 ∧
    (consoleStep [charCode 'D', charCode '3', charCode 'x']
      ⟨initBoard, BLACK, false⟩).1.currentPlayer = WHITE := by
  decide

/-- Claim C17, amended.  Console shell, Black to move: a token that is shorter than two
characters, or whose first character is not a letter in `A..H` or `a..h`, or whose second
character is not a digit in `1..8`, is rejected on every board: the human branch leaves
the state as it is, the iteration performs no `makeMove` and leaves the board and
`moveCount` unchanged, and when Black has a legal move (so that the token is read) the side
to move is unchanged too.  Characters after the second are ignored. -/
theorem console_bad_token_rejected (move : List Int) (s : ConsoleState)
    (hp : s.currentPlayer = BLACK)
    (hbad : move.length < 2 ∨
      ¬ ((charCode 'A' ≤ move.getD 0 0 ∧ move.getD 0 0 ≤ charCode 'H') ∨
         (charCode 'a' ≤ move.getD 0 0 ∧ move.getD 0 0 ≤ charCode 'h')) ∨
      ¬ (charCode '1' ≤ move.getD 1 0 ∧ move.getD 1 0 ≤ charCode '8')) :
    (humanTurn move s).1 = s ∧
    (consoleStep move s).1.game = s.game ∧
    (∀ r c : Int, (consoleStep move s).2 ≠ ConsoleEvent.humanMove r c) ∧
    (hasValidMoves s.game.board BLACK = true → (consoleStep move s).1 = s) := by
  have hhuman : (humanTurn move s).1 = s ∧
      ∀ r c : Int, (humanTurn move s).2 ≠ ConsoleEvent.humanMove r c := by
    rw [humanTurn_eq]
    by_cases hl : move.length < 2
    · rw [if_pos hl]; exact ⟨rfl, fun r c h => by cases h⟩
    · rw [if_neg hl]
      have hout : ¬ (0 ≤ decodeRow (move.getD 1 0) ∧ decodeRow (move.getD 1 0) < 8 ∧
          0 ≤ decodeCol (move.getD 0 0) ∧ decodeCol (move.getD 0 0) < 8) := by
        rintro ⟨r1, r2, c1, c2⟩
        rcases hbad with h | h | h
        · exact hl h
        · exact h ((decodeCol_inBounds_iff _).1 ⟨c1, c2⟩)
        · exact h ((decodeRow_inBounds_iff _).1 ⟨r1, r2⟩)
      rw [isValidMove_of_not_inBounds _ _ _ _ hout, if_neg (by simp)]
      exact ⟨rfl, fun r c h => by cases h⟩
  by_cases hm : hasValidMoves s.game.board BLACK = true
  · rw [consoleStep_human move s hp hm]
    exact ⟨hhuman.1, by rw [hhuman.1], hhuman.2, fun _ => hhuman.1⟩
  · refine ⟨hhuman.1, ?_, ?_, fun h => absurd h hm⟩
    · unfold consoleStep
      rw [hp]
      have hm' : hasValidMoves s.game.board BLACK = false := by simpa using hm
      simp only [hm', Bool.not_false, ↓reduceIte]
      split_ifs <;> rfl
    · unfold consoleStep
      rw [hp]
      have hm' : hasValidMoves s.game.board BLACK = false := by simpa using hm
      simp only [hm', Bool.not_false, ↓reduceIte]
      intro r c
      split_ifs <;> exact fun h => by cases h

/-- Claim C17, amended, instance: the token `Z9` on the start board. -/
theorem console_bad_token_rejected_witness :
    (consoleStep [charCode 'Z', charCode '9'] ⟨initBoard, BLACK, false⟩).1 =
      ⟨initBoard, BLACK, false⟩ :=
  (console_bad_token_rejected [charCode 'Z', charCode '9'] ⟨initBoard, BLACK, false⟩ rfl
    (Or.inr (Or.inl (by decide)))).2.2.2 (by decide)

/-- Claim C19.  Console driving loop: in an iteration from a board where the side to move
has no legal move but the other side has one, the turn passes to the other side (from
Black to White in particular), nothing is read as a move (the result does not depend on
the token) and none is made: the board and `moveCount` are unchanged. -/
theorem console_pass (move : List Int) (s : ConsoleState)
    (h1 : hasValidMoves s.game.board s.currentPlayer = false)
    (h2 : hasValidMoves s.game.board (opponentOf s.currentPlayer) = true) :
    consoleStep move s =
      ({ game := s.game, currentPlayer := opponentOf s.currentPlayer, gameOver := s.gameOver },
        ConsoleEvent.pass) ∧
    (consoleStep move s).1.game.board = s.game.board ∧
    (consoleStep move s).1.game.moveCount = s.game.moveCount ∧
    (s.currentPlayer = BLACK → (consoleStep move s).1.currentPlayer = WHITE) := by
  have h : consoleStep move s =
      ({ game := s.game, currentPlayer := opponentOf s.currentPlayer, gameOver := s.gameOver },
        ConsoleEvent.pass) := by
    unfold consoleStep
    simp [h1, h2]
  rw [h]
  refine ⟨rfl, rfl, rfl, ?_⟩
  intro hb
  show opponentOf s.currentPlayer = WHITE
  rw [hb]; rfl

/-- Claim C19, instance: Black to move in the sample position where Black must pass. -/
theorem console_pass_witness :
    hasValidMoves blackStuckGame.board BLACK = false ∧
    hasValidMoves blackStuckGame.board WHITE = true ∧
    ∀ move : List Int,
      consoleStep move ⟨blackStuckGame, BLACK, false⟩ =
        (⟨blackStuckGame, WHITE, false⟩, ConsoleEvent.pass) :=
  ⟨by decide, by decide,
    fun move => (console_pass move ⟨blackStuckGame, BLACK, false⟩ (by decide) (by decide)).1⟩

/-! ## The graphical shell -/

theorem updateAnimations_idle (anyActive : Bool) (a : AnimState) (h : a.isAnimating = false) :
    updateAnimations anyActive a = a := by
  unfold updateAnimations
  simp [h]

theorem guiTurn_idle (inp : FrameInput) (s : GuiState) (h : s.anim.isAnimating = false) :
    guiTurn inp s = guiGameOverCheck (guiAI (guiClick inp.click s)) := by
  unfold guiTurn
  simp only [updateAnimations_idle _ _ h, h, Bool.false_and, Bool.false_eq_true, ↓reduceIte]

theorem guiClick_invalid (x y : Int) (s : GuiState)
    (hv : isValidMove s.game.board (pixelToRow y) (pixelToCol x) s.currentPlayer = false) :
    guiClick (some (x, y)) s = s := by
  unfold guiClick
  simp only [hv, Bool.false_eq_true, ↓reduceIte, ite_self]

theorem guiAI_black (s : GuiState) (hp : s.currentPlayer = BLACK) : guiAI s = s := by
  unfold guiAI
  have : decide (s.currentPlayer = WHITE) = false := by rw [hp]; decide
  simp only [this, Bool.and_false, Bool.false_eq_true, ↓reduceIte]

theorem guiGameOverCheck_game (s : GuiState) :
    (guiGameOverCheck s).game = s.game ∧ (guiGameOverCheck s).currentPlayer = s.currentPlayer ∧
    (guiGameOverCheck s).anim = s.anim ∧ (guiGameOverCheck s).pendingPlayer = s.pendingPlayer := by
  unfold guiGameOverCheck
  split_ifs <;> exact ⟨rfl, rfl, rfl, rfl⟩

theorem guiGameOverCheck_of_moves (s : GuiState) (side : Int) (hs : ValidSide side)
    (h : hasValidMoves s.game.board side = true) : guiGameOverCheck s = s := by
  unfold guiGameOverCheck
  rcases hs with rfl | rfl <;> simp [h]

/-- While `gameOver` is false after the game-over check, the rest of the frame writes no
variable. -/
theorem guiFrame_of_not_over (inp : FrameInput) (s : GuiState)
    (h : (guiTurn inp s).gameOver = false) : guiFrame inp s = guiTurn inp s := by
  unfold guiFrame
  rw [h]
  rfl

theorem guiTurn_black_stuck (inp : FrameInput) (s : GuiState)
    (ha : s.anim.isAnimating = false) (hp : s.currentPlayer = BLACK)
    (hb : hasValidMoves s.game.board BLACK = false)
    (hw : hasValidMoves s.game.board WHITE = true) :
    guiTurn inp s = s := by
  have hclick : guiClick inp.click s = s := by
    cases hc : inp.click with
    | none => rfl
    | some p =>
      obtain ⟨x, y⟩ := p
      apply guiClick_invalid
      rw [hp]
      exact isValidMove_false_of_no_moves _ _ hb _ _
  rw [guiTurn_idle inp s ha, hclick, guiAI_black s hp,
    guiGameOverCheck_of_moves s WHITE (Or.inr rfl) hw]

/-- A frame in which the game is not over, Black is to move, nothing is animating, Black
has no legal move and White has one returns the state it was given. -/
theorem guiFrame_black_stuck (inp : FrameInput) (s : GuiState)
    (hgo : s.gameOver = false)
    (ha : s.anim.isAnimating = false) (hp : s.currentPlayer = BLACK)
    (hb : hasValidMoves s.game.board BLACK = false)
    (hw : hasValidMoves s.game.board WHITE = true) :
    guiFrame inp s = s := by
  have ht := guiTurn_black_stuck inp s ha hp hb hw
  rw [guiFrame_of_not_over inp s (by rw [ht]; exact hgo), ht]

theorem guiFrames_black_stuck (inps : List FrameInput) (s : GuiState)
    (hgo : s.gameOver = false)
    (ha : s.anim.isAnimating = false) (hp : s.currentPlayer = BLACK)
    (hb : hasValidMoves s.game.board BLACK = false)
    (hw : hasValidMoves s.game.board WHITE = true) :
    inps.foldl (fun st inp => guiFrame inp st) s = s := by
  induction inps with
  | nil => rfl
  | cons inp rest ih => rw [List.foldl_cons, guiFrame_black_stuck inp s hgo ha hp hb hw, ih]

/-- The first sample game is legal move by move and ends in `rowZeroGame`. -/
theorem edgeMoves_legal : followsLine initBoard.board edgeMoves edgeTables = true := by
  decide

/-- The second sample game is legal move by move and ends in `blackStuckGame`. -/
theorem sampleMoves_legal : followsLine initBoard.board sampleMoves sampleTables = true := by
  decide

/-- Claim C15.  Black to move and the supplied cell fails `isValidMove`.  Console shell:
the iteration that reads a token of at least two characters (Black has a legal move, so
the shell prompts) returns the state it was given, with the "invalid move" message.
Graphical shell, in a game in progress (`gameOver` is false and a side has a legal move, as
in every state in which the loop starts a frame with `gameOver` false), with no animation
running: the click block returns the state it was given, and so does the whole frame,
whatever the animation clock and the end-game buttons report; the board, `moveCount` and
the side to move are those before it. -/
theorem illegal_move_rejected (move : List Int) (s : ConsoleState) (x y : Int)
    (anyActive playHover quitHover : Bool) (gs : GuiState)
    (hp : s.currentPlayer = BLACK) (hm : hasValidMoves s.game.board BLACK = true)
    (hl : 2 ≤ move.length)
    (hv : isValidMove s.game.board (decodeRow (move.getD 1 0)) (decodeCol (move.getD 0 0))
      BLACK = false)
    (hgo : gs.gameOver = false)
    (hmv : hasValidMoves gs.game.board BLACK = true ∨ hasValidMoves gs.game.board WHITE = true)
    (ha : gs.anim.isAnimating = false) (hgp : gs.currentPlayer = BLACK)
    (hgv : isValidMove gs.game.board (pixelToRow y) (pixelToCol x) BLACK = false) :
    consoleStep move s = (s, ConsoleEvent.invalidMove) ∧
    guiClick (some (x, y)) gs = gs ∧
    guiFrame ⟨some (x, y), anyActive, playHover, quitHover⟩ gs = gs ∧
    (guiFrame ⟨some (x, y), anyActive, playHover, quitHover⟩ gs).game.board = gs.game.board ∧
    (guiFrame ⟨some (x, y), anyActive, playHover, quitHover⟩ gs).game.moveCount =
      gs.game.moveCount ∧
    (guiFrame ⟨some (x, y), anyActive, playHover, quitHover⟩ gs).currentPlayer = BLACK := by
  have hclick : guiClick (some (x, y)) gs = gs := guiClick_invalid x y gs (by rw [hgp]; exact hgv)
  have hcheck : guiGameOverCheck gs = gs := by
    rcases hmv with h | h
    · exact guiGameOverCheck_of_moves gs BLACK (Or.inl rfl) h
    · exact guiGameOverCheck_of_moves gs WHITE (Or.inr rfl) h
  have hturn : guiTurn ⟨some (x, y), anyActive, playHover, quitHover⟩ gs = gs := by
    rw [guiTurn_idle _ gs ha]
    show guiGameOverCheck (guiAI (guiClick (some (x, y)) gs)) = _
    rw [hclick, guiAI_black gs hgp, hcheck]
  have hframe : guiFrame ⟨some (x, y), anyActive, playHover, quitHover⟩ gs = gs := by
    rw [guiFrame_of_not_over _ gs (by rw [hturn]; exact hgo), hturn]
  refine ⟨?_, hclick, hframe, ?_, ?_, ?_⟩
  · rw [consoleStep_human move s hp hm, humanTurn_eq, if_neg (by omega), hp,
      if_neg (by rw [hv]; simp)]
  · rw [hframe]
  · rw [hframe]
  · rw [hframe, hgp]

/-- Claim C15, instance: on the start board the token `A1` and a click inside the cell
(0,0) are both refused. -/
theorem illegal_move_rejected_witness :
    consoleStep [charCode 'A', charCode '1'] ⟨initBoard, BLACK, false⟩ =
      (⟨initBoard, BLACK, false⟩, ConsoleEvent.invalidMove) ∧
    guiClick (some (100, 160)) (guiBlackToMove initBoard) = guiBlackToMove initBoard ∧
    guiFrame ⟨some (100, 160), false, false, false⟩ (guiBlackToMove initBoard) =
      guiBlackToMove initBoard :=
  have h := illegal_move_rejected [charCode 'A', charCode '1'] ⟨initBoard, BLACK, false⟩
    100 160 false false false (guiBlackToMove initBoard) rfl (by decide) (by decide)
    (by decide) rfl (Or.inl (by decide)) rfl rfl (by decide)
  ⟨h.1, h.2.1, h.2.2.1⟩

/-- Truncating division by 80 lands in `0..7` exactly for the numerators in `-79..639`. -/
theorem tdiv_cell_iff (a : Int) : (0 ≤ Int.tdiv a 80 ∧ Int.tdiv a 80 < 8) ↔ (-80 < a ∧ a < 640) := by
  rcases le_or_lt 0 a with h | h
  · rw [Int.tdiv_eq_ediv h (by decide)]
    omega
  · obtain ⟨n, rfl⟩ : ∃ n : Int, a = -n := ⟨-a, by ring⟩
    rw [Int.neg_tdiv, Int.tdiv_eq_ediv (by omega) (by decide)]
    omega

/-- The column derived from pixel `x` is on the board exactly when `4 < x < 724`: the
80 pixels left of the board count as column 0. -/
theorem pixelToCol_inBounds_iff (x : Int) :
    (0 ≤ pixelToCol x ∧ pixelToCol x < 8) ↔ (4 < x ∧ x < 724) := by
  unfold pixelToCol BOARD_OFFSET_X CELL_SIZE
  rw [tdiv_cell_iff]
  omega

/-- The row derived from pixel `y` is on the board exactly when `70 < y < 790`: the
80 pixels above the board count as row 0. -/
theorem pixelToRow_inBounds_iff (y : Int) :
    (0 ≤ pixelToRow y ∧ pixelToRow y < 8) ↔ (70 < y ∧ y < 790) := by
  unfold pixelToRow BOARD_OFFSET_Y CELL_SIZE
  rw [tdiv_cell_iff]
  omega

/-- Claim C18, failing input.  The click at pixel (364, 100) lies above the board rectangle
(100 < 150), yet the derived cell is row 0, column 3, which is on the board; in the
position `rowZeroGame` (Black to move, no animation) that cell is a legal move for Black,
so the click block plays it: the cell becomes Black, the White piece at (1,3) is flipped
and `moveCount` goes from 8 to 9.  The same holds for a click left of the rectangle:
pixel (10, 200) gives column 0. -/
theorem gui_click_outside_plays :
    ¬ (BOARD_OFFSET_Y ≤ 100 ∧ 100 < BOARD_OFFSET_Y + 8 * CELL_SIZE) ∧
    pixelToRow 100 = 0 ∧ pixelToCol 364 = 3 ∧ isInBounds (pixelToRow 100) (pixelToCol 364) = true ∧
    isValidMove rowZeroGame.board 0 3 BLACK = true ∧
    rowZeroGame.board 0 3 = EMPTY ∧ rowZeroGame.board 1 3 = WHITE ∧ rowZeroGame.moveCount = 8 ∧
    (guiClick (some (364, 100)) (guiBlackToMove rowZeroGame)).game.board 0 3 = BLACK ∧
    (guiClick (some (364, 100)) (guiBlackToMove rowZeroGame)).game.board 1 3 = BLACK ∧
    (guiClick (some (364, 100)) (guiBlackToMove rowZeroGame)).game.moveCount = 9 ∧
    ¬ (BOARD_OFFSET_X ≤ 10 ∧ 10 < BOARD_OFFSET_X + 8 * CELL_SIZE) ∧ pixelToCol 10 = 0 := by
  decide

/-- Claim C20, failing input.  In the position `blackStuckGame` Black has no legal move and
White has one; with Black to move, no animation running and the game not over, every frame,
whatever its mouse input and animation clock, returns the state it was given: the side to
move stays Black, White never moves, and this repeats for any number of frames. -/
theorem gui_black_never_passes :
    hasValidMoves blackStuckGame.board BLACK = false ∧
    hasValidMoves blackStuckGame.board WHITE = true ∧
    (guiBlackToMove blackStuckGame).currentPlayer = BLACK ∧
    (guiBlackToMove blackStuckGame).gameOver = false ∧
    (guiBlackToMove blackStuckGame).anim.isAnimating = false ∧
    (∀ inp : FrameInput,
      guiFrame inp (guiBlackToMove blackStuckGame) = guiBlackToMove blackStuckGame) ∧
    (∀ inps : List FrameInput,
      (inps.foldl (fun st inp => guiFrame inp st) (guiBlackToMove blackStuckGame)).currentPlayer
        ≠ WHITE) := by
  have hb : hasValidMoves blackStuckGame.board BLACK = false := by decide
  have hw : hasValidMoves blackStuckGame.board WHITE = true := by decide
  refine ⟨hb, hw, rfl, rfl, rfl, ?_, ?_⟩
  · intro inp
    exact guiFrame_black_stuck inp _ rfl rfl rfl hb hw
  · intro inps
    rw [guiFrames_black_stuck inps _ rfl rfl rfl hb hw]
    decide

/-! ## The opening move -/

/-- Claim C22.  On the board produced by `initBoard`, `isValidMove(2, 3, Black)` is true,
and after `makeMove(2, 3, Black)` `countPieces` gives Black = 4 and White = 1 with exactly
one flipped cell, (3,3): the board has Black at (2,3), (3,3), (3,4), (4,3), White at (4,4),
every other cell Empty, and `moveCount = 5`. -/
theorem opening_move_fixture :
    isValidMove initBoard.board 2 3 BLACK = true ∧
    countPieces (makeMove 2 3 BLACK initBoard).board = (4, 1) ∧
    flipCount initBoard 2 3 BLACK = 1 ∧
    initBoard.board 3 3 = WHITE ∧ (makeMove 2 3 BLACK initBoard).board 3 3 = BLACK ∧
    (makeMove 2 3 BLACK initBoard).moveCount = 5 ∧
    rowsOfBoard (makeMove 2 3 BLACK initBoard).board =
      [[0, 0, 0, 0, 0, 0, 0, 0],
       [0, 0, 0, 0, 0, 0, 0, 0],
       [0, 0, 0, 1, 0, 0, 0, 0],
       [0, 0, 0, 1, 1, 0, 0, 0],
       [0, 0, 0, 1, 2, 0, 0, 0],
       [0, 0, 0, 0, 0, 0, 0, 0],
       [0, 0, 0, 0, 0, 0, 0, 0],
       [0, 0, 0, 0, 0, 0, 0, 0]] ∧
    (∀ r c : Int, isInBounds r c = true →
      (makeMove 2 3 BLACK initBoard).board r c =
        if (r = 2 ∧ c = 3) ∨ (r = 3 ∧ c = 3) ∨ (r = 3 ∧ c = 4) ∨ (r = 4 ∧ c = 3) then BLACK
        else if r = 4 ∧ c = 4 then WHITE else EMPTY) := by
  refine ⟨by decide, by decide, by decide, by decide, by decide, by decide, by decide, ?_⟩
  have hall : ∀ p ∈ allCells, (makeMove 2 3 BLACK initBoard).board p.1 p.2 =
      if (p.1 = 2 ∧ p.2 = 3) ∨ (p.1 = 3 ∧ p.2 = 3) ∨ (p.1 = 3 ∧ p.2 = 4) ∨
        (p.1 = 4 ∧ p.2 = 3) then BLACK
      else if p.1 = 4 ∧ p.2 = 4 then WHITE else EMPTY := by
    decide
  intro r c hin
  exact hall (r, c) ((mem_allCells (r, c)).2 hin)

/-! ## The token `C4` -/

/-- Counterexample to claim C23 as stated.  The console decodes the token `C4` (and `c4`)
to row 3, column 2, not to row 2, column 3: typed on the start board it plays Black at
(3,2) and leaves (2,3) Empty. -/
theorem console_C4_counterexample :
    decodeRow (charCode '4') = 3 ∧ decodeCol (charCode 'C') = 2 ∧
    decodeCol (charCode 'c') = 2 ∧
    ¬ (decodeRow (charCode '4') = 2 ∧ decodeCol (charCode 'C') = 3) ∧
    (consoleStep [charCode 'C', charCode '4'] ⟨initBoard, BLACK, false⟩).2 =
      ConsoleEvent.humanMove 3 2 ∧
    (consoleStep [charCode 'C', charCode '4'] ⟨initBoard, BLACK, false⟩).1.game.board 3 2 =
      BLACK ∧
    (consoleStep [charCode 'C', charCode '4'] ⟨initBoard, BLACK, false⟩).1.game.board 2 3 =
      EMPTY ∧
    (consoleStep [charCode 'c', charCode '4'] ⟨initBoard, BLACK, false⟩).1.game.board 2 3 =
      EMPTY := by
  decide

/-- Claim C23, amended.  In the console shell's notation the letter is the column and the
digit the row: the token `C4` (and `c4`) is decoded to row 3, column 2, so that typing it on
the start board plays Black at (3,2); the move (row 2, column 3) is the token `D3` (and
`d3`), which on the start board plays Black at (2,3). -/
theorem console_C4_is_row3_col2 :
    (decodeRow (charCode '4'), decodeCol (charCode 'C')) = (3, 2) ∧
    (decodeRow (charCode '4'), decodeCol (charCode 'c')) = (3, 2) ∧
    consoleStep [charCode 'C', charCode '4'] ⟨initBoard, BLACK, false⟩ =
      (⟨makeMove 3 2 BLACK initBoard, WHITE, false⟩, ConsoleEvent.humanMove 3 2) ∧
    consoleStep [charCode 'c', charCode '4'] ⟨initBoard, BLACK, false⟩ =
      (⟨makeMove 3 2 BLACK initBoard, WHITE, false⟩, ConsoleEvent.humanMove 3 2) ∧
    (decodeRow (charCode '3'), decodeCol (charCode 'D')) = (2, 3) ∧
    (decodeRow (charCode '3'), decodeCol (charCode 'd')) = (2, 3) ∧
    consoleStep [charCode 'D', charCode '3'] ⟨initBoard, BLACK, false⟩ =
      (⟨makeMove 2 3 BLACK initBoard, WHITE, false⟩, ConsoleEvent.humanMove 2 3) ∧
    consoleStep [charCode 'd', charCode '3'] ⟨initBoard, BLACK, false⟩ =
      (⟨makeMove 2 3 BLACK initBoard, WHITE, false⟩, ConsoleEvent.humanMove 2 3) := by
  refine ⟨by decide, by decide, rfl, rfl, by decide, by decide, rfl, rfl⟩

/-! ## The terminal test of `minimax` -/

/-- Claim C25.  For every board, perspective, maximizing flag, `alpha` and `beta`, in both
files: when `depth = 0` (for any `moveCount`) or `moveCount = 64` (for any `depth`),
`minimax` returns exactly `evaluateBoard(perspective)` and makes no move: the globals are
those it was called on. -/
theorem minimax_terminal (depth : Int) (isMaximizing : Bool) (player alpha beta : Int)
    (g : Game) (h : depth = 0 ∨ g.moveCount = 64) :
    minimax depth isMaximizing player alpha beta g = (evaluateBoard g.board player, g) ∧
    minimaxGUI depth isMaximizing player alpha beta g =
      (evaluateBoardGUI g.board player, g) := by
  have h' : depth = 0 ∨ g.moveCount = BOARD_SIZE * BOARD_SIZE := h
  constructor
  · unfold minimax
    rw [minimaxWith_unfold, if_pos h']
  · unfold minimaxGUI
    rw [minimaxWith_unfold, if_pos h']

/-- Claim C25, instances: depth 0 on the start board, and depth 3 on a full board. -/
theorem minimax_terminal_witness :
    minimax 0 true BLACK (-100000) 100000 initBoard =
      (evaluateBoard initBoard.board BLACK, initBoard) ∧
    fullGame.moveCount = 64 ∧
    minimax 3 false WHITE (-100000) 100000 fullGame =
      (evaluateBoard fullGame.board WHITE, fullGame) :=
  ⟨(minimax_terminal 0 true BLACK (-100000) 100000 initBoard (Or.inl rfl)).1, rfl,
    (minimax_terminal 3 false WHITE (-100000) 100000 fullGame (Or.inr rfl)).1⟩

/-! ## The window property of `minimax` -/

/-- Claim C27.  Let `v` be the value of the recursion of `minimax` without the
`beta <= alpha` cut-offs.  For every board, depth, perspective, maximizing flag and every
`alpha < beta`, in both files, the value `r` returned by
`minimax(depth, maximizing, perspective, alpha, beta)` satisfies: if `alpha < v < beta` then
`r = v`; if `v <= alpha` then `r <= alpha`; if `v >= beta` then `r >= beta`.  With
`alpha = -100000` and `beta = 100000`, `r = v`. -/
theorem minimax_window (depth : Int) (isMaximizing : Bool) (player alpha beta : Int)
    (g : Game) (hab : alpha < beta) :
    (alpha < (plainMinimax depth isMaximizing player alpha beta g).1 →
      (plainMinimax depth isMaximizing player alpha beta g).1 < beta →
      (minimax depth isMaximizing player alpha beta g).1 =
        (plainMinimax depth isMaximizing player alpha beta g).1) ∧
    ((plainMinimax depth isMaximizing player alpha beta g).1 ≤ alpha →
      (minimax depth isMaximizing player alpha beta g).1 ≤ alpha) ∧
    (beta ≤ (plainMinimax depth isMaximizing player alpha beta g).1 →
      beta ≤ (minimax depth isMaximizing player alpha beta g).1) ∧
    (alpha < (plainMinimaxGUI depth isMaximizing player alpha beta g).1 →
      (plainMinimaxGUI depth isMaximizing player alpha beta g).1 < beta →
      (minimaxGUI depth isMaximizing player alpha beta g).1 =
        (plainMinimaxGUI depth isMaximizing player alpha beta g).1) ∧
    ((plainMinimaxGUI depth isMaximizing player alpha beta g).1 ≤ alpha →
      (minimaxGUI depth isMaximizing player alpha beta g).1 ≤ alpha) ∧
    (beta ≤ (plainMinimaxGUI depth isMaximizing player alpha beta g).1 →
      beta ≤ (minimaxGUI depth isMaximizing player alpha beta g).1) ∧
    (minimax depth isMaximizing player (-100000) 100000 g).1 =
      (plainMinimax depth isMaximizing player (-100000) 100000 g).1 ∧
    (minimaxGUI depth isMaximizing player (-100000) 100000 g).1 =
      (plainMinimaxGUI depth isMaximizing player (-100000) 100000 g).1 := by
  obtain ⟨c1, c2, c3⟩ := minimaxAux_threeWay evaluateBoard player searchFuel depth
    isMaximizing alpha beta alpha beta g hab
  obtain ⟨g1, g2, g3⟩ := minimaxAux_threeWay evaluateBoardGUI player searchFuel depth
    isMaximizing alpha beta alpha beta g hab
  exact ⟨c3, c1, c2, g3, g1, g2, minimax_eq_plain depth isMaximizing player g,
    minimaxGUI_eq_plain depth isMaximizing player g⟩

/-- Claim C27, instance: the window `(-5, 5)` at depth 2 on the start board. -/
theorem minimax_window_witness :
    (-5 : Int) < 5 ∧
    ((plainMinimax 2 true BLACK (-5) 5 initBoard).1 ≤ -5 →
      (minimax 2 true BLACK (-5) 5 initBoard).1 ≤ -5) ∧
    (5 ≤ (plainMinimax 2 true BLACK (-5) 5 initBoard).1 →
      5 ≤ (minimax 2 true BLACK (-5) 5 initBoard).1) :=
  have h := minimax_window 2 true BLACK (-5) 5 initBoard (by decide)
  ⟨by decide, h.2.1, h.2.2.1⟩

/-! ## Range of the search with cut-offs -/

theorem maxCols_pruned_bounds (child : Int → Int → Game → Int × Game) (cur i lo hi : Int)
    (hchild : ∀ a b g, a < b → lo ≤ (child a b g).1 ∧ (child a b g).1 ≤ hi) (js : List Int) :
    ∀ st : SearchState, st.alpha < st.beta → st.best ≤ hi →
      (maxCols true child cur i js st).best ≤ hi ∧
      ((maxCols true child cur i js st).alpha < (maxCols true child cur i js st).beta ∨
        lo ≤ (maxCols true child cur i js st).best) ∧
      ((lo ≤ st.best ∨ ∃ j ∈ js, isValidMove st.game.board i j cur = true) →
        lo ≤ (maxCols true child cur i js st).best) := by
  induction js with
  | nil =>
    intro st hab h
    refine ⟨h, Or.inl hab, ?_⟩
    rintro (h' | ⟨j, hj, _⟩)
    · exact h'
    · simp at hj
  | cons j js ih =>
    intro st hab h
    rw [maxCols_cons]
    by_cases hv : isValidMove st.game.board i j cur = true
    · rw [if_pos hv]
      obtain ⟨c1, c2⟩ := hchild st.alpha st.beta (makeMove i j cur st.game) hab
      have hb : (maxStep st (child st.alpha st.beta (makeMove i j cur st.game)).1).best ≤ hi := by
        simp only [maxStep]; split_ifs <;> omega
      have hl : lo ≤ (maxStep st (child st.alpha st.beta (makeMove i j cur st.game)).1).best := by
        simp only [maxStep]; split_ifs <;> omega
      by_cases hbrk : st.beta ≤
          (maxStep st (child st.alpha st.beta (makeMove i j cur st.game)).1).alpha
      · rw [if_pos (by simpa using hbrk)]
        exact ⟨hb, Or.inr hl, fun _ => hl⟩
      · rw [if_neg (by simpa using hbrk)]
        have hab' : (maxStep st (child st.alpha st.beta (makeMove i j cur st.game)).1).alpha <
            (maxStep st (child st.alpha st.beta (makeMove i j cur st.game)).1).beta := by
          have : (maxStep st (child st.alpha st.beta (makeMove i j cur st.game)).1).beta =
              st.beta := rfl
          rw [this]; omega
        obtain ⟨r1, r2, r3⟩ := ih _ hab' hb
        exact ⟨r1, r2, fun _ => r3 (Or.inl hl)⟩
    · rw [if_neg hv]
      obtain ⟨r1, r2, r3⟩ := ih st hab h
      refine ⟨r1, r2, ?_⟩
      rintro (h' | ⟨j', hj', hv'⟩)
      · exact r3 (Or.inl h')
      · rcases List.mem_cons.1 hj' with rfl | hmem
        · exact absurd hv' hv
        · exact r3 (Or.inr ⟨j', hmem, hv'⟩)

theorem maxRows_pruned_bounds (child : Int → Int → Game → Int × Game) (cur lo hi : Int)
    (hchild : ∀ a b g, a < b → lo ≤ (child a b g).1 ∧ (child a b g).1 ≤ hi) (is : List Int) :
    ∀ st : SearchState, st.alpha < st.beta → st.best ≤ hi →
      (maxRows true child cur is st).best ≤ hi ∧
      ((lo ≤ st.best ∨ ∃ i ∈ is, ∃ j ∈ indices, isValidMove st.game.board i j cur = true) →
        lo ≤ (maxRows true child cur is st).best) := by
  induction is with
  | nil =>
    intro st _ h
    refine ⟨h, ?_⟩
    rintro (h' | ⟨i, hi', _⟩)
    · exact h'
    · simp at hi'
  | cons i is ih =>
    intro st hab h
    rw [maxRows_cons]
    obtain ⟨r1, r2, r3⟩ := maxCols_pruned_bounds child cur i lo hi hchild indices st hab h
    have hg := (maxCols_game true child cur i indices st).1
    by_cases hbrk : (maxCols true child cur i indices st).beta ≤
        (maxCols true child cur i indices st).alpha
    · rw [if_pos (by simpa using hbrk)]
      have hl : lo ≤ (maxCols true child cur i indices st).best := by
        rcases r2 with h2 | h2
        · omega
        · exact h2
      exact ⟨r1, fun _ => hl⟩
    · rw [if_neg (by simpa using hbrk)]
      have hab' : (maxCols true child cur i indices st).alpha <
          (maxCols true child cur i indices st).beta := by omega
      obtain ⟨q1, q2⟩ := ih _ hab' r1
      refine ⟨q1, ?_⟩
      rintro (h' | ⟨i', hi', j, hj, hv⟩)
      · exact q2 (Or.inl (r3 (Or.inl h')))
      · rcases List.mem_cons.1 hi' with rfl | hmem
        · exact q2 (Or.inl (r3 (Or.inr ⟨j, hj, hv⟩)))
        · exact q2 (Or.inr ⟨i', hmem, j, hj, by rw [hg]; exact hv⟩)

theorem minCols_pruned_bounds (child : Int → Int → Game → Int × Game) (cur i lo hi : Int)
    (hchild : ∀ a b g, a < b → lo ≤ (child a b g).1 ∧ (child a b g).1 ≤ hi) (js : List Int) :
    ∀ st : SearchState, st.alpha < st.beta → lo ≤ st.best →
      lo ≤ (minCols true child cur i js st).best ∧
      ((minCols true child cur i js st).alpha < (minCols true child cur i js st).beta ∨
        (minCols true child cur i js st).best ≤ hi) ∧
      ((st.best ≤ hi ∨ ∃ j ∈ js, isValidMove st.game.board i j cur = true) →
        (minCols true child cur i js st).best ≤ hi) := by
  induction js with
  | nil =>
    intro st hab h
    refine ⟨h, Or.inl hab, ?_⟩
    rintro (h' | ⟨j, hj, _⟩)
    · exact h'
    · simp at hj
  | cons j js ih =>
    intro st hab h
    rw [minCols_cons]
    by_cases hv : isValidMove st.game.board i j cur = true
    · rw [if_pos hv]
      obtain ⟨c1, c2⟩ := hchild st.alpha st.beta (makeMove i j cur st.game) hab
      have hb : lo ≤ (minStep st (child st.alpha st.beta (makeMove i j cur st.game)).1).best := by
        simp only [minStep]; split_ifs <;> omega
      have hl : (minStep st (child st.alpha st.beta (makeMove i j cur st.game)).1).best ≤ hi := by
        simp only [minStep]; split_ifs <;> omega
      by_cases hbrk : (minStep st (child st.alpha st.beta (makeMove i j cur st.game)).1).beta ≤
          st.alpha
      · rw [if_pos (by simpa using hbrk)]
        exact ⟨hb, Or.inr hl, fun _ => hl⟩
      · rw [if_neg (by simpa using hbrk)]
        have hab' : (minStep st (child st.alpha st.beta (makeMove i j cur st.game)).1).alpha <
            (minStep st (child st.alpha st.beta (makeMove i j cur st.game)).1).beta := by
          have : (minStep st (child st.alpha st.beta (makeMove i j cur st.game)).1).alpha =
              st.alpha := rfl
          rw [this]; omega
        obtain ⟨r1, r2, r3⟩ := ih _ hab' hb
        exact ⟨r1, r2, fun _ => r3 (Or.inl hl)⟩
    · rw [if_neg hv]
      obtain ⟨r1, r2, r3⟩ := ih st hab h
      refine ⟨r1, r2, ?_⟩
      rintro (h' | ⟨j', hj', hv'⟩)
      · exact r3 (Or.inl h')
      · rcases List.mem_cons.1 hj' with rfl | hmem
        · exact absurd hv' hv
        · exact r3 (Or.inr ⟨j', hmem, hv'⟩)

theorem minRows_pruned_bounds (child : Int → Int → Game → Int × Game) (cur lo hi : Int)
    (hchild : ∀ a b g, a < b → lo ≤ (child a b g).1 ∧ (child a b g).1 ≤ hi) (is : List Int) :
    ∀ st : SearchState, st.alpha < st.beta → lo ≤ st.best →
      lo ≤ (minRows true child cur is st).best ∧
      ((st.best ≤ hi ∨ ∃ i ∈ is, ∃ j ∈ indices, isValidMove st.game.board i j cur = true) →
        (minRows true child cur is st).best ≤ hi) := by
  induction is with
  | nil =>
    intro st _ h
    refine ⟨h, ?_⟩
    rintro (h' | ⟨i, hi', _⟩)
    · exact h'
    · simp at hi'
  | cons i is ih =>
    intro st hab h
    rw [minRows_cons]
    obtain ⟨r1, r2, r3⟩ := minCols_pruned_bounds child cur i lo hi hchild indices st hab h
    have hg := (minCols_game true child cur i indices st).1
    by_cases hbrk : (minCols true child cur i indices st).beta ≤
        (minCols true child cur i indices st).alpha
    · rw [if_pos (by simpa using hbrk)]
      have hl : (minCols true child cur i indices st).best ≤ hi := by
        rcases r2 with h2 | h2
        · omega
        · exact h2
      exact ⟨r1, fun _ => hl⟩
    · rw [if_neg (by simpa using hbrk)]
      have hab' : (minCols true child cur i indices st).alpha <
          (minCols true child cur i indices st).beta := by omega
      obtain ⟨q1, q2⟩ := ih _ hab' r1
      refine ⟨q1, ?_⟩
      rintro (h' | ⟨i', hi', j, hj, hv⟩)
      · exact q2 (Or.inl (r3 (Or.inl h')))
      · rcases List.mem_cons.1 hi' with rfl | hmem
        · exact q2 (Or.inl (r3 (Or.inr ⟨j, hj, hv⟩)))
        · exact q2 (Or.inr ⟨i', hmem, j, hj, by rw [hg]; exact hv⟩)

/-- With cut-offs and a window `alpha < beta`, every value of the search lies in the range
of the evaluation. -/
theorem minimaxAux_pruned_bounds (ev : Board → Int → Int) (player lo hi : Int)
    (hev : ∀ b p, lo ≤ ev b p ∧ ev b p ≤ hi) (hlo : lo ≤ 100000) (hhi : -100000 ≤ hi)
    (fuel : Nat) :
    ∀ (depth : Int) (isMaximizing : Bool) (a b : Int) (g : Game), a < b →
      lo ≤ (minimaxAux true ev player fuel depth isMaximizing a b g).1 ∧
      (minimaxAux true ev player fuel depth isMaximizing a b g).1 ≤ hi := by
  induction fuel with
  | zero => intro depth isMaximizing a b g _; exact hev _ _
  | succ fuel ih =>
    intro depth isMaximizing a b g hab
    cases isMaximizing
    · rw [minimaxAux_succ_min]
      split_ifs with h1 h3
      · exact hev _ _
      · exact hev _ _
      · have hmoves : ∃ i ∈ indices, ∃ j ∈ indices,
            isValidMove g.board i j (opponentOf player) = true := by
          rw [← hasValidMoves_eq_true_iff]; simpa using h3
        obtain ⟨r1, r2⟩ := minRows_pruned_bounds
          (fun a b g' => minimaxAux true ev player fuel (depth - 1) true a b g')
          (opponentOf player) lo hi (fun a b g' h => ih _ _ a b g' h) indices
          { game := g, best := 100000, alpha := a, beta := b } hab hlo
        exact ⟨r1, r2 (Or.inr hmoves)⟩
    · rw [minimaxAux_succ_max]
      split_ifs with h1 h2 h3
      · exact hev _ _
      · exact hev _ _
      · exact ih _ _ _ _ _ hab
      · have hmoves : ∃ i ∈ indices, ∃ j ∈ indices, isValidMove g.board i j player = true := by
          rw [← hasValidMoves_eq_true_iff]; simpa using h2
        obtain ⟨r1, r2⟩ := maxRows_pruned_bounds
          (fun a b g' => minimaxAux true ev player fuel (depth - 1) false a b g')
          player lo hi (fun a b g' h => ih _ _ a b g' h) indices
          { game := g, best := -100000, alpha := a, beta := b } hab hhi
        exact ⟨r2 (Or.inr hmoves), r1⟩

/-- Counterexample to claim C28 as stated.  Called with `alpha = beta = 0` at depth 1 on
the start board, where Black has legal moves but none in row 0, the maximizing `minimax`
leaves its loops at the first `beta <= alpha` test and returns the sentinel `-100000`; the
minimizing one returns `100000`.  Both files behave so. -/
theorem minimax_sentinel_counterexample :
    ValidBoard initBoard.board ∧ hasValidMoves initBoard.board BLACK = true ∧
    (minimax 1 true BLACK 0 0 initBoard).1 = -100000 ∧
    (minimax 1 false BLACK 0 0 initBoard).1 = 100000 ∧
    (minimaxGUI 1 true BLACK 0 0 initBoard).1 = -100000 ∧
    ¬ (-164 ≤ (minimax 1 true BLACK 0 0 initBoard).1) :=
  ⟨validBoard_initBoard, by decide, by decide, by decide, by decide, by decide⟩

/-- Claim C28, amended.  For every board and side the console `evaluateBoard` lies in
`[-164, 204]` and the graphical one in `[-164, 164]`; consequently every value returned by
`minimax`, for every depth, flag and every window `alpha < beta`, lies in the same range
and is neither of the sentinels `-100000` and `100000`. -/
theorem minimax_range (depth : Int) (isMaximizing : Bool) (player alpha beta : Int)
    (g : Game) (hab : alpha < beta) :
    (∀ (b : Board) (p : Int), -164 ≤ evaluateBoard b p ∧ evaluateBoard b p ≤ 204) ∧
    (∀ (b : Board) (p : Int), -164 ≤ evaluateBoardGUI b p ∧ evaluateBoardGUI b p ≤ 164) ∧
    (-164 ≤ (minimax depth isMaximizing player alpha beta g).1 ∧
      (minimax depth isMaximizing player alpha beta g).1 ≤ 204) ∧
    (-164 ≤ (minimaxGUI depth isMaximizing player alpha beta g).1 ∧
      (minimaxGUI depth isMaximizing player alpha beta g).1 ≤ 164) ∧
    (minimax depth isMaximizing player alpha beta g).1 ≠ -100000 ∧
    (minimax depth isMaximizing player alpha beta g).1 ≠ 100000 ∧
    (minimaxGUI depth isMaximizing player alpha beta g).1 ≠ -100000 ∧
    (minimaxGUI depth isMaximizing player alpha beta g).1 ≠ 100000 := by
  have hc := minimaxAux_pruned_bounds evaluateBoard player (-164) 204 evaluateBoard_range
    (by decide) (by decide) searchFuel depth isMaximizing alpha beta g hab
  have hg := minimaxAux_pruned_bounds evaluateBoardGUI player (-164) 164 evaluateBoardGUI_range
    (by decide) (by decide) searchFuel depth isMaximizing alpha beta g hab
  have hc' : -164 ≤ (minimax depth isMaximizing player alpha beta g).1 ∧
      (minimax depth isMaximizing player alpha beta g).1 ≤ 204 := hc
  have hg' : -164 ≤ (minimaxGUI depth isMaximizing player alpha beta g).1 ∧
      (minimaxGUI depth isMaximizing player alpha beta g).1 ≤ 164 := hg
  refine ⟨evaluateBoard_range, evaluateBoardGUI_range, hc', hg', ?_, ?_, ?_, ?_⟩ <;> omega

/-- Claim C28, amended, instance: the window `(0, 1)` at depth 1 on the start board. -/
theorem minimax_range_witness :
    (0 : Int) < 1 ∧
    -164 ≤ (minimax 1 true BLACK 0 1 initBoard).1 ∧
    (minimax 1 true BLACK 0 1 initBoard).1 ≤ 204 ∧
    (minimax 1 true BLACK 0 1 initBoard).1 ≠ -100000 :=
  have h := minimax_range 1 true BLACK 0 1 initBoard (by decide)
  ⟨by decide, h.2.2.1.1, h.2.2.1.2, h.2.2.2.2.1⟩

/-! ## Pass handling in `minimax` -/

/-- The maximizing branch handles a pass as the nested tests read: when the perspective
side has no legal move, `minimax` evaluates if the other side has none either and otherwise
recurses with `depth - 1` and the flag flipped, on the same board. -/
theorem minimaxWith_pass_max (prune : Bool) (ev : Board → Int → Int) (depth : Int)
    (player alpha beta : Int) (g : Game) (hd : depth ≠ 0) (hm : g.moveCount ≠ 64)
    (hp : hasValidMoves g.board player = false) :
    minimaxWith prune ev depth true player alpha beta g =
      if hasValidMoves g.board (opponentOf player) = false then (ev g.board player, g)
      else minimaxWith prune ev (depth - 1) false player alpha beta g := by
  have hterm : ¬ (depth = 0 ∨ g.moveCount = BOARD_SIZE * BOARD_SIZE) := by
    rintro (h | h)
    · exact hd h
    · exact hm h
  rw [minimaxWith_unfold, if_neg hterm]
  simp only [↓reduceIte, hp, Bool.not_false, Bool.not_eq_true', Bool.not_true]

/-- The minimizing branch never passes: its nested test asks again whether the opponent of
the perspective side, who is the side to move, has a legal move, so whenever that side has
none `minimax` evaluates the board, whether or not the perspective side could move. -/
theorem minimaxWith_pass_min (prune : Bool) (ev : Board → Int → Int) (depth : Int)
    (player alpha beta : Int) (g : Game)
    (hp : hasValidMoves g.board (opponentOf player) = false) :
    minimaxWith prune ev depth false player alpha beta g = (ev g.board player, g) := by
  rw [minimaxWith_unfold]
  simp only [Bool.false_eq_true, ↓reduceIte, hp, Bool.not_false, ite_self]

/-- Claim C24, failing input.  In the position `blackStuckGame` (`moveCount = 12`) Black
has no legal move and White has three.  The call `minimax(3, false, White, -100000,
100000)`, which `getAIMove` makes for White's candidate (0,2) one move earlier, has Black
as the side to move; it returns `evaluateBoard(White)` of the board, 11 in the console file
and -4 in the graphical file, although the forced pass `minimax(2, true, White, -100000,
100000)` on the same board has the value 15, respectively 0. -/
theorem minimax_min_pass_skipped :
    blackStuckGame.moveCount = 12 ∧
    hasValidMoves blackStuckGame.board BLACK = false ∧
    hasValidMoves blackStuckGame.board WHITE = true ∧
    minimax 3 false WHITE (-100000) 100000 blackStuckGame =
      (evaluateBoard blackStuckGame.board WHITE, blackStuckGame) ∧
    evaluateBoard blackStuckGame.board WHITE = 11 ∧
    (minimax 2 true WHITE (-100000) 100000 blackStuckGame).1 = 15 ∧
    minimaxGUI 3 false WHITE (-100000) 100000 blackStuckGame =
      (evaluateBoardGUI blackStuckGame.board WHITE, blackStuckGame) ∧
    evaluateBoardGUI blackStuckGame.board WHITE = -4 ∧
    (minimaxGUI 2 true WHITE (-100000) 100000 blackStuckGame).1 = 0 := by
  refine ⟨rfl, by decide, by decide, ?_, by decide, by decide, ?_, by decide, by decide⟩
  · exact minimaxWith_pass_min true evaluateBoard 3 WHITE _ _ blackStuckGame (by decide)
  · exact minimaxWith_pass_min true evaluateBoardGUI 3 WHITE _ _ blackStuckGame (by decide)

/-! ## The first call of the search -/

/-- Counterexample to claim C26 as stated.  With `MAX_DEPTH = 0` the call has depth -1,
which the test `depth == 0` does not stop.  On `lastCellGame`, for White, it plays Black's
reply (7,4) and returns the evaluation of the full board, 98, not the evaluation 117 of the
position it was called on. -/
theorem candidateScore_zero_counterexample :
    (0 : Int) - 1 = -1 ∧
    candidateScore 0 WHITE lastCellGame = minimax (-1) false WHITE (-100000) 100000 lastCellGame ∧
    evaluateBoard lastCellGame.board WHITE = 117 ∧
    (candidateScore 0 WHITE lastCellGame).1 = 98 ∧
    isValidMove lastCellGame.board 7 4 BLACK = true ∧
    evaluateBoard (makeMove 7 4 BLACK lastCellGame).board WHITE = 98 := by
  refine ⟨by decide, rfl, by decide, by decide, by decide, by decide⟩

/-- Claim C26, amended.  `getAIMove` scores a candidate with the call
`minimax(MAX_DEPTH - 1, false, side, -100000, 100000)`.  With `MAX_DEPTH = 1` this call has
depth 0 and performs no search: for every board and side it returns exactly
`evaluateBoard(side)` of the position it is called on.  With `MAX_DEPTH = 0` the call has
depth -1 and returns that evaluation without search when the position is full
(`moveCount = 64`) or neither side has a legal move. -/
theorem candidateScore_no_search (player : Int) (g : Game) :
    getAIMove player g = getAIMoveBy (candidateScore MAX_DEPTH player) player g ∧
    candidateScore 1 player g = (evaluateBoard g.board player, g) ∧
    (g.moveCount = 64 ∨
      (hasValidMoves g.board (opponentOf player) = false ∧
        hasValidMoves g.board player = false) →
      candidateScore 0 player g = (evaluateBoard g.board player, g)) := by
  refine ⟨rfl, ?_, ?_⟩
  · unfold candidateScore minimax
    rw [minimaxWith_unfold, if_pos (Or.inl (by norm_num))]
  · rintro (h | ⟨h, _⟩)
    · unfold candidateScore minimax
      have h' : (0 : Int) - 1 = 0 ∨ g.moveCount = BOARD_SIZE * BOARD_SIZE := Or.inr h
      rw [minimaxWith_unfold, if_pos h']
    · exact minimaxWith_pass_min true evaluateBoard _ player _ _ g h

/-- Claim C26, amended, instance: on the full board the call of depth -1 evaluates. -/
theorem candidateScore_no_search_witness :
    fullGame.moveCount = 64 ∧
    candidateScore 1 WHITE lastCellGame = (evaluateBoard lastCellGame.board WHITE, lastCellGame) ∧
    candidateScore 0 WHITE fullGame = (evaluateBoard fullGame.board WHITE, fullGame) :=
  ⟨rfl, (candidateScore_no_search WHITE lastCellGame).2.1,
    (candidateScore_no_search WHITE fullGame).2.2 (Or.inl rfl)⟩

/-! ## The game-over test of the driving loops -/

theorem humanTurn_gameOver (move : List Int) (s : ConsoleState) :
    (humanTurn move s).1.gameOver = s.gameOver := by
  rw [humanTurn_eq]
  split_ifs <;> rfl

/-- One iteration of the console loop sets `gameOver` exactly when neither the side to
move nor its opponent has a legal move. -/
theorem consoleStep_gameOver (move : List Int) (s : ConsoleState) :
    (consoleStep move s).1.gameOver =
      (s.gameOver || (!hasValidMoves s.game.board s.currentPlayer &&
        !hasValidMoves s.game.board (opponentOf s.currentPlayer))) := by
  unfold consoleStep
  cases h1 : hasValidMoves s.game.board s.currentPlayer
  · cases h2 : hasValidMoves s.game.board (opponentOf s.currentPlayer) <;> simp
  · simp only [Bool.not_true, Bool.false_eq_true, ↓reduceIte, Bool.false_and, Bool.or_false]
    split_ifs
    · exact humanTurn_gameOver move s
    · rfl

theorem guiClick_gameOver (click : Option (Int × Int)) (s : GuiState) :
    (guiClick click s).gameOver = s.gameOver := by
  unfold guiClick
  cases click with
  | none => rfl
  | some p =>
    obtain ⟨x, y⟩ := p
    simp only
    split_ifs <;> rfl

theorem guiClick_no_moves (click : Option (Int × Int)) (s : GuiState)
    (hb : hasValidMoves s.game.board BLACK = false) : guiClick click s = s := by
  cases click with
  | none => rfl
  | some p =>
    obtain ⟨x, y⟩ := p
    unfold guiClick
    simp only
    by_cases hg : (!s.gameOver && !s.anim.isAnimating && decide (s.currentPlayer = BLACK)) = true
    · rw [if_pos hg]
      have hp : s.currentPlayer = BLACK := by
        simp only [Bool.and_eq_true, decide_eq_true_eq] at hg
        exact hg.2
      rw [hp, isValidMove_false_of_no_moves _ _ hb]
      simp
    · rw [if_neg hg]

/-- The AI block leaves `gameOver` as it is, or sets it on a board that it leaves unchanged
and on which neither side has a legal move. -/
theorem guiAI_gameOver (s : GuiState) :
    (guiAI s).gameOver = s.gameOver ∨
    ((guiAI s).gameOver = true ∧ (guiAI s).game = s.game ∧
      hasValidMoves s.game.board BLACK = false ∧ hasValidMoves s.game.board WHITE = false) := by
  unfold guiAI
  by_cases hg : (!s.gameOver && !s.anim.isAnimating && decide (s.currentPlayer = WHITE)) = true
  · rw [if_pos hg]
    cases hw : hasValidMoves s.game.board WHITE
    · cases hb : hasValidMoves s.game.board BLACK
      · right
        simp
      · left
        simp
    · left
      simp only [↓reduceIte]
      split_ifs <;> rfl
  · rw [if_neg hg]
    exact Or.inl rfl

theorem guiAI_no_white_moves (s : GuiState) (hw : hasValidMoves s.game.board WHITE = false) :
    (guiAI s).game = s.game := by
  unfold guiAI
  simp only [hw, Bool.false_eq_true, ↓reduceIte]
  split_ifs <;> rfl

theorem guiGameOverCheck_gameOver (s : GuiState) :
    (guiGameOverCheck s).gameOver =
      (s.gameOver || (!hasValidMoves s.game.board BLACK && !hasValidMoves s.game.board WHITE)) := by
  unfold guiGameOverCheck
  cases hg : s.gameOver <;> cases hb : hasValidMoves s.game.board BLACK <;>
    cases hw : hasValidMoves s.game.board WHITE <;> simp [hg]

/-- The part of a frame up to the game-over check is the three blocks run on a state with
the board and `gameOver` the frame started with. -/
theorem guiTurn_blocks (inp : FrameInput) (s : GuiState) :
    ∃ s2 : GuiState, s2.game = s.game ∧ s2.gameOver = s.gameOver ∧
      guiTurn inp s = guiGameOverCheck (guiAI (guiClick inp.click s2)) := by
  unfold guiTurn
  dsimp only
  split_ifs
  · refine ⟨_, ?_, ?_, rfl⟩ <;> rfl
  · refine ⟨_, ?_, ?_, rfl⟩ <;> rfl

/-- After the game-over check `gameOver` is its value before the frame, or'ed with "neither
side has a legal move" on the board as the move handling of the frame left it. -/
theorem guiTurn_gameOver (inp : FrameInput) (s : GuiState) :
    (guiTurn inp s).gameOver =
      (s.gameOver || (!hasValidMoves (guiTurn inp s).game.board BLACK &&
        !hasValidMoves (guiTurn inp s).game.board WHITE)) := by
  obtain ⟨s2, _, h2, hf⟩ := guiTurn_blocks inp s
  rw [hf, guiGameOverCheck_gameOver, (guiGameOverCheck_game _).1, ← h2,
    ← guiClick_gameOver inp.click s2]
  rcases guiAI_gameOver (guiClick inp.click s2) with h | ⟨h, hg, hb, hw⟩
  · rw [h]
  · rw [h, hg, hb, hw]
    simp

theorem guiTurn_no_moves (inp : FrameInput) (s : GuiState)
    (hb : hasValidMoves s.game.board BLACK = false)
    (hw : hasValidMoves s.game.board WHITE = false) :
    (guiTurn inp s).game = s.game := by
  obtain ⟨s2, h1, _, hf⟩ := guiTurn_blocks inp s
  rw [hf, (guiGameOverCheck_game _).1, guiClick_no_moves inp.click s2 (by rw [h1]; exact hb),
    guiAI_no_white_moves s2 (by rw [h1]; exact hw), h1]

/-- With `gameOver` set after the check, a frame without a click on PLAY AGAIN leaves
`gameOver` set and the board as the check found it. -/
theorem guiFrame_over_no_restart (inp : FrameInput) (s : GuiState)
    (h : (guiTurn inp s).gameOver = true) (hc : inp.click = none ∨ inp.playHover = false) :
    (guiFrame inp s).gameOver = true ∧ (guiFrame inp s).game = (guiTurn inp s).game := by
  unfold guiFrame
  rw [if_pos h]
  unfold drawEndGameGUI
  rcases hc with hc | hc
  · rw [hc]
    exact ⟨h, rfl⟩
  · cases inp.click with
    | none => exact ⟨h, rfl⟩
    | some p =>
      simp only [hc, Bool.false_eq_true, ↓reduceIte]
      split_ifs
      · exact ⟨h, rfl⟩
      · exact ⟨h, rfl⟩

/-- With `gameOver` set after the check, a click on PLAY AGAIN in the same frame runs
`initBoard`. -/
theorem guiFrame_over_restart (inp : FrameInput) (s : GuiState)
    (h : (guiTurn inp s).gameOver = true) (hc : inp.click ≠ none)
    (hp : inp.playHover = true) :
    guiFrame inp s = initBoardGUI (guiTurn inp s) := by
  unfold guiFrame
  rw [if_pos h]
  unfold drawEndGameGUI
  cases hcl : inp.click with
  | none => exact absurd hcl hc
  | some p => simp only [hp, ↓reduceIte]

/-- The walk of `checkDirection` reads only cells on the board. -/
theorem checkDirectionLoop_congr_inBounds (b1 b2 : Board)
    (h : ∀ r c : Int, isInBounds r c = true → b1 r c = b2 r c)
    (dr dc player opponent : Int) (n : Nat) :
    ∀ (r c : Int) (f : Bool),
      checkDirectionLoop b1 dr dc player opponent n r c f =
        checkDirectionLoop b2 dr dc player opponent n r c f := by
  induction n with
  | zero => intro r c f; rfl
  | succ n ih =>
    intro r c f
    by_cases hin : isInBounds r c = true
    · simp only [checkDirectionLoop, h r c hin, ih]
    · simp only [checkDirectionLoop, hin, Bool.false_eq_true, ↓reduceIte]

/-- Whether a move is legal depends only on the 64 cells of the board. -/
theorem isValidMove_congr_inBounds (b1 b2 : Board)
    (h : ∀ r c : Int, isInBounds r c = true → b1 r c = b2 r c) (row col player : Int) :
    isValidMove b1 row col player = isValidMove b2 row col player := by
  unfold isValidMove checkDirection
  by_cases hin : isInBounds row col = true
  · simp only [h row col hin, checkDirectionLoop_congr_inBounds b1 b2 h]
  · simp only [hin, Bool.not_false, Bool.true_or, ↓reduceIte]

theorem hasValidMoves_congr_inBounds (b1 b2 : Board)
    (h : ∀ r c : Int, isInBounds r c = true → b1 r c = b2 r c) (player : Int) :
    hasValidMoves b1 player = hasValidMoves b2 player := by
  unfold hasValidMoves
  simp only [isValidMove_congr_inBounds b1 b2 h]

/-- After `initBoard` Black has a legal move, whatever the board was before. -/
theorem hasValidMoves_initBoardOn (g : Game) :
    hasValidMoves (initBoardOn g).board BLACK = true := by
  have hcell : ∀ r c : Int, isInBounds r c = true →
      (initBoardOn g).board r c = initBoard.board r c := by
    intro r c hin
    simp only [initBoardOn, initBoard, setCell, clearBoard_cell g.board r c hin]
  rw [hasValidMoves_congr_inBounds _ _ hcell]
  decide

/-- Every frame ends with `gameOver` set or with a legal move for one of the sides: the
loop never starts a frame with `gameOver` false on a board where neither side can move. -/
theorem guiFrame_inProgress (inp : FrameInput) (s : GuiState) :
    (guiFrame inp s).gameOver = true ∨
    hasValidMoves (guiFrame inp s).game.board BLACK = true ∨
    hasValidMoves (guiFrame inp s).game.board WHITE = true := by
  cases hgo : (guiTurn inp s).gameOver
  · rw [guiFrame_of_not_over inp s hgo]
    right
    have h := guiTurn_gameOver inp s
    rw [hgo] at h
    cases hb : hasValidMoves (guiTurn inp s).game.board BLACK
    · cases hw : hasValidMoves (guiTurn inp s).game.board WHITE
      · rw [hb, hw] at h
        cases hs : s.gameOver <;> rw [hs] at h <;> simp at h
      · exact Or.inr rfl
    · exact Or.inl rfl
  · by_cases hc : inp.click ≠ none ∧ inp.playHover = true
    · right; left
      rw [guiFrame_over_restart inp s hgo hc.1 hc.2]
      exact hasValidMoves_initBoardOn _
    · left
      have hc' : inp.click = none ∨ inp.playHover = false := by
        by_cases h1 : inp.click = none
        · exact Or.inl h1
        · right
          cases hp : inp.playHover
          · rfl
          · exact absurd ⟨h1, hp⟩ hc
      exact (guiFrame_over_no_restart inp s hgo hc').1

set_option maxRecDepth 100000 in
/-- Counterexample to claim C21 as stated.  In `lastCellGame` Black has a legal move, the
last empty cell (7,4): the frame in which Black clicks that cell (pixel (444, 750), outside
both buttons of the end-game panel) plays the move, and the game-over test, which comes
after the move, sets `gameOver` in the same frame.  In `whiteLastGame` White has a legal
move, the last empty cell (7,6): the frame in which the AI block plays it sets `gameOver`
as well.  On the full board `fullGame`, where neither side has a legal move and the game
is over, the frame with a click on PLAY AGAIN runs `initBoard`: afterwards `gameOver` is
false and the board is the start board. -/
theorem guiFrame_gameOver_counterexample :
    hasValidMoves lastCellGame.board BLACK = true ∧
    (guiBlackToMove lastCellGame).gameOver = false ∧
    pixelToRow 750 = 7 ∧ pixelToCol 444 = 4 ∧
    (guiFrame ⟨some (444, 750), false, false, false⟩
      (guiBlackToMove lastCellGame)).gameOver = true ∧
    (guiFrame ⟨some (444, 750), false, false, false⟩
      (guiBlackToMove lastCellGame)).game.moveCount = 64 ∧
    rowsOfBoard (guiFrame ⟨some (444, 750), false, false, false⟩
      (guiBlackToMove lastCellGame)).game.board = fullRows ∧
    hasValidMoves whiteLastGame.board WHITE = true ∧
    (guiWhiteToMove whiteLastGame).gameOver = false ∧
    (guiFrame ⟨none, false, false, false⟩ (guiWhiteToMove whiteLastGame)).gameOver = true ∧
    (guiFrame ⟨none, false, false, false⟩ (guiWhiteToMove whiteLastGame)).game.moveCount =
      64 ∧
    (guiFrame ⟨none, false, false, false⟩ (guiWhiteToMove whiteLastGame)).game.board 7 6 =
      WHITE ∧
    hasValidMoves fullGame.board BLACK = false ∧ hasValidMoves fullGame.board WHITE = false ∧
    fullGame.board 0 0 = BLACK ∧
    (guiFrame ⟨some (300, 600), false, true, false⟩
      { guiWhiteToMove fullGame with gameOver := true }).gameOver = false ∧
    (guiFrame ⟨some (300, 600), false, true, false⟩
      { guiWhiteToMove fullGame with gameOver := true }).game.moveCount = 4 ∧
    (guiFrame ⟨some (300, 600), false, true, false⟩
      { guiWhiteToMove fullGame with gameOver := true }).game.board 0 0 = EMPTY := by
  repeat' apply And.intro
  all_goals decide

/-- Claim C21, amended.  In both shells the game-over test of the driving loop is "neither
side has a legal move".  Console: on every board where `hasValidMoves(Black)` and
`hasValidMoves(White)` are both false the iteration sets game over, whatever `moveCount`
and the side to move are, and leaves the board unchanged; on every board where a side has
a legal move it does not set game over.  Graphical: the frame runs its test after its move
handling and before the end-game panel.  At the test, on every board where neither side
has a legal move game over is set, whatever `moveCount` and the side to move are, and the
board is unchanged; in general game over is then its earlier value or'ed with "neither side
has a legal move on the board as the move handling left it", so that a frame that makes no
move does not set game over when a side has a legal move.  The end-game panel, drawn in the
same frame when game over is set, runs `initBoard` if PLAY AGAIN is clicked in that frame;
in every other frame game over and the board stay as the test left them. -/
theorem gameOver_iff_no_moves (move : List Int) (s : ConsoleState) (inp : FrameInput)
    (gs : GuiState) (hs : ValidSide s.currentPlayer) :
    ((hasValidMoves s.game.board BLACK = false ∧ hasValidMoves s.game.board WHITE = false) →
      (consoleStep move s).1.gameOver = true ∧ (consoleStep move s).1.game = s.game) ∧
    ((hasValidMoves s.game.board BLACK = true ∨ hasValidMoves s.game.board WHITE = true) →
      (consoleStep move s).1.gameOver = s.gameOver) ∧
    ((hasValidMoves gs.game.board BLACK = false ∧ hasValidMoves gs.game.board WHITE = false) →
      (guiTurn inp gs).gameOver = true ∧ (guiTurn inp gs).game = gs.game) ∧
    (guiTurn inp gs).gameOver =
      (gs.gameOver || (!hasValidMoves (guiTurn inp gs).game.board BLACK &&
        !hasValidMoves (guiTurn inp gs).game.board WHITE)) ∧
    ((guiTurn inp gs).game = gs.game →
      (hasValidMoves gs.game.board BLACK = true ∨ hasValidMoves gs.game.board WHITE = true) →
      (guiTurn inp gs).gameOver = gs.gameOver) ∧
    ((guiTurn inp gs).gameOver = false → guiFrame inp gs = guiTurn inp gs) ∧
    ((guiTurn inp gs).gameOver = true → (inp.click = none ∨ inp.playHover = false) →
      (guiFrame inp gs).gameOver = true ∧ (guiFrame inp gs).game = (guiTurn inp gs).game) ∧
    ((guiTurn inp gs).gameOver = true → inp.click ≠ none → inp.playHover = true →
      guiFrame inp gs = initBoardGUI (guiTurn inp gs)) ∧
    ((hasValidMoves gs.game.board BLACK = false ∧ hasValidMoves gs.game.board WHITE = false) →
      (inp.click = none ∨ inp.playHover = false) →
      (guiFrame inp gs).gameOver = true ∧ (guiFrame inp gs).game = gs.game) := by
  have hpair : (!hasValidMoves s.game.board s.currentPlayer &&
      !hasValidMoves s.game.board (opponentOf s.currentPlayer)) =
      (!hasValidMoves s.game.board BLACK && !hasValidMoves s.game.board WHITE) := by
    have ho1 : opponentOf BLACK = WHITE := by decide
    have ho2 : opponentOf WHITE = BLACK := by decide
    rcases hs with h | h
    · rw [h, ho1]
    · rw [h, ho2]; exact Bool.and_comm _ _
  have hturn : (hasValidMoves gs.game.board BLACK = false ∧
      hasValidMoves gs.game.board WHITE = false) →
      (guiTurn inp gs).gameOver = true ∧ (guiTurn inp gs).game = gs.game := by
    rintro ⟨hb, hw⟩
    have hg := guiTurn_no_moves inp gs hb hw
    refine ⟨?_, hg⟩
    rw [guiTurn_gameOver, hg, hb, hw]; simp
  refine ⟨?_, ?_, hturn, guiTurn_gameOver inp gs, ?_, guiFrame_of_not_over inp gs,
    guiFrame_over_no_restart inp gs, guiFrame_over_restart inp gs, ?_⟩
  · rintro ⟨hb, hw⟩
    constructor
    · rw [consoleStep_gameOver, hpair, hb, hw]; simp
    · have ho1 : opponentOf BLACK = WHITE := by decide
      have ho2 : opponentOf WHITE = BLACK := by decide
      have h1 : hasValidMoves s.game.board s.currentPlayer = false := by
        rcases hs with h | h <;> rw [h] <;> assumption
      have h2 : hasValidMoves s.game.board (opponentOf s.currentPlayer) = false := by
        rcases hs with h | h
        · rw [h, ho1]; exact hw
        · rw [h, ho2]; exact hb
      unfold consoleStep
      simp only [h1, h2, Bool.not_false, ↓reduceIte]
  · intro h
    rw [consoleStep_gameOver, hpair]
    rcases h with h | h <;> rw [h] <;> simp
  · intro hg h
    rw [guiTurn_gameOver, hg]
    rcases h with h | h <;> rw [h] <;> simp
  · intro hn hc
    obtain ⟨h1, h2⟩ := hturn hn
    obtain ⟨f1, f2⟩ := guiFrame_over_no_restart inp gs h1 hc
    exact ⟨f1, by rw [f2, h2]⟩

/-- Claim C21, amended, instance: on the full board, with `moveCount = 64`, both loops set
game over, whoever is to move. -/
theorem gameOver_iff_no_moves_witness :
    ValidSide WHITE ∧
    hasValidMoves fullGame.board BLACK = false ∧ hasValidMoves fullGame.board WHITE = false ∧
    (consoleStep [] ⟨fullGame, WHITE, false⟩).1.gameOver = true ∧
    (guiTurn ⟨none, false, false, false⟩ (guiBlackToMove fullGame)).gameOver = true ∧
    (guiFrame ⟨none, false, false, false⟩ (guiBlackToMove fullGame)).gameOver = true :=
  have h := gameOver_iff_no_moves [] ⟨fullGame, WHITE, false⟩ ⟨none, false, false, false⟩
    (guiBlackToMove fullGame) (Or.inr rfl)
  ⟨Or.inr rfl, by decide, by decide, (h.1 ⟨by decide, by decide⟩).1,
    (h.2.2.1 ⟨by decide, by decide⟩).1,
    (h.2.2.2.2.2.2.2.2 ⟨by decide, by decide⟩ (Or.inl rfl)).1⟩


end Reversi
